import Mathlib

/-
Verification of the priority-driven shortest-path / range-structure core of a
TypeScript algorithm library.  Each data structure and algorithm below is a
shallow embedding of the corresponding TypeScript source:

  * `JsMap`                 models JavaScript `Map` (insertion-ordered assoc list)
  * `LRUCache` / `LFUCache` model src/data-structures/lruCache.ts, lfuCache.ts
  * `UnionFind`             models src/data-structures/unionFind.ts
  * `FenwickTree`           models the FenwickTree class (Binary Indexed Tree)
  * `SegmentTree` / `LazySegmentTree` model src/data-structures/segmentTree.ts
  * `bellmanFord` / `floydWarshall`   model src/graphs/bellmanFord.ts, floydWarshall.ts
  * `dijkstra` / `getPath`            model the Dijkstra source file

JavaScript numbers are modelled as `Int` (all programs here stay within exact
integer arithmetic); `Infinity` used as a distance is modelled by `⊤ : WithTop ℤ`.
-/

/-! ## JavaScript `Map` as an insertion-ordered association list

`Map.set` on an existing key replaces the value in place (keeping insertion
position); on a fresh key it appends.  `Map.get` returns the first (unique)
match, `Map.delete` removes the entry.  Iteration order is list order. -/

namespace JsMap

/-- Value lookup, modelling `Map.prototype.get` (`none` = `undefined`). -/
def mget {α : Type} (m : List (Nat × α)) (k : Nat) : Option α :=
  match m with
  | [] => none
  | (k₁, v) :: rest => if k₁ = k then some v else mget rest k

/-- Modelling `Map.prototype.set`: replace in place, or append a fresh key. -/
def mset {α : Type} (m : List (Nat × α)) (k : Nat) (v : α) : List (Nat × α) :=
  match m with
  | [] => [(k, v)]
  | (k₁, v₁) :: rest => if k₁ = k then (k₁, v) :: rest else (k₁, v₁) :: mset rest k v

/-- Modelling `Map.prototype.delete` (dropping the unique entry for `k`). -/
def mdelete {α : Type} (m : List (Nat × α)) (k : Nat) : List (Nat × α) :=
  match m with
  | [] => []
  | (k₁, v₁) :: rest => if k₁ = k then rest else (k₁, v₁) :: mdelete rest k

/-- Key list in iteration (insertion) order, modelling `Map.prototype.keys`. -/
def mkeys {α : Type} (m : List (Nat × α)) : List Nat :=
  m.map Prod.fst

@[simp] theorem mget_nil {α : Type} (k : Nat) : mget ([] : List (Nat × α)) k = none := rfl

@[simp] theorem mget_cons {α : Type} (k₁ k : Nat) (v : α) (rest : List (Nat × α)) :
    mget ((k₁, v) :: rest) k = if k₁ = k then some v else mget rest k := rfl

theorem mget_mset_self {α : Type} (m : List (Nat × α)) (k : Nat) (v : α) :
    mget (mset m k v) k = some v := by
  induction m with
  | nil => simp [mget, mset]
  | cons hd tl ih =>
    obtain ⟨k₁, v₁⟩ := hd
    by_cases h : k₁ = k <;> simp [mget, mset, h, ih]

theorem mget_mset_ne {α : Type} (m : List (Nat × α)) (k k₂ : Nat) (v : α) (h : k ≠ k₂) :
    mget (mset m k v) k₂ = mget m k₂ := by
  induction m with
  | nil => simp [mget, mset, h]
  | cons hd tl ih =>
    obtain ⟨k₁, v₁⟩ := hd
    by_cases h₁ : k₁ = k
    · subst h₁; simp [mget, mset, h]
    · simp [mget, mset, h₁, ih]

theorem mkeys_mset_of_mem {α : Type} (m : List (Nat × α)) (k : Nat) (v : α)
    (h : mget m k ≠ none) : mkeys (mset m k v) = mkeys m := by
  induction m with
  | nil => simp [mget] at h
  | cons hd tl ih =>
    obtain ⟨k₁, v₁⟩ := hd
    by_cases h₁ : k₁ = k
    · simp [mset, mkeys, h₁]
    · simp [mget, h₁] at h
      simp [mset, mkeys, h₁] at ih ⊢
      exact ih h

theorem mkeys_mset_of_fresh {α : Type} (m : List (Nat × α)) (k : Nat) (v : α)
    (h : mget m k = none) : mkeys (mset m k v) = mkeys m ++ [k] := by
  induction m with
  | nil => simp [mset, mkeys]
  | cons hd tl ih =>
    obtain ⟨k₁, v₁⟩ := hd
    by_cases h₁ : k₁ = k
    · simp [mget, h₁] at h
    · simp [mget, h₁] at h
      simp [mset, mkeys, h₁] at ih ⊢
      exact ih h

theorem mget_eq_none_iff {α : Type} (m : List (Nat × α)) (k : Nat) :
    mget m k = none ↔ k ∉ mkeys m := by
  induction m with
  | nil => simp [mget, mkeys]
  | cons hd tl ih =>
    obtain ⟨k₁, v₁⟩ := hd
    by_cases h₁ : k₁ = k <;> simp [mget, mkeys, h₁, ih]
    intro h; exact fun hc => h₁ hc.symm

theorem nodup_mkeys_tail {α : Type} (k₁ : Nat) (v₁ : α) (tl : List (Nat × α))
    (hnd : (mkeys ((k₁, v₁) :: tl)).Nodup) : (mkeys tl).Nodup := by
  simpa [mkeys] using hnd.of_cons

theorem not_mem_mkeys_tail {α : Type} (k₁ : Nat) (v₁ : α) (tl : List (Nat × α))
    (hnd : (mkeys ((k₁, v₁) :: tl)).Nodup) : k₁ ∉ mkeys tl := by
  have : (mkeys ((k₁, v₁) :: tl)) = k₁ :: mkeys tl := by simp [mkeys]
  rw [this] at hnd
  exact (List.nodup_cons.1 hnd).1

theorem mkeys_mdelete {α : Type} (m : List (Nat × α)) (k : Nat)
    (hnd : (mkeys m).Nodup) : mkeys (mdelete m k) = (mkeys m).erase k := by
  induction m with
  | nil => simp [mdelete, mkeys]
  | cons hd tl ih =>
    obtain ⟨k₁, v₁⟩ := hd
    have hnd₂ := nodup_mkeys_tail _ _ _ hnd
    by_cases h₁ : k₁ = k
    · subst h₁
      simp [mdelete, mkeys, List.erase_cons_head]
    · have hbeq : (k₁ == k) = false := by simp [h₁]
      simp [mdelete, mkeys, h₁, List.erase_cons, hbeq] at ih ⊢
      exact ih hnd₂

theorem mget_mdelete_self {α : Type} (m : List (Nat × α)) (k : Nat)
    (hnd : (mkeys m).Nodup) : mget (mdelete m k) k = none := by
  induction m with
  | nil => simp [mdelete]
  | cons hd tl ih =>
    obtain ⟨k₁, v₁⟩ := hd
    have hnd₂ := nodup_mkeys_tail _ _ _ hnd
    by_cases h₁ : k₁ = k
    · subst h₁
      have hmem := not_mem_mkeys_tail _ v₁ _ hnd
      simp [mdelete]
      exact (mget_eq_none_iff tl k₁).2 hmem
    · simp [mdelete, mget, h₁, ih hnd₂]

theorem mget_mdelete_ne {α : Type} (m : List (Nat × α)) (k k₂ : Nat) (h : k ≠ k₂) :
    mget (mdelete m k) k₂ = mget m k₂ := by
  induction m with
  | nil => simp [mdelete]
  | cons hd tl ih =>
    obtain ⟨k₁, v₁⟩ := hd
    by_cases h₁ : k₁ = k
    · subst h₁
      have h₂ : k₁ ≠ k₂ := h
      simp [mdelete, mget, h₂]
    · simp [mdelete, mget, h₁, ih]

theorem nodup_mkeys_mset {α : Type} (m : List (Nat × α)) (k : Nat) (v : α)
    (hnd : (mkeys m).Nodup) : (mkeys (mset m k v)).Nodup := by
  by_cases h : mget m k = none
  · rw [mkeys_mset_of_fresh m k v h]
    rw [mget_eq_none_iff] at h
    simp [List.nodup_append, hnd]
    intro hc; exact h hc
  · rw [mkeys_mset_of_mem m k v h]; exact hnd

theorem nodup_mkeys_mdelete {α : Type} (m : List (Nat × α)) (k : Nat)
    (hnd : (mkeys m).Nodup) : (mkeys (mdelete m k)).Nodup := by
  rw [mkeys_mdelete m k hnd]
  exact hnd.erase k

theorem length_mset_of_mem {α : Type} (m : List (Nat × α)) (k : Nat) (v : α)
    (h : mget m k ≠ none) : (mset m k v).length = m.length := by
  have h₀ := mkeys_mset_of_mem m k v h
  have h₁ : (mkeys (mset m k v)).length = (mkeys m).length := by rw [h₀]
  simpa [mkeys] using h₁

theorem length_mset_of_fresh {α : Type} (m : List (Nat × α)) (k : Nat) (v : α)
    (h : mget m k = none) : (mset m k v).length = m.length + 1 := by
  have h₀ := mkeys_mset_of_fresh m k v h
  have h₁ : (mkeys (mset m k v)).length = (mkeys m).length + 1 := by simp [h₀]
  simpa [mkeys] using h₁

theorem length_mdelete_of_mem {α : Type} (m : List (Nat × α)) (k : Nat)
    (hnd : (mkeys m).Nodup) (h : mget m k ≠ none) :
    (mdelete m k).length + 1 = m.length := by
  have hk : k ∈ mkeys m := by
    by_contra hc
    exact h ((mget_eq_none_iff m k).2 hc)
  have := mkeys_mdelete m k hnd
  have h₁ : (mkeys (mdelete m k)).length = (mkeys m).length - 1 := by
    rw [this, List.length_erase_of_mem hk]
  have h₂ : 1 ≤ (mkeys m).length := by
    cases m with
    | nil => simp [mkeys] at hk
    | cons hd tl => simp [mkeys]
  simp [mkeys] at h₁ h₂
  omega

end JsMap

open JsMap

/-! ## LRU Cache (src/data-structures/lruCache.ts)

State of `LRUCache<K, V>` with `K = V = number`: the key→node `Map` is
modelled as `cache : List (Nat × Int)` (node values inlined) and the intrusive
doubly-linked list (between the two sentinels) as `order : List Nat`, most
recently used first (`head.next` side), least recently used last (`tail.prev`
side).  Each linked-list node is identified by its key, which is how the
class uses it (`this.cache.delete(lru.key)`). -/

structure LRUCache where
  capacity : Int
  cache : List (Nat × Int)
  order : List Nat
  deriving Repr, DecidableEq

namespace LRUCache

/-- Constructor: empty map, `head.next = tail`. -/
def init (capacity : Int) : LRUCache :=
  { capacity := capacity, cache := [], order := [] }

/-- Inner helper `removeLast`: returns `tail.prev` unless the list is empty. -/
def removeLast (order : List Nat) : Option Nat × List Nat :=
  match order.getLast? with
  | none => (none, order)
  | some k => (some k, order.dropLast)

/-- Method `get`: return the value and move the node to the front. -/
def get (s : LRUCache) (key : Nat) : Option Int × LRUCache :=
  match mget s.cache key with
  | none => (none, s)
  | some v => (some v, { s with order := key :: s.order.erase key })

/-- Method `put`: update-and-promote an existing key, or insert at the front
and evict `tail.prev` when the map has grown past `capacity`. -/
def put (s : LRUCache) (key : Nat) (value : Int) : LRUCache :=
  match mget s.cache key with
  | some _ =>
      { s with cache := mset s.cache key value, order := key :: s.order.erase key }
  | none =>
      let cache₁ := mset s.cache key value
      let order₁ := key :: s.order
      if (cache₁.length : Int) > s.capacity then
        match removeLast order₁ with
        | (some lru, order₂) => { s with cache := mdelete cache₁ lru, order := order₂ }
        | (none, order₂) => { s with cache := cache₁, order := order₂ }
      else
        { s with cache := cache₁, order := order₁ }

/-- Method `has`. -/
def hasKey (s : LRUCache) (key : Nat) : Bool :=
  (mget s.cache key).isSome

/-- Method `delete`. -/
def delete (s : LRUCache) (key : Nat) : Bool × LRUCache :=
  match mget s.cache key with
  | none => (false, s)
  | some _ => (true, { s with cache := mdelete s.cache key, order := s.order.erase key })

/-- Method `size`. -/
def size (s : LRUCache) : Nat :=
  s.cache.length

/-- Method `keys`: linked-list order, most to least recently used. -/
def keys (s : LRUCache) : List Nat :=
  s.order

end LRUCache

/-! ### LRU invariants -/

namespace LRUCache

/-- Operations observable on the cache surface (`get`/`put`/`delete`). -/
inductive Op where
  | get (k : Nat)
  | put (k : Nat) (v : Int)
  | del (k : Nat)
  deriving Repr, DecidableEq

/-- Apply one operation, discarding the returned value. -/
def step (s : LRUCache) (op : Op) : LRUCache :=
  match op with
  | .get k => (get s k).2
  | .put k v => put s k v
  | .del k => (delete s k).2

/-- Run a sequence of operations. -/
def runOps (s : LRUCache) (ops : List Op) : LRUCache :=
  ops.foldl step s

/-- Internal consistency: the key set of the map has no duplicates, the
linked list holds exactly the mapped keys, and the size respects capacity. -/
def Inv (s : LRUCache) : Prop :=
  (mkeys s.cache).Nodup ∧ s.order.Perm (mkeys s.cache) ∧ (s.cache.length : Int) ≤ s.capacity

theorem inv_init (capacity : Int) (h : 0 ≤ capacity) : Inv (init capacity) := by
  refine ⟨by simp [init, mkeys], by simp [init, mkeys], by simpa [init] using h⟩


theorem get_eq_none (s : LRUCache) (k : Nat) (h : mget s.cache k = none) :
    get s k = (none, s) := by
  simp [get, h]

theorem get_eq_some (s : LRUCache) (k : Nat) (v : Int) (h : mget s.cache k = some v) :
    get s k = (some v, { s with order := k :: s.order.erase k }) := by
  simp [get, h]

theorem put_eq_mem (s : LRUCache) (k : Nat) (v v₀ : Int) (h : mget s.cache k = some v₀) :
    put s k v = { s with cache := mset s.cache k v, order := k :: s.order.erase k } := by
  simp [put, h]

theorem removeLast_cons (k : Nat) (l : List Nat) :
    ∃ lru, removeLast (k :: l) = (some lru, (k :: l).dropLast) ∧
      (k :: l).getLast? = some lru := by
  have hne : k :: l ≠ [] := by simp
  refine ⟨(k :: l).getLast hne, ?_, ?_⟩
  · rw [removeLast, List.getLast?_eq_getLast _ hne]
  · rw [List.getLast?_eq_getLast _ hne]

theorem put_eq_fresh_over (s : LRUCache) (k : Nat) (v : Int) (lru : Nat) (ord₂ : List Nat)
    (h : mget s.cache k = none) (hover : ((mset s.cache k v).length : Int) > s.capacity)
    (hrl : removeLast (k :: s.order) = (some lru, ord₂)) :
    put s k v = { s with cache := mdelete (mset s.cache k v) lru, order := ord₂ } := by
  simp [put, h, hover, hrl]

theorem put_eq_fresh_under (s : LRUCache) (k : Nat) (v : Int)
    (h : mget s.cache k = none) (hover : ¬ ((mset s.cache k v).length : Int) > s.capacity) :
    put s k v = { s with cache := mset s.cache k v, order := k :: s.order } := by
  simp [put, h, hover]

theorem delete_eq_none (s : LRUCache) (k : Nat) (h : mget s.cache k = none) :
    delete s k = (false, s) := by
  simp [delete, h]

theorem delete_eq_some (s : LRUCache) (k : Nat) (v : Int) (h : mget s.cache k = some v) :
    delete s k = (true, { s with cache := mdelete s.cache k, order := s.order.erase k }) := by
  simp [delete, h]

theorem mem_mkeys_of_mget_some {α : Type} (m : List (Nat × α)) (k : Nat) (v : α)
    (h : mget m k = some v) : k ∈ mkeys m := by
  by_contra hc
  rw [(mget_eq_none_iff m k).2 hc] at h
  exact Option.noConfusion h

theorem perm_cons_self_append (k : Nat) (l : List Nat) : (k :: l).Perm (l ++ [k]) :=
  (List.perm_append_singleton k l).symm

/-- A `put` of a fresh key when the cache is exactly full evicts precisely the
least recently used key (the back of the recency list); every other key keeps
its value and the new key is inserted. -/
theorem put_fresh_full_evicts (s : LRUCache) (key : Nat) (value : Int)
    (hnd : (mkeys s.cache).Nodup) (hperm : s.order.Perm (mkeys s.cache))
    (hfull : (s.cache.length : Int) = s.capacity) (hfresh : mget s.cache key = none)
    (hpos : 1 ≤ s.capacity) :
    ∃ lru, s.order.getLast? = some lru ∧ lru ∈ mkeys s.cache ∧ lru ≠ key ∧
      (put s key value).order = key :: s.order.dropLast ∧
      mget (put s key value).cache lru = none ∧
      mget (put s key value).cache key = some value ∧
      (∀ k₂, k₂ ≠ lru → k₂ ≠ key →
        mget (put s key value).cache k₂ = mget s.cache k₂) ∧
      (put s key value).cache.length = s.cache.length := by
  have hlen : 1 ≤ s.cache.length := by
    by_contra hc
    have h0 : s.cache.length = 0 := by omega
    rw [h0] at hfull
    omega
  have hordlen : s.order.length = s.cache.length := by
    have := hperm.length_eq
    simpa [mkeys] using this
  obtain ⟨lru, hrl, hlast⟩ := removeLast_cons key s.order
  have hlru_mem_order : lru ∈ key :: s.order := by
    obtain ⟨ys, hys⟩ := List.getLast?_eq_some_iff.1 hlast
    rw [hys]; simp
  have hlru_ne_or : lru = key ∨ lru ∈ s.order := by simpa using hlru_mem_order
  have hover : ((mset s.cache key value).length : Int) > s.capacity := by
    rw [length_mset_of_fresh s.cache key value hfresh]
    push_cast
    omega
  have hnd₁ : (mkeys (mset s.cache key value)).Nodup := nodup_mkeys_mset _ _ _ hnd
  have hput := put_eq_fresh_over s key value lru ((key :: s.order).dropLast) hfresh hover hrl
  have hlast₂ : s.order.getLast? = some lru := by
    cases hord : s.order with
    | nil =>
      rw [hord] at hordlen
      simp at hordlen
      omega
    | cons a l =>
      rw [hord] at hlast
      rw [show key :: a :: l = [key] ++ (a :: l) from rfl] at hlast
      rw [List.getLast?_append_of_ne_nil] at hlast
      · exact hlast
      · simp
  have hlru_mem : lru ∈ mkeys s.cache := by
    apply hperm.mem_iff.1
    obtain ⟨ys, hys⟩ := List.getLast?_eq_some_iff.1 hlast₂
    rw [hys]; simp
  have hlru_ne : lru ≠ key := by
    intro hc
    rw [hc] at hlru_mem
    exact (mget_eq_none_iff s.cache key).1 hfresh hlru_mem
  have hdrop : (key :: s.order).dropLast = key :: s.order.dropLast := by
    obtain ⟨ys, hys⟩ := List.getLast?_eq_some_iff.1 hlast₂
    rw [hys, show key :: (ys ++ [lru]) = (key :: ys) ++ [lru] from rfl,
      List.dropLast_concat, List.dropLast_concat]
  have hlru_mem₁ : lru ∈ mkeys (mset s.cache key value) := by
    rw [mkeys_mset_of_fresh s.cache key value hfresh]
    exact List.mem_append_left _ hlru_mem
  refine ⟨lru, hlast₂, hlru_mem, hlru_ne, ?_, ?_, ?_, ?_, ?_⟩
  · rw [hput, hdrop]
  · rw [hput]
    exact mget_mdelete_self _ _ hnd₁
  · rw [hput]
    show mget (mdelete (mset s.cache key value) lru) key = some value
    rw [mget_mdelete_ne _ _ _ hlru_ne, mget_mset_self]
  · intro k₂ hk₂lru hk₂key
    rw [hput]
    show mget (mdelete (mset s.cache key value) lru) k₂ = mget s.cache k₂
    rw [mget_mdelete_ne _ _ _ (Ne.symm hk₂lru), mget_mset_ne _ _ _ _ (Ne.symm hk₂key)]
  · rw [hput]
    show (mdelete (mset s.cache key value) lru).length = s.cache.length
    have hlen₁ := length_mset_of_fresh s.cache key value hfresh
    have hlen₂ := length_mdelete_of_mem (mset s.cache key value) lru hnd₁
      (fun hc => ((mget_eq_none_iff _ _).1 hc) hlru_mem₁)
    omega

theorem inv_step (s : LRUCache) (op : Op) (h : Inv s) : Inv (step s op) := by
  obtain ⟨hnd, hperm, hcap⟩ := h
  cases op with
  | get k =>
    show Inv (get s k).2
    cases hk : mget s.cache k with
    | none => rw [get_eq_none s k hk]; exact ⟨hnd, hperm, hcap⟩
    | some v =>
      rw [get_eq_some s k v hk]
      refine ⟨hnd, ?_, hcap⟩
      have hmem : k ∈ s.order := hperm.mem_iff.2 (mem_mkeys_of_mget_some _ _ _ hk)
      exact ((List.perm_cons_erase hmem).symm).trans hperm
  | put k v =>
    show Inv (put s k v)
    cases hk : mget s.cache k with
    | some v₀ =>
      rw [put_eq_mem s k v v₀ hk]
      have hkne : mget s.cache k ≠ none := by rw [hk]; exact fun hc => Option.noConfusion hc
      refine ⟨?_, ?_, ?_⟩
      · simpa [mkeys_mset_of_mem s.cache k v hkne] using hnd
      · have hmem : k ∈ s.order := hperm.mem_iff.2 (mem_mkeys_of_mget_some _ _ _ hk)
        have h₁ := ((List.perm_cons_erase hmem).symm).trans hperm
        show (k :: s.order.erase k).Perm (mkeys (mset s.cache k v))
        rw [mkeys_mset_of_mem s.cache k v hkne]
        exact h₁
      · show ((mset s.cache k v).length : Int) ≤ s.capacity
        rw [length_mset_of_mem s.cache k v hkne]
        exact hcap
    | none =>
      by_cases hover : ((mset s.cache k v).length : Int) > s.capacity
      · obtain ⟨lru, hrl, hlast⟩ := removeLast_cons k s.order
        rw [put_eq_fresh_over s k v lru ((k :: s.order).dropLast) hk hover hrl]
        have hnd₁ : (mkeys (mset s.cache k v)).Nodup := nodup_mkeys_mset _ _ _ hnd
        have hperm₁ : (k :: s.order).Perm (mkeys (mset s.cache k v)) := by
          rw [mkeys_mset_of_fresh s.cache k v hk]
          exact (hperm.cons k).trans (perm_cons_self_append k (mkeys s.cache))
        have hdec : (k :: s.order).dropLast ++ [lru] = k :: s.order := by
          obtain ⟨ys, hys⟩ := List.getLast?_eq_some_iff.1 hlast
          rw [hys, List.dropLast_concat]
        have hlru_mem : lru ∈ mkeys (mset s.cache k v) := by
          apply hperm₁.mem_iff.1
          rw [← hdec]; simp
        refine ⟨nodup_mkeys_mdelete _ _ hnd₁, ?_, ?_⟩
        · show ((k :: s.order).dropLast).Perm (mkeys (mdelete (mset s.cache k v) lru))
          rw [mkeys_mdelete _ _ hnd₁]
          have h₂ : ((k :: s.order).dropLast ++ [lru]).Perm (mkeys (mset s.cache k v)) := by
            rw [hdec]; exact hperm₁
          have h₃ := (h₂.erase lru).symm
          have hnd₂ : ((k :: s.order).dropLast ++ [lru]).Nodup := by
            rw [hdec]
            exact hperm₁.nodup_iff.2 hnd₁
          have hnotmem : lru ∉ (k :: s.order).dropLast := by
            have hdisj := (List.nodup_append.1 hnd₂).2.2
            intro hc
            exact hdisj hc (by simp)
          rw [List.erase_append_right _ hnotmem] at h₃
          simpa using h₃.symm
        · show ((mdelete (mset s.cache k v) lru).length : Int) ≤ s.capacity
          have hlen₁ := length_mset_of_fresh s.cache k v hk
          have hlen₂ := length_mdelete_of_mem (mset s.cache k v) lru hnd₁
            (fun hc => ((mget_eq_none_iff _ _).1 hc) hlru_mem)
          have : ((mset s.cache k v).length : Int) ≤ s.capacity + 1 := by
            rw [hlen₁]; push_cast; omega
          omega
      · rw [put_eq_fresh_under s k v hk hover]
        refine ⟨nodup_mkeys_mset _ _ _ hnd, ?_, by simpa using not_lt.1 hover⟩
        show (k :: s.order).Perm (mkeys (mset s.cache k v))
        rw [mkeys_mset_of_fresh s.cache k v hk]
        exact (hperm.cons k).trans (perm_cons_self_append k (mkeys s.cache))
  | del k =>
    show Inv (delete s k).2
    cases hk : mget s.cache k with
    | none => rw [delete_eq_none s k hk]; exact ⟨hnd, hperm, hcap⟩
    | some v =>
      rw [delete_eq_some s k v hk]
      have hkne : mget s.cache k ≠ none := by rw [hk]; exact fun hc => Option.noConfusion hc
      refine ⟨nodup_mkeys_mdelete _ _ hnd, ?_, ?_⟩
      · show (s.order.erase k).Perm (mkeys (mdelete s.cache k))
        rw [mkeys_mdelete _ _ hnd]
        exact hperm.erase k
      · show ((mdelete s.cache k).length : Int) ≤ s.capacity
        have hlen := length_mdelete_of_mem s.cache k hnd hkne
        omega

theorem inv_runOps (capacity : Int) (h : 0 ≤ capacity) (ops : List Op) :
    Inv (runOps (init capacity) ops) := by
  rw [runOps]
  have h₀ : Inv (init capacity) := inv_init capacity h
  generalize init capacity = s at h₀ ⊢
  induction ops generalizing s with
  | nil => exact h₀
  | cons op rest ih => exact ih _ (inv_step s op h₀)

end LRUCache

namespace LRUCache

theorem capacity_step (s : LRUCache) (op : Op) : (step s op).capacity = s.capacity := by
  cases op with
  | get k =>
    show (get s k).2.capacity = s.capacity
    cases hk : mget s.cache k with
    | none => rw [get_eq_none s k hk]
    | some v => rw [get_eq_some s k v hk]
  | put k v =>
    show (put s k v).capacity = s.capacity
    cases hk : mget s.cache k with
    | some v₀ => rw [put_eq_mem s k v v₀ hk]
    | none =>
      by_cases hover : ((mset s.cache k v).length : Int) > s.capacity
      · obtain ⟨lru, hrl, _⟩ := removeLast_cons k s.order
        rw [put_eq_fresh_over s k v lru ((k :: s.order).dropLast) hk hover hrl]
      · rw [put_eq_fresh_under s k v hk hover]
  | del k =>
    show (delete s k).2.capacity = s.capacity
    cases hk : mget s.cache k with
    | none => rw [delete_eq_none s k hk]
    | some v => rw [delete_eq_some s k v hk]

theorem capacity_runOps (s : LRUCache) (ops : List Op) :
    (runOps s ops).capacity = s.capacity := by
  rw [runOps]
  induction ops generalizing s with
  | nil => rfl
  | cons op rest ih =>
    show (List.foldl step (step s op) rest).capacity = s.capacity
    rw [ih (step s op), capacity_step]

theorem step_of_empty (s : LRUCache) (op : Op) (hc : s.cache = []) (ho : s.order = [])
    (hcap : s.capacity ≤ 0) : step s op = s := by
  have hself : { s with cache := ([] : List (Nat × Int)), order := ([] : List Nat) } = s := by
    cases s
    simp_all
  cases op with
  | get k =>
    show (get s k).2 = s
    rw [get_eq_none s k (by rw [hc]; rfl)]
  | put k v =>
    show put s k v = s
    have hk : mget s.cache k = none := by rw [hc]; rfl
    have hover : ((mset s.cache k v).length : Int) > s.capacity := by
      rw [hc]
      show ((1 : Nat) : Int) > s.capacity
      omega
    have hrl : removeLast (k :: s.order) = (some k, (k :: s.order).dropLast) := by
      rw [ho, removeLast]
      rfl
    rw [put_eq_fresh_over s k v k ((k :: s.order).dropLast) hk hover hrl]
    rw [hc, ho]
    show { s with cache := mdelete (mset [] k v) k, order := ([k] : List Nat).dropLast } = s
    have h₁ : mdelete (mset ([] : List (Nat × Int)) k v) k = [] := by
      show mdelete [(k, v)] k = []
      simp [mdelete]
    rw [h₁]
    exact hself
  | del k =>
    show (delete s k).2 = s
    rw [delete_eq_none s k (by rw [hc]; rfl)]

theorem runOps_cap_nonpos (capacity : Int) (h : capacity ≤ 0) (ops : List Op) :
    (runOps (init capacity) ops).cache = [] ∧ (runOps (init capacity) ops).order = [] := by
  rw [runOps]
  have h₀ : (init capacity).cache = [] ∧ (init capacity).order = [] ∧
      (init capacity).capacity ≤ 0 := ⟨rfl, rfl, h⟩
  generalize init capacity = s at h₀ ⊢
  induction ops generalizing s with
  | nil => exact ⟨h₀.1, h₀.2.1⟩
  | cons op rest ih =>
    show (List.foldl step (step s op) rest).cache = [] ∧
      (List.foldl step (step s op) rest).order = []
    rw [step_of_empty s op h₀.1 h₀.2.1 h₀.2.2]
    exact ih s h₀

/-- The concrete spec scenario: capacity 3, put 1, put 2, put 3, get 1, put 4. -/
def lruDemoScenario : LRUCache :=
  put ((get (put (put (put (init 3) 1 10) 2 20) 3 30) 1).2) 4 40

/-- A small concrete full cache used to instantiate the general eviction law. -/
def lruC9State : LRUCache :=
  { capacity := 2, cache := [(5, 50), (6, 60)], order := [6, 5] }

end LRUCache

/-- C9: inserting a fresh key into a full `LRUCache` evicts exactly the least
recently touched key — the back of the recency list, where `get` counts as a
touch — leaving the new key and every other key present; concretely, with
capacity 3, after put 1, put 2, put 3, get 1, put 4, key 2 is evicted and
exactly the keys 1, 3, 4 remain (recency order [4, 1, 3]). -/
theorem C9_lru_eviction_order (s : LRUCache) (key : Nat) (value : Int)
    (hnd : (mkeys s.cache).Nodup) (hperm : s.order.Perm (mkeys s.cache))
    (hfull : (s.cache.length : Int) = s.capacity) (hfresh : mget s.cache key = none)
    (hpos : 1 ≤ s.capacity) :
    (∃ lru, s.order.getLast? = some lru ∧ lru ≠ key ∧
      LRUCache.hasKey (LRUCache.put s key value) lru = false ∧
      LRUCache.hasKey (LRUCache.put s key value) key = true ∧
      ∀ k₂ ∈ mkeys s.cache, k₂ ≠ lru →
        LRUCache.hasKey (LRUCache.put s key value) k₂ = true) ∧
    (LRUCache.keys LRUCache.lruDemoScenario = [4, 1, 3] ∧
      LRUCache.hasKey LRUCache.lruDemoScenario 1 = true ∧
      LRUCache.hasKey LRUCache.lruDemoScenario 2 = false ∧
      LRUCache.hasKey LRUCache.lruDemoScenario 3 = true ∧
      LRUCache.hasKey LRUCache.lruDemoScenario 4 = true ∧
      LRUCache.size LRUCache.lruDemoScenario = 3) := by
  constructor
  · obtain ⟨lru, hlast, hmem, hne, hord, hnone, hsome, hothers, hlen⟩ :=
      LRUCache.put_fresh_full_evicts s key value hnd hperm hfull hfresh hpos
    refine ⟨lru, hlast, hne, ?_, ?_, ?_⟩
    · rw [LRUCache.hasKey, hnone]; rfl
    · rw [LRUCache.hasKey, hsome]; rfl
    · intro k₂ hk₂ hk₂lru
      have hk₂key : k₂ ≠ key := by
        intro hc
        rw [hc] at hk₂
        exact (mget_eq_none_iff s.cache key).1 hfresh hk₂
      rw [LRUCache.hasKey, hothers k₂ hk₂lru hk₂key]
      cases hmg : mget s.cache k₂ with
      | none => exact absurd ((mget_eq_none_iff s.cache k₂).1 hmg hk₂) (fun _ => by simp_all)
      | some v₂ => rfl
  · refine ⟨by decide, by decide, by decide, by decide, by decide, by decide⟩

/-- C9 witness: the general eviction law applied to a concrete full cache. -/
theorem C9_lru_eviction_order_witness :
    (∃ lru, LRUCache.lruC9State.order.getLast? = some lru ∧ lru ≠ 7 ∧
      LRUCache.hasKey (LRUCache.put LRUCache.lruC9State 7 70) lru = false ∧
      LRUCache.hasKey (LRUCache.put LRUCache.lruC9State 7 70) 7 = true ∧
      ∀ k₂ ∈ mkeys LRUCache.lruC9State.cache, k₂ ≠ lru →
        LRUCache.hasKey (LRUCache.put LRUCache.lruC9State 7 70) k₂ = true) ∧
    (LRUCache.keys LRUCache.lruDemoScenario = [4, 1, 3] ∧
      LRUCache.hasKey LRUCache.lruDemoScenario 1 = true ∧
      LRUCache.hasKey LRUCache.lruDemoScenario 2 = false ∧
      LRUCache.hasKey LRUCache.lruDemoScenario 3 = true ∧
      LRUCache.hasKey LRUCache.lruDemoScenario 4 = true ∧
      LRUCache.size LRUCache.lruDemoScenario = 3) :=
  C9_lru_eviction_order LRUCache.lruC9State 7 70 (by decide) (by decide) (by decide)
    (by decide) (by decide)

/-- C10: for every capacity ≥ 1 and every sequence of get/put/delete calls,
the LRU cache size never exceeds the capacity, the key→node map and the
linked list remain in one-to-one correspondence (same keys, no duplicates),
and a put of a fresh key at full capacity removes exactly one entry. -/
theorem C10_lru_size_invariant (capacity : Int) (hcap : 1 ≤ capacity)
    (ops : List LRUCache.Op) :
    ((LRUCache.size (LRUCache.runOps (LRUCache.init capacity) ops) : Int) ≤ capacity) ∧
    ((LRUCache.runOps (LRUCache.init capacity) ops).order.Perm
      (mkeys (LRUCache.runOps (LRUCache.init capacity) ops).cache)) ∧
    (mkeys (LRUCache.runOps (LRUCache.init capacity) ops).cache).Nodup ∧
    (∀ key value,
      mget (LRUCache.runOps (LRUCache.init capacity) ops).cache key = none →
      (LRUCache.size (LRUCache.runOps (LRUCache.init capacity) ops) : Int) = capacity →
      LRUCache.size
          (LRUCache.put (LRUCache.runOps (LRUCache.init capacity) ops) key value) =
        LRUCache.size (LRUCache.runOps (LRUCache.init capacity) ops)) := by
  obtain ⟨hnd, hperm, hlen⟩ := LRUCache.inv_runOps capacity (by omega) ops
  have hcapeq : (LRUCache.runOps (LRUCache.init capacity) ops).capacity = capacity :=
    LRUCache.capacity_runOps (LRUCache.init capacity) ops
  refine ⟨by rw [LRUCache.size]; omega, hperm, hnd, ?_⟩
  intro key value hfresh hfull
  obtain ⟨lru, _, _, _, _, _, _, _, hlen₂⟩ :=
    LRUCache.put_fresh_full_evicts (LRUCache.runOps (LRUCache.init capacity) ops)
      key value hnd hperm (by rw [hcapeq]; exact hfull) hfresh (by omega)
  rw [LRUCache.size, LRUCache.size, hlen₂]

/-- C10 witness: the size/correspondence invariant at a concrete run. -/
theorem C10_lru_size_invariant_witness :
    ((LRUCache.size (LRUCache.runOps (LRUCache.init 2)
        [.put 1 10, .put 2 20, .get 1, .put 3 30]) : Int) ≤ 2) ∧
    ((LRUCache.runOps (LRUCache.init 2) [.put 1 10, .put 2 20, .get 1, .put 3 30]).order.Perm
      (mkeys (LRUCache.runOps (LRUCache.init 2)
        [.put 1 10, .put 2 20, .get 1, .put 3 30]).cache)) ∧
    (mkeys (LRUCache.runOps (LRUCache.init 2)
      [.put 1 10, .put 2 20, .get 1, .put 3 30]).cache).Nodup ∧
    (∀ key value,
      mget (LRUCache.runOps (LRUCache.init 2)
        [.put 1 10, .put 2 20, .get 1, .put 3 30]).cache key = none →
      (LRUCache.size (LRUCache.runOps (LRUCache.init 2)
        [.put 1 10, .put 2 20, .get 1, .put 3 30]) : Int) = 2 →
      LRUCache.size (LRUCache.put (LRUCache.runOps (LRUCache.init 2)
          [.put 1 10, .put 2 20, .get 1, .put 3 30]) key value) =
        LRUCache.size (LRUCache.runOps (LRUCache.init 2)
          [.put 1 10, .put 2 20, .get 1, .put 3 30])) :=
  C10_lru_size_invariant 2 (by decide) [.put 1 10, .put 2 20, .get 1, .put 3 30]

/-! ## LFU Cache (src/data-structures/lfuCache.ts)

State of `LFUCache<K, V>` with `K = V = number`: `cache` maps a key to its
node data (value, frequency); `frequencyMap` maps a frequency to the keys of
its doubly-linked list, front (most recent) to back (least recent).  The `!`
assertions of the source (`frequencyMap.get(freq)!`) are modelled with a `[]`
default; the well-formedness invariant proved below shows the bucket is
present wherever the source dereferences it. -/

structure LFUCache where
  capacity : Int
  cache : List (Nat × Int × Nat)
  frequencyMap : List (Nat × List Nat)
  minFrequency : Nat
  deriving Repr, DecidableEq

namespace LFUCache

/-- Constructor: empty maps, `minFrequency = 0`. -/
def init (capacity : Int) : LFUCache :=
  { capacity := capacity, cache := [], frequencyMap := [], minFrequency := 0 }

/-- Shared source idiom: create the bucket for `b` when absent
(`if (!frequencyMap.has(b)) set(b, new DoublyLinkedList())`), then push `key`
to its front (`frequencyMap.get(b)!.addToFront(node)`). -/
def bucketAddFront (fm : List (Nat × List Nat)) (b : Nat) (key : Nat) :
    List (Nat × List Nat) :=
  let fm₂ := if mget fm b = none then mset fm b [] else fm
  mset fm₂ b (key :: (mget fm₂ b).getD [])

/-- Private method `updateFrequency`, for the node `(key, value, freq)`:
remove the node from its bucket, retire the bucket if it emptied (advancing
`minFrequency` when it was the minimum), then bump the node frequency and
push it to the front of the next bucket. -/
def updateFrequency (s : LFUCache) (key : Nat) (value : Int) (freq : Nat) : LFUCache :=
  let oldList := (mget s.frequencyMap freq).getD []
  let oldList₁ := oldList.erase key
  let fm₁ := if oldList₁ = [] then mdelete s.frequencyMap freq
             else mset s.frequencyMap freq oldList₁
  let min₁ := if oldList₁ = [] ∧ s.minFrequency = freq then s.minFrequency + 1
              else s.minFrequency
  { s with cache := mset s.cache key (value, freq + 1),
           frequencyMap := bucketAddFront fm₁ (freq + 1) key, minFrequency := min₁ }

/-- Private method `evict`: drop the back of the `minFrequency` bucket (if the
bucket exists), delete that key from the map, and retire the bucket if it
emptied.  `minFrequency` itself is not updated here. -/
def evict (s : LFUCache) : LFUCache :=
  match mget s.frequencyMap s.minFrequency with
  | none => s
  | some lst =>
    match lst.getLast? with
    | none => { s with frequencyMap := mdelete s.frequencyMap s.minFrequency }
    | some k₀ =>
      let lst₁ := lst.dropLast
      let cache₁ := mdelete s.cache k₀
      if lst₁ = [] then
        { s with cache := cache₁, frequencyMap := mdelete s.frequencyMap s.minFrequency }
      else
        { s with cache := cache₁, frequencyMap := mset s.frequencyMap s.minFrequency lst₁ }

/-- Method `get`: return the value and bump the frequency. -/
def get (s : LFUCache) (key : Nat) : Option Int × LFUCache :=
  match mget s.cache key with
  | none => (none, s)
  | some (v, f) => (some v, updateFrequency s key v f)

/-- Method `put`: no-op for non-positive capacity; update-and-bump an
existing key; otherwise evict if at capacity and insert at frequency 1,
resetting `minFrequency` to 1. -/
def put (s : LFUCache) (key : Nat) (value : Int) : LFUCache :=
  if s.capacity ≤ 0 then s
  else
    match mget s.cache key with
    | some (_, f) => updateFrequency { s with cache := mset s.cache key (value, f) } key value f
    | none =>
      let s₁ := if (s.cache.length : Int) ≥ s.capacity then evict s else s
      { s₁ with cache := mset s₁.cache key (value, 1),
                frequencyMap := bucketAddFront s₁.frequencyMap 1 key,
                minFrequency := 1 }

/-- Method `has`. -/
def hasKey (s : LFUCache) (key : Nat) : Bool :=
  (mget s.cache key).isSome

/-- Method `delete`: remove the node from its bucket and the map; if the
bucket emptied and was the minimum, increment `minFrequency`. -/
def delete (s : LFUCache) (key : Nat) : Bool × LFUCache :=
  match mget s.cache key with
  | none => (false, s)
  | some (_, f) =>
    let lst := (mget s.frequencyMap f).getD []
    let lst₁ := lst.erase key
    let cache₁ := mdelete s.cache key
    if lst₁ = [] then
      let min₁ := if s.minFrequency = f then s.minFrequency + 1 else s.minFrequency
      (true, { s with cache := cache₁, frequencyMap := mdelete s.frequencyMap f,
                      minFrequency := min₁ })
    else
      (true, { s with cache := cache₁, frequencyMap := mset s.frequencyMap f lst₁ })

/-- Method `size`. -/
def size (s : LFUCache) : Nat :=
  s.cache.length

/-- Operations observable on the cache surface. -/
inductive Op where
  | get (k : Nat)
  | put (k : Nat) (v : Int)
  | del (k : Nat)
  deriving Repr, DecidableEq

/-- Apply one operation, discarding the returned value. -/
def step (s : LFUCache) (op : Op) : LFUCache :=
  match op with
  | .get k => (get s k).2
  | .put k v => put s k v
  | .del k => (delete s k).2

/-- Run a sequence of operations. -/
def runOps (s : LFUCache) (ops : List Op) : LFUCache :=
  ops.foldl step s

/-- Whether an operation is a `delete`. -/
def Op.isDel : Op → Bool
  | .del _ => true
  | _ => false

end LFUCache

/-! ### LFU well-formedness -/

namespace LFUCache

theorem mget_bucketAddFront_self (fm : List (Nat × List Nat)) (b : Nat) (key : Nat) :
    mget (bucketAddFront fm b key) b = some (key :: (mget fm b).getD []) := by
  by_cases h : mget fm b = none <;> simp [bucketAddFront, h, mget_mset_self]

theorem mget_bucketAddFront_ne (fm : List (Nat × List Nat)) (b key f₂ : Nat)
    (h : b ≠ f₂) : mget (bucketAddFront fm b key) f₂ = mget fm f₂ := by
  by_cases h₀ : mget fm b = none <;>
    simp [bucketAddFront, h₀, mget_mset_ne _ _ _ _ h]

theorem nodup_mkeys_bucketAddFront (fm : List (Nat × List Nat)) (b key : Nat)
    (hnd : (mkeys fm).Nodup) : (mkeys (bucketAddFront fm b key)).Nodup := by
  rw [bucketAddFront]
  by_cases h₀ : mget fm b = none
  · simp only [h₀, if_pos]
    exact nodup_mkeys_mset _ _ _ (nodup_mkeys_mset _ _ _ hnd)
  · simp only [h₀, if_neg]
    exact nodup_mkeys_mset _ _ _ hnd

theorem updateFrequency_eq (s : LFUCache) (key : Nat) (value : Int) (freq : Nat)
    (lst : List Nat) (hlst : mget s.frequencyMap freq = some lst) :
    updateFrequency s key value freq =
      { s with cache := mset s.cache key (value, freq + 1),
               frequencyMap := bucketAddFront
                 (if lst.erase key = [] then mdelete s.frequencyMap freq
                  else mset s.frequencyMap freq (lst.erase key)) (freq + 1) key,
               minFrequency := if lst.erase key = [] ∧ s.minFrequency = freq
                               then s.minFrequency + 1 else s.minFrequency } := by
  simp only [updateFrequency, hlst, Option.getD_some]

theorem updateFrequency_spec (s : LFUCache) (key : Nat) (value : Int) (freq : Nat)
    (lst : List Nat) (hnd : (mkeys s.frequencyMap).Nodup)
    (hlst : mget s.frequencyMap freq = some lst) :
    (updateFrequency s key value freq).capacity = s.capacity ∧
    (updateFrequency s key value freq).cache = mset s.cache key (value, freq + 1) ∧
    (updateFrequency s key value freq).minFrequency =
      (if lst.erase key = [] ∧ s.minFrequency = freq then s.minFrequency + 1
       else s.minFrequency) ∧
    mget (updateFrequency s key value freq).frequencyMap (freq + 1) =
      some (key :: (mget s.frequencyMap (freq + 1)).getD []) ∧
    mget (updateFrequency s key value freq).frequencyMap freq =
      (if lst.erase key = [] then none else some (lst.erase key)) ∧
    (∀ f₂, f₂ ≠ freq → f₂ ≠ freq + 1 →
      mget (updateFrequency s key value freq).frequencyMap f₂ =
        mget s.frequencyMap f₂) ∧
    (mkeys (updateFrequency s key value freq).frequencyMap).Nodup := by
  have hne : freq ≠ freq + 1 := by omega
  rw [updateFrequency_eq s key value freq lst hlst]
  refine ⟨rfl, rfl, rfl, ?_, ?_, ?_, ?_⟩ <;> by_cases hL : lst.erase key = [] <;>
    simp only [hL, if_pos, if_neg, if_true, if_false]
  · have hf₁ : mget (mdelete s.frequencyMap freq) (freq + 1) =
        mget s.frequencyMap (freq + 1) := mget_mdelete_ne _ _ _ hne
    rw [mget_bucketAddFront_self, hf₁]
  · have hf₁ : mget (mset s.frequencyMap freq (lst.erase key)) (freq + 1) =
        mget s.frequencyMap (freq + 1) := mget_mset_ne _ _ _ _ hne
    rw [mget_bucketAddFront_self, hf₁]
  · rw [mget_bucketAddFront_ne _ _ _ _ (by omega)]
    exact mget_mdelete_self _ _ hnd
  · rw [mget_bucketAddFront_ne _ _ _ _ (by omega)]
    exact mget_mset_self _ _ _
  · intro f₂ h₂ h₃
    rw [mget_bucketAddFront_ne _ _ _ _ (fun hc => h₃ hc.symm)]
    exact mget_mdelete_ne _ _ _ (fun hc => h₂ hc.symm)
  · intro f₂ h₂ h₃
    rw [mget_bucketAddFront_ne _ _ _ _ (fun hc => h₃ hc.symm)]
    exact mget_mset_ne _ _ _ _ (fun hc => h₂ hc.symm)
  · exact nodup_mkeys_bucketAddFront _ _ _ (nodup_mkeys_mdelete _ _ hnd)
  · exact nodup_mkeys_bucketAddFront _ _ _ (nodup_mkeys_mset _ _ _ hnd)

/-- Well-formedness: keys are unique, every cached node sits in the bucket of
its frequency, every bucket is a nonempty duplicate-free list of keys whose
cached frequency matches, and (the C3 invariant) `minFrequency` names a
nonempty bucket whenever the cache is nonempty. -/
def WF (s : LFUCache) : Prop :=
  (mkeys s.cache).Nodup ∧
  (mkeys s.frequencyMap).Nodup ∧
  (∀ k v f, mget s.cache k = some (v, f) →
    ∃ lst, mget s.frequencyMap f = some lst ∧ k ∈ lst) ∧
  (∀ f lst, mget s.frequencyMap f = some lst →
    lst.Nodup ∧ lst ≠ [] ∧ ∀ k ∈ lst, ∃ v, mget s.cache k = some (v, f)) ∧
  (s.cache ≠ [] → ∃ lst, mget s.frequencyMap s.minFrequency = some lst ∧ lst ≠ [])

theorem wf_init (capacity : Int) : WF (init capacity) := by
  refine ⟨by simp [init, mkeys], by simp [init, mkeys], ?_, ?_, ?_⟩
  · intro k v f hk
    simp [init] at hk
  · intro f lst hlst
    simp [init] at hlst
  · intro h
    simp [init] at h

theorem wf_updateFrequency (s : LFUCache) (k : Nat) (v : Int) (f : Nat)
    (hwf : WF s) (hk : mget s.cache k = some (v, f)) :
    WF (updateFrequency s k v f) := by
  obtain ⟨hndc, hndf, hcf, hfc, hmin⟩ := hwf
  obtain ⟨lst, hlst, hkmem⟩ := hcf k v f hk
  obtain ⟨hlstnd, hlstne, hlstmem⟩ := hfc f lst hlst
  obtain ⟨hcap, hcache, hminval, hb1, hbf, hother, hndf₂⟩ :=
    updateFrequency_spec s k v f lst hndf hlst
  have hcne : s.cache ≠ [] := by
    intro hc
    rw [hc] at hk
    exact Option.noConfusion hk
  have hold1mem : ∀ k₂ ∈ (mget s.frequencyMap (f + 1)).getD [],
      ∃ v₂, mget s.cache k₂ = some (v₂, f + 1) := by
    intro k₂ hk₂
    cases ho : mget s.frequencyMap (f + 1) with
    | none => rw [ho] at hk₂; exact absurd hk₂ (List.not_mem_nil k₂)
    | some l₁ =>
      rw [ho] at hk₂
      exact (hfc (f + 1) l₁ ho).2.2 k₂ hk₂
  have hold1nd : ((mget s.frequencyMap (f + 1)).getD []).Nodup := by
    cases ho : mget s.frequencyMap (f + 1) with
    | none => simp
    | some l₁ => simpa using (hfc (f + 1) l₁ ho).1
  have hknotold : k ∉ (mget s.frequencyMap (f + 1)).getD [] := by
    intro hc
    obtain ⟨v₂, hv₂⟩ := hold1mem k hc
    rw [hk] at hv₂
    have : f = f + 1 := by simpa using congrArg (fun o => (o.getD (0, 0)).2) hv₂
    omega
  refine ⟨?_, hndf₂, ?_, ?_, ?_⟩
  · rw [hcache]
    exact nodup_mkeys_mset _ _ _ hndc
  · intro k₂ v₂ f₂ hk₂
    rw [hcache] at hk₂
    by_cases hkk : k₂ = k
    · subst hkk
      rw [mget_mset_self] at hk₂
      have hvf : v = v₂ ∧ f + 1 = f₂ := by simpa using hk₂
      obtain ⟨rfl, rfl⟩ := hvf
      exact ⟨_, hb1, List.mem_cons_self _ _⟩
    · rw [mget_mset_ne _ _ _ _ (fun hc => hkk hc.symm)] at hk₂
      by_cases hff : f₂ = f
      · subst hff
        obtain ⟨lst₂, hlst₂, hk₂mem⟩ := hcf k₂ v₂ f₂ hk₂
        rw [hlst] at hlst₂
        have hll : lst = lst₂ := by simpa using hlst₂
        subst hll
        have hk₂er : k₂ ∈ lst.erase k := (hlstnd.mem_erase_iff).2 ⟨hkk, hk₂mem⟩
        have herne : lst.erase k ≠ [] := by
          intro hc
          rw [hc] at hk₂er
          exact absurd hk₂er (List.not_mem_nil k₂)
        refine ⟨lst.erase k, ?_, hk₂er⟩
        rw [hbf, if_neg herne]
      · by_cases hff1 : f₂ = f + 1
        · subst hff1
          obtain ⟨lst₂, hlst₂, hk₂mem⟩ := hcf k₂ v₂ (f + 1) hk₂
          refine ⟨k :: (mget s.frequencyMap (f + 1)).getD [], hb1, ?_⟩
          rw [hlst₂]
          exact List.mem_cons_of_mem _ hk₂mem
        · obtain ⟨lst₂, hlst₂, hk₂mem⟩ := hcf k₂ v₂ f₂ hk₂
          refine ⟨lst₂, ?_, hk₂mem⟩
          rw [hother f₂ hff hff1]
          exact hlst₂
  · intro f₂ lst₂ hlst₂
    by_cases hff1 : f₂ = f + 1
    · subst hff1
      rw [hb1] at hlst₂
      have hll : k :: (mget s.frequencyMap (f + 1)).getD [] = lst₂ := by simpa using hlst₂
      subst hll
      refine ⟨List.nodup_cons.2 ⟨hknotold, hold1nd⟩, by simp, ?_⟩
      intro k₂ hk₂
      rcases List.mem_cons.1 hk₂ with h | h
      · subst h
        refine ⟨v, ?_⟩
        rw [hcache]
        exact mget_mset_self _ _ _
      · obtain ⟨v₂, hv₂⟩ := hold1mem k₂ h
        have hk₂ne : k₂ ≠ k := fun hc => hknotold (hc ▸ h)
        refine ⟨v₂, ?_⟩
        rw [hcache, mget_mset_ne _ _ _ _ (fun hc => hk₂ne hc.symm)]
        exact hv₂
    · by_cases hff : f₂ = f
      · subst hff
        rw [hbf] at hlst₂
        by_cases hL : lst.erase k = []
        · rw [if_pos hL] at hlst₂
          exact absurd hlst₂ (by simp)
        · rw [if_neg hL] at hlst₂
          have hll : lst.erase k = lst₂ := by simpa using hlst₂
          subst hll
          refine ⟨hlstnd.erase k, hL, ?_⟩
          intro k₂ hk₂
          have hk₂lst := List.mem_of_mem_erase hk₂
          have hk₂ne : k₂ ≠ k := ((hlstnd.mem_erase_iff).1 hk₂).1
          obtain ⟨v₂, hv₂⟩ := hlstmem k₂ hk₂lst
          refine ⟨v₂, ?_⟩
          rw [hcache, mget_mset_ne _ _ _ _ (fun hc => hk₂ne hc.symm)]
          exact hv₂
      · rw [hother f₂ hff hff1] at hlst₂
        obtain ⟨hnd₂, hne₂, hmem₂⟩ := hfc f₂ lst₂ hlst₂
        refine ⟨hnd₂, hne₂, ?_⟩
        intro k₂ hk₂
        obtain ⟨v₂, hv₂⟩ := hmem₂ k₂ hk₂
        have hk₂ne : k₂ ≠ k := by
          intro hc
          subst hc
          rw [hk] at hv₂
          have : f = f₂ := by simpa using congrArg (fun o => (o.getD (0, 0)).2) hv₂
          exact hff this.symm
        refine ⟨v₂, ?_⟩
        rw [hcache, mget_mset_ne _ _ _ _ (fun hc => hk₂ne hc.symm)]
        exact hv₂
  · intro _
    rw [hminval]
    by_cases hL : lst.erase k = []
    · by_cases hmf : s.minFrequency = f
      · rw [if_pos ⟨hL, hmf⟩, hmf]
        exact ⟨_, hb1, by simp⟩
      · rw [if_neg (fun hc => hmf hc.2)]
        by_cases hm1 : s.minFrequency = f + 1
        · rw [hm1]
          exact ⟨_, hb1, by simp⟩
        · obtain ⟨lm, hlm, hlmne⟩ := hmin hcne
          refine ⟨lm, ?_, hlmne⟩
          rw [hother _ hmf hm1]
          exact hlm
    · rw [if_neg (fun hc => hL hc.1)]
      by_cases hmf : s.minFrequency = f
      · rw [hmf]
        refine ⟨lst.erase k, ?_, hL⟩
        rw [hbf, if_neg hL]
      · by_cases hm1 : s.minFrequency = f + 1
        · rw [hm1]
          exact ⟨_, hb1, by simp⟩
        · obtain ⟨lm, hlm, hlmne⟩ := hmin hcne
          refine ⟨lm, ?_, hlmne⟩
          rw [hother _ hmf hm1]
          exact hlm

/-- The first four conjuncts of `WF` (everything except the `minFrequency`
condition), used for intermediate states inside `put`. -/
def WFCore (s : LFUCache) : Prop :=
  (mkeys s.cache).Nodup ∧
  (mkeys s.frequencyMap).Nodup ∧
  (∀ k v f, mget s.cache k = some (v, f) →
    ∃ lst, mget s.frequencyMap f = some lst ∧ k ∈ lst) ∧
  (∀ f lst, mget s.frequencyMap f = some lst →
    lst.Nodup ∧ lst ≠ [] ∧ ∀ k ∈ lst, ∃ v, mget s.cache k = some (v, f))

theorem WF.toCore (s : LFUCache) (h : WF s) : WFCore s :=
  ⟨h.1, h.2.1, h.2.2.1, h.2.2.2.1⟩

theorem evict_spec (s : LFUCache) (lst : List Nat)
    (hndf : (mkeys s.frequencyMap).Nodup)
    (hmin : mget s.frequencyMap s.minFrequency = some lst) (hne : lst ≠ []) :
    ∃ k₀ ys, lst = ys ++ [k₀] ∧
      (evict s).capacity = s.capacity ∧
      (evict s).minFrequency = s.minFrequency ∧
      (evict s).cache = mdelete s.cache k₀ ∧
      mget (evict s).frequencyMap s.minFrequency = (if ys = [] then none else some ys) ∧
      (∀ f₂, f₂ ≠ s.minFrequency →
        mget (evict s).frequencyMap f₂ = mget s.frequencyMap f₂) ∧
      (mkeys (evict s).frequencyMap).Nodup := by
  obtain ⟨k₀, hlast⟩ : ∃ k₀, lst.getLast? = some k₀ := by
    cases hl : lst.getLast? with
    | none => exact absurd (List.getLast?_eq_none_iff.1 hl) hne
    | some a => exact ⟨a, rfl⟩
  obtain ⟨ys, hys⟩ := List.getLast?_eq_some_iff.1 hlast
  have hdrop : lst.dropLast = ys := by rw [hys, List.dropLast_concat]
  refine ⟨k₀, ys, hys, ?_⟩
  by_cases hY : ys = []
  · have hev : evict s = { s with cache := mdelete s.cache k₀, frequencyMap := mdelete s.frequencyMap s.minFrequency } := by
      simp only [evict, hmin, hlast, hdrop, hY, if_pos]
    rw [hev]
    refine ⟨rfl, rfl, rfl, ?_, ?_, ?_⟩
    · rw [if_pos hY]
      exact mget_mdelete_self _ _ hndf
    · intro f₂ h₂
      exact mget_mdelete_ne _ _ _ (Ne.symm h₂)
    · exact nodup_mkeys_mdelete _ _ hndf
  · have hev : evict s = { s with cache := mdelete s.cache k₀, frequencyMap := mset s.frequencyMap s.minFrequency ys } := by
      simp only [evict, hmin, hlast, hdrop, hY, if_neg, if_false]
    rw [hev]
    refine ⟨rfl, rfl, rfl, ?_, ?_, ?_⟩
    · rw [if_neg hY]
      exact mget_mset_self _ _ _
    · intro f₂ h₂
      exact mget_mset_ne _ _ _ _ (Ne.symm h₂)
    · exact nodup_mkeys_mset _ _ _ hndf

theorem core_evict (s : LFUCache) (hwf : WF s) (hcne : s.cache ≠ []) :
    WFCore (evict s) ∧ (evict s).cache.length + 1 = s.cache.length ∧
      (∀ k, mget s.cache k = none → mget (evict s).cache k = none) := by
  obtain ⟨hndc, hndf, hcf, hfc, hminp⟩ := hwf
  obtain ⟨lst, hmin, hne⟩ := hminp hcne
  obtain ⟨hlstnd, _, hlstmem⟩ := hfc _ lst hmin
  obtain ⟨k₀, ys, hys, _, _, hcache, hbmin, hbother, hndf₂⟩ :=
    evict_spec s lst hndf hmin hne
  have hk₀lst : k₀ ∈ lst := by rw [hys]; simp
  obtain ⟨v₀, hv₀⟩ := hlstmem k₀ hk₀lst
  have hk₀mem : mget s.cache k₀ ≠ none := by rw [hv₀]; exact fun hc => Option.noConfusion hc
  have hk₀notys : k₀ ∉ ys := by
    rw [hys] at hlstnd
    have := (List.nodup_append.1 hlstnd).2.2
    intro hc
    exact this hc (by simp)
  have hysnd : ys.Nodup := by
    rw [hys] at hlstnd
    exact (List.nodup_append.1 hlstnd).1
  refine ⟨⟨?_, hndf₂, ?_, ?_⟩, ?_, ?_⟩
  · rw [hcache]
    exact nodup_mkeys_mdelete _ _ hndc
  · intro k₂ v₂ f₂ hk₂
    rw [hcache] at hk₂
    have hk₂ne : k₂ ≠ k₀ := by
      intro hc
      subst hc
      rw [mget_mdelete_self _ _ hndc] at hk₂
      exact Option.noConfusion hk₂
    rw [mget_mdelete_ne _ _ _ (Ne.symm hk₂ne)] at hk₂
    obtain ⟨lst₂, hlst₂, hk₂mem⟩ := hcf k₂ v₂ f₂ hk₂
    by_cases hf₂ : f₂ = s.minFrequency
    · subst hf₂
      rw [hmin] at hlst₂
      have hll : lst = lst₂ := by simpa using hlst₂
      subst hll
      have hk₂ys : k₂ ∈ ys := by
        rw [hys] at hk₂mem
        rcases List.mem_append.1 hk₂mem with h | h
        · exact h
        · simp at h
          exact absurd h hk₂ne
      have hY : ys ≠ [] := by
        intro hc
        rw [hc] at hk₂ys
        exact absurd hk₂ys (List.not_mem_nil k₂)
      refine ⟨ys, ?_, hk₂ys⟩
      rw [hbmin, if_neg hY]
    · refine ⟨lst₂, ?_, hk₂mem⟩
      rw [hbother f₂ hf₂]
      exact hlst₂
  · intro f₂ lst₂ hlst₂
    by_cases hf₂ : f₂ = s.minFrequency
    · subst hf₂
      rw [hbmin] at hlst₂
      by_cases hY : ys = []
      · rw [if_pos hY] at hlst₂
        exact absurd hlst₂ (by simp)
      · rw [if_neg hY] at hlst₂
        have hll : ys = lst₂ := by simpa using hlst₂
        subst hll
        refine ⟨hysnd, hY, ?_⟩
        intro k₂ hk₂
        have hk₂lst : k₂ ∈ lst := by rw [hys]; exact List.mem_append_left _ hk₂
        obtain ⟨v₂, hv₂⟩ := hlstmem k₂ hk₂lst
        have hk₂ne : k₂ ≠ k₀ := fun hc => hk₀notys (hc ▸ hk₂)
        refine ⟨v₂, ?_⟩
        rw [hcache, mget_mdelete_ne _ _ _ (Ne.symm hk₂ne)]
        exact hv₂
    · rw [hbother f₂ hf₂] at hlst₂
      obtain ⟨hnd₂, hne₂, hmem₂⟩ := hfc f₂ lst₂ hlst₂
      refine ⟨hnd₂, hne₂, ?_⟩
      intro k₂ hk₂
      obtain ⟨v₂, hv₂⟩ := hmem₂ k₂ hk₂
      have hk₂ne : k₂ ≠ k₀ := by
        intro hc
        subst hc
        rw [hv₀] at hv₂
        have : s.minFrequency = f₂ := by
          simpa using congrArg (fun o => (o.getD (0, 0)).2) hv₂
        exact hf₂ this.symm
      refine ⟨v₂, ?_⟩
      rw [hcache, mget_mdelete_ne _ _ _ (Ne.symm hk₂ne)]
      exact hv₂
  · rw [hcache]
    exact length_mdelete_of_mem _ _ hndc hk₀mem
  · intro k hk
    rw [hcache]
    by_cases hkk : k = k₀
    · subst hkk
      exact mget_mdelete_self _ _ hndc
    · rw [mget_mdelete_ne _ _ _ (Ne.symm hkk)]
      exact hk

theorem wf_insert_fresh (s₁ : LFUCache) (k : Nat) (v : Int)
    (hcore : WFCore s₁) (hfresh : mget s₁.cache k = none) :
    WF { s₁ with cache := mset s₁.cache k (v, 1),
                 frequencyMap := bucketAddFront s₁.frequencyMap 1 k,
                 minFrequency := 1 } := by
  obtain ⟨hndc, hndf, hcf, hfc⟩ := hcore
  have hold1mem : ∀ k₂ ∈ (mget s₁.frequencyMap 1).getD [],
      ∃ v₂, mget s₁.cache k₂ = some (v₂, 1) := by
    intro k₂ hk₂
    cases ho : mget s₁.frequencyMap 1 with
    | none => rw [ho] at hk₂; exact absurd hk₂ (List.not_mem_nil k₂)
    | some l₁ =>
      rw [ho] at hk₂
      exact (hfc 1 l₁ ho).2.2 k₂ hk₂
  have hold1nd : ((mget s₁.frequencyMap 1).getD []).Nodup := by
    cases ho : mget s₁.frequencyMap 1 with
    | none => simp
    | some l₁ => simpa using (hfc 1 l₁ ho).1
  have hknotold : k ∉ (mget s₁.frequencyMap 1).getD [] := by
    intro hc
    obtain ⟨v₂, hv₂⟩ := hold1mem k hc
    rw [hfresh] at hv₂
    exact Option.noConfusion hv₂
  refine ⟨?_, ?_, ?_, ?_, ?_⟩
  · exact nodup_mkeys_mset _ _ _ hndc
  · exact nodup_mkeys_bucketAddFront _ _ _ hndf
  · intro k₂ v₂ f₂ hk₂
    have hk₂c : mget (mset s₁.cache k (v, 1)) k₂ = some (v₂, f₂) := hk₂
    show ∃ lst, mget (bucketAddFront s₁.frequencyMap 1 k) f₂ = some lst ∧ k₂ ∈ lst
    by_cases hkk : k₂ = k
    · subst hkk
      rw [mget_mset_self] at hk₂c
      have hvf : v = v₂ ∧ 1 = f₂ := by simpa using hk₂c
      obtain ⟨rfl, rfl⟩ := hvf
      refine ⟨k₂ :: (mget s₁.frequencyMap 1).getD [], ?_, List.mem_cons_self _ _⟩
      rw [mget_bucketAddFront_self]
    · rw [mget_mset_ne _ _ _ _ (fun hc => hkk hc.symm)] at hk₂c
      by_cases hf₂ : f₂ = 1
      · subst hf₂
        obtain ⟨lst₂, hlst₂, hk₂mem⟩ := hcf k₂ v₂ 1 hk₂c
        refine ⟨k :: (mget s₁.frequencyMap 1).getD [], ?_, ?_⟩
        · rw [mget_bucketAddFront_self]
        · rw [hlst₂]
          exact List.mem_cons_of_mem _ hk₂mem
      · obtain ⟨lst₂, hlst₂, hk₂mem⟩ := hcf k₂ v₂ f₂ hk₂c
        refine ⟨lst₂, ?_, hk₂mem⟩
        rw [mget_bucketAddFront_ne _ _ _ _ (fun hc => hf₂ hc.symm)]
        exact hlst₂
  · intro f₂ lst₂ hlst₂
    have hlst₂f : mget (bucketAddFront s₁.frequencyMap 1 k) f₂ = some lst₂ := hlst₂
    show lst₂.Nodup ∧ lst₂ ≠ [] ∧
      ∀ k₂ ∈ lst₂, ∃ v₂, mget (mset s₁.cache k (v, 1)) k₂ = some (v₂, f₂)
    by_cases hf₂ : f₂ = 1
    · subst hf₂
      rw [mget_bucketAddFront_self] at hlst₂f
      have hll : k :: (mget s₁.frequencyMap 1).getD [] = lst₂ := by simpa using hlst₂f
      subst hll
      refine ⟨List.nodup_cons.2 ⟨hknotold, hold1nd⟩, by simp, ?_⟩
      intro k₂ hk₂
      rcases List.mem_cons.1 hk₂ with h | h
      · subst h
        exact ⟨v, by rw [mget_mset_self]⟩
      · obtain ⟨v₂, hv₂⟩ := hold1mem k₂ h
        have hk₂ne : k₂ ≠ k := fun hc => hknotold (hc ▸ h)
        exact ⟨v₂, by rw [mget_mset_ne _ _ _ _ (fun hc => hk₂ne hc.symm)]; exact hv₂⟩
    · rw [mget_bucketAddFront_ne _ _ _ _ (fun hc => hf₂ hc.symm)] at hlst₂f
      obtain ⟨hnd₂, hne₂, hmem₂⟩ := hfc f₂ lst₂ hlst₂f
      refine ⟨hnd₂, hne₂, ?_⟩
      intro k₂ hk₂
      obtain ⟨v₂, hv₂⟩ := hmem₂ k₂ hk₂
      have hk₂ne : k₂ ≠ k := by
        intro hc
        subst hc
        rw [hfresh] at hv₂
        exact Option.noConfusion hv₂
      exact ⟨v₂, by rw [mget_mset_ne _ _ _ _ (fun hc => hk₂ne hc.symm)]; exact hv₂⟩
  · intro _
    exact ⟨k :: (mget s₁.frequencyMap 1).getD [],
      mget_bucketAddFront_self s₁.frequencyMap 1 k, by simp⟩

theorem wf_set_value (s : LFUCache) (k : Nat) (v v₀ : Int) (f : Nat)
    (hwf : WF s) (hk : mget s.cache k = some (v₀, f)) :
    WF { s with cache := mset s.cache k (v, f) } := by
  obtain ⟨hndc, hndf, hcf, hfc, hmin⟩ := hwf
  have hcne : s.cache ≠ [] := by
    intro hc
    rw [hc] at hk
    exact Option.noConfusion hk
  refine ⟨nodup_mkeys_mset _ _ _ hndc, hndf, ?_, ?_, fun _ => hmin hcne⟩
  · intro k₂ v₂ f₂ hk₂
    have hk₂c : mget (mset s.cache k (v, f)) k₂ = some (v₂, f₂) := hk₂
    by_cases hkk : k₂ = k
    · subst hkk
      rw [mget_mset_self] at hk₂c
      have hvf : v = v₂ ∧ f = f₂ := by simpa using hk₂c
      obtain ⟨rfl, rfl⟩ := hvf
      exact hcf k₂ v₀ f hk
    · rw [mget_mset_ne _ _ _ _ (fun hc => hkk hc.symm)] at hk₂c
      exact hcf k₂ v₂ f₂ hk₂c
  · intro f₂ lst₂ hlst₂
    obtain ⟨hnd₂, hne₂, hmem₂⟩ := hfc f₂ lst₂ hlst₂
    refine ⟨hnd₂, hne₂, ?_⟩
    intro k₂ hk₂
    obtain ⟨v₂, hv₂⟩ := hmem₂ k₂ hk₂
    by_cases hkk : k₂ = k
    · subst hkk
      have hff : f = f₂ := by
        rw [hk] at hv₂
        simpa using congrArg (fun o => (o.getD (0, 0)).2) hv₂
      subst hff
      exact ⟨v, by rw [mget_mset_self]⟩
    · exact ⟨v₂, by rw [mget_mset_ne _ _ _ _ (fun hc => hkk hc.symm)]; exact hv₂⟩

theorem wf_put (s : LFUCache) (k : Nat) (v : Int) (hwf : WF s) : WF (put s k v) := by
  by_cases hcap : s.capacity ≤ 0
  · rw [put, if_pos hcap]
    exact hwf
  · cases hk : mget s.cache k with
    | some vf =>
      obtain ⟨v₀, f⟩ := vf
      have hput : put s k v =
          updateFrequency { s with cache := mset s.cache k (v, f) } k v f := by
        simp only [put, if_neg hcap, hk]
      rw [hput]
      exact wf_updateFrequency _ k v f (wf_set_value s k v v₀ f hwf hk)
        (mget_mset_self s.cache k (v, f))
    | none =>
      by_cases hge : (s.cache.length : Int) ≥ s.capacity
      · have hput : put s k v =
            { evict s with cache := mset (evict s).cache k (v, 1),
                           frequencyMap := bucketAddFront (evict s).frequencyMap 1 k,
                           minFrequency := 1 } := by
          simp only [put, if_neg hcap, hk, hge, if_pos]
        rw [hput]
        have hcne : s.cache ≠ [] := by
          intro hc
          rw [hc] at hge
          simp at hge
          omega
        obtain ⟨hcore, _, hpres⟩ := core_evict s hwf hcne
        exact wf_insert_fresh (evict s) k v hcore (hpres k hk)
      · have hput : put s k v =
            { s with cache := mset s.cache k (v, 1),
                     frequencyMap := bucketAddFront s.frequencyMap 1 k,
                     minFrequency := 1 } := by
          simp only [put, if_neg hcap, hk, hge, if_neg, if_false]
        rw [hput]
        exact wf_insert_fresh s k v (hwf.toCore s) hk

theorem wf_get (s : LFUCache) (k : Nat) (hwf : WF s) : WF (get s k).2 := by
  cases hk : mget s.cache k with
  | none =>
    have h : (get s k).2 = s := by simp [get, hk]
    rw [h]
    exact hwf
  | some vf =>
    obtain ⟨v, f⟩ := vf
    have h : (get s k).2 = updateFrequency s k v f := by simp [get, hk]
    rw [h]
    exact wf_updateFrequency s k v f hwf hk

theorem wf_step_no_del (s : LFUCache) (op : Op) (hop : op.isDel = false)
    (hwf : WF s) : WF (step s op) := by
  cases op with
  | get k => exact wf_get s k hwf
  | put k v => exact wf_put s k v hwf
  | del k => exact absurd hop (by simp [Op.isDel])

theorem wf_runOps_no_del (capacity : Int) (ops : List Op)
    (hops : ∀ op ∈ ops, op.isDel = false) : WF (runOps (init capacity) ops) := by
  rw [runOps]
  have h₀ : WF (init capacity) := wf_init capacity
  generalize init capacity = s at h₀ ⊢
  induction ops generalizing s with
  | nil => exact h₀
  | cons op rest ih =>
    exact ih (fun o ho => hops o (List.mem_cons_of_mem _ ho)) _
      (wf_step_no_del s op (hops op (List.mem_cons_self _ _)) h₀)

theorem step_init_nonpos (capacity : Int) (h : capacity ≤ 0) (op : Op) :
    step (init capacity) op = init capacity := by
  cases op with
  | get k => rfl
  | put k v =>
    show put (init capacity) k v = init capacity
    rw [put, if_pos (by simpa [init] using h)]
  | del k => rfl

theorem runOps_init_nonpos (capacity : Int) (h : capacity ≤ 0) (ops : List Op) :
    runOps (init capacity) ops = init capacity := by
  rw [runOps]
  induction ops with
  | nil => rfl
  | cons op rest ih =>
    show List.foldl step (step (init capacity) op) rest = init capacity
    rw [step_init_nonpos capacity h op]
    exact ih

/-- The state after capacity 3, put 1, put 2, get 1, get 1, delete 2: key 1
remains at frequency 3, but `minFrequency` was bumped to 2 by `delete` and
bucket 2 does not exist. -/
def lfuBroken : LFUCache :=
  (delete (get (get (put (put (init 3) 1 10) 2 20) 1).2 1).2 2).2

end LFUCache

/-- C3 counterexample: after put(1), put(2), get(1), get(1), delete(2) on an
`LFUCache` of capacity 3 the cache is nonempty yet `minFrequency` (= 2) names
no existing frequency bucket, so the claimed invariant fails after `delete`. -/
theorem C3_counterexample_delete_breaks_minFrequency :
    LFUCache.lfuBroken.cache ≠ [] ∧ LFUCache.lfuBroken.minFrequency = 2 ∧
    mget LFUCache.lfuBroken.frequencyMap LFUCache.lfuBroken.minFrequency = none := by
  decide

/-- C3 (amended): after every `put` and every `get` — that is, along every
operation sequence containing no `delete` — a nonempty `LFUCache` has a
nonempty bucket at `minFrequency`; `delete` can break this (see the
counterexample). -/
theorem C3_lfu_minFrequency_invariant (capacity : Int) (ops : List LFUCache.Op)
    (hops : ∀ op ∈ ops, op.isDel = false) :
    (LFUCache.runOps (LFUCache.init capacity) ops).cache ≠ [] →
    ∃ lst, mget (LFUCache.runOps (LFUCache.init capacity) ops).frequencyMap
        (LFUCache.runOps (LFUCache.init capacity) ops).minFrequency = some lst ∧
      lst ≠ [] :=
  (LFUCache.wf_runOps_no_del capacity ops hops).2.2.2.2

/-- C3 witness: the invariant holds after a concrete put/get sequence. -/
theorem C3_lfu_minFrequency_invariant_witness :
    ∃ lst, mget (LFUCache.runOps (LFUCache.init 3)
          [.put 1 10, .put 2 20, .get 1]).frequencyMap
        (LFUCache.runOps (LFUCache.init 3) [.put 1 10, .put 2 20, .get 1]).minFrequency =
        some lst ∧ lst ≠ [] :=
  C3_lfu_minFrequency_invariant 3 [.put 1 10, .put 2 20, .get 1] (by decide) (by decide)

/-- C4 counterexample: with capacity 0 both caches accept `put` and complete
normally — the LFU put is a no-op and the LRU put inserts then immediately
evicts its own entry — rather than failing fast with an assert/panic. -/
theorem C4_counterexample_no_fail_fast :
    LFUCache.put (LFUCache.init 0) 1 10 = LFUCache.init 0 ∧
    LFUCache.size (LFUCache.put (LFUCache.init 0) 1 10) = 0 ∧
    (LRUCache.put (LRUCache.init 0) 1 10).cache = [] ∧
    LRUCache.size (LRUCache.put (LRUCache.init 0) 1 10) = 0 := by
  decide

/-- C4 (amended): a non-positive capacity is handled by silent graceful
degradation, not an error: for every capacity ≤ 0 and every operation
sequence, the LFU cache state is exactly the freshly constructed state (put
returns early), and the LRU cache map and recency list stay empty (each put
inserts and then immediately evicts its own entry). -/
theorem C4_nonpositive_capacity_graceful (capacity : Int) (h : capacity ≤ 0)
    (lfuOps : List LFUCache.Op) (lruOps : List LRUCache.Op) :
    LFUCache.runOps (LFUCache.init capacity) lfuOps = LFUCache.init capacity ∧
    (LRUCache.runOps (LRUCache.init capacity) lruOps).cache = [] ∧
    (LRUCache.runOps (LRUCache.init capacity) lruOps).order = [] :=
  ⟨LFUCache.runOps_init_nonpos capacity h lfuOps,
   (LRUCache.runOps_cap_nonpos capacity h lruOps).1,
   (LRUCache.runOps_cap_nonpos capacity h lruOps).2⟩

/-- C4 witness: concrete operations on capacity 0 caches leave them empty. -/
theorem C4_nonpositive_capacity_graceful_witness :
    LFUCache.runOps (LFUCache.init 0) [.put 1 10, .get 1] = LFUCache.init 0 ∧
    (LRUCache.runOps (LRUCache.init 0) [.put 1 10, .get 1]).cache = [] ∧
    (LRUCache.runOps (LRUCache.init 0) [.put 1 10, .get 1]).order = [] :=
  C4_nonpositive_capacity_graceful 0 (by decide) [.put 1 10, .get 1] [.put 1 10, .get 1]

/-! ## Union-Find (src/data-structures/unionFind.ts)

Arrays become `List Nat`; `this.parent[x]` is `parent.getD x x` (indices used
by the class are always in range — out-of-range would be a JavaScript
`undefined`).  The recursive `find` with path compression is written with
fuel `parent.length`; the rank invariant proved below shows parent chains
reach a root within that many steps, so the fuel never runs out on
well-formed states. -/

structure UnionFind where
  parent : List Nat
  rank : List Nat
  size : List Nat
  count : Int
  deriving Repr, DecidableEq

namespace UnionFind

/-- Constructor: `parent[i] = i`, `rank[i] = 0`, `size[i] = 1`, `count = n`. -/
def init (n : Nat) : UnionFind :=
  { parent := List.range n, rank := List.replicate n 0,
    size := List.replicate n 1, count := (n : Int) }

/-- Body of `find` with path compression, on the parent array, with fuel. -/
def findAux : Nat → List Nat → Nat → Nat × List Nat
  | 0, p, x => (x, p)
  | fuel + 1, p, x =>
    let px := p.getD x x
    if px = x then (x, p)
    else
      let rp := findAux fuel p px
      (rp.1, rp.2.set x rp.1)

/-- Method `find`: canonical representative, compressing the path. -/
def find (u : UnionFind) (x : Nat) : Nat × UnionFind :=
  let rp := findAux u.parent.length u.parent x
  (rp.1, { u with parent := rp.2 })

/-- Method `union` (union by rank, decrementing the live set count). -/
def union (u : UnionFind) (x y : Nat) : Bool × UnionFind :=
  let r₁ := find u x
  let r₂ := find r₁.2 y
  let rootX := r₁.1
  let rootY := r₂.1
  let u₂ := r₂.2
  if rootX = rootY then (false, u₂)
  else if u₂.rank.getD rootX 0 < u₂.rank.getD rootY 0 then
    (true, { u₂ with parent := u₂.parent.set rootX rootY,
                     size := u₂.size.set rootY
                       (u₂.size.getD rootY 0 + u₂.size.getD rootX 0),
                     count := u₂.count - 1 })
  else if u₂.rank.getD rootY 0 < u₂.rank.getD rootX 0 then
    (true, { u₂ with parent := u₂.parent.set rootY rootX,
                     size := u₂.size.set rootX
                       (u₂.size.getD rootX 0 + u₂.size.getD rootY 0),
                     count := u₂.count - 1 })
  else
    (true, { u₂ with parent := u₂.parent.set rootY rootX,
                     size := u₂.size.set rootX
                       (u₂.size.getD rootX 0 + u₂.size.getD rootY 0),
                     rank := u₂.rank.set rootX (u₂.rank.getD rootX 0 + 1),
                     count := u₂.count - 1 })

/-- Method `connected`: `find(x) === find(y)`. -/
def connected (u : UnionFind) (x y : Nat) : Bool × UnionFind :=
  let r₁ := find u x
  let r₂ := find r₁.2 y
  (decide (r₁.1 = r₂.1), r₂.2)

/-- Method `getCount`. -/
def getCount (u : UnionFind) : Int :=
  u.count

/-- Run a sequence of `union` calls. -/
def runUnions (u : UnionFind) (ops : List (Nat × Nat)) : UnionFind :=
  ops.foldl (fun s xy => (union s xy.1 xy.2).2) u

/-- Reference root (no compression): follow parent pointers with fuel. -/
def rootDAux : Nat → List Nat → Nat → Nat
  | 0, _, x => x
  | fuel + 1, p, x =>
    let px := p.getD x x
    if px = x then x else rootDAux fuel p px

/-- Reference root of `x` in parent array `p`. -/
def rootD (p : List Nat) (x : Nat) : Nat :=
  rootDAux p.length p x

/-- Rank-based well-formedness of a parent/rank pair: parents are in range
and rank strictly increases along non-trivial parent edges. -/
def Okp (p r : List Nat) : Prop :=
  (∀ x, x < p.length → p.getD x x < p.length) ∧
  (∀ x, x < p.length → p.getD x x ≠ x → r.getD x 0 < r.getD (p.getD x x) 0)

/-- Number of vertices whose rank is at least `rank x`: a strictly
decreasing measure along parent chains. -/
def meas (p r : List Nat) (x : Nat) : Nat :=
  ((Finset.range p.length).filter (fun y => r.getD x 0 ≤ r.getD y 0)).card

/-- Well-formed union-find state. -/
def WFU (u : UnionFind) : Prop :=
  u.rank.length = u.parent.length ∧ Okp u.parent u.rank

end UnionFind

namespace UnionFind

theorem getD_set_self (p : List Nat) (x v d : Nat) (h : x < p.length) :
    (p.set x v).getD x d = v := by
  rw [List.getD_eq_getElem?_getD, List.getElem?_set_self h]
  rfl

theorem getD_set_ne (p : List Nat) (x v y d : Nat) (h : x ≠ y) :
    (p.set x v).getD y d = p.getD y d := by
  rw [List.getD_eq_getElem?_getD, List.getElem?_set_ne h, ← List.getD_eq_getElem?_getD]

theorem meas_le_length (p r : List Nat) (x : Nat) : meas p r x ≤ p.length := by
  calc meas p r x ≤ (Finset.range p.length).card := Finset.card_filter_le _ _
    _ = p.length := Finset.card_range _

theorem meas_pos (p r : List Nat) (x : Nat) (hx : x < p.length) : 0 < meas p r x := by
  apply Finset.card_pos.2
  exact ⟨x, Finset.mem_filter.2 ⟨Finset.mem_range.2 hx, le_refl _⟩⟩

theorem meas_step_lt (p r : List Nat) (x : Nat) (hok : Okp p r) (hx : x < p.length)
    (hnr : p.getD x x ≠ x) : meas p r (p.getD x x) < meas p r x := by
  have hrank := hok.2 x hx hnr
  apply Finset.card_lt_card
  constructor
  · intro y hy
    obtain ⟨hy₁, hy₂⟩ := Finset.mem_filter.1 hy
    exact Finset.mem_filter.2 ⟨hy₁, le_trans (le_of_lt hrank) hy₂⟩
  · intro hsub
    have hxmem : x ∈ (Finset.range p.length).filter
        (fun y => r.getD x 0 ≤ r.getD y 0) :=
      Finset.mem_filter.2 ⟨Finset.mem_range.2 hx, le_refl _⟩
    have := Finset.mem_filter.1 (hsub hxmem)
    omega

theorem rootDAux_congr (p r : List Nat) (hok : Okp p r) (N : Nat) :
    ∀ x fuel₁ fuel₂, x < p.length → meas p r x ≤ N → meas p r x ≤ fuel₁ →
      meas p r x ≤ fuel₂ → rootDAux fuel₁ p x = rootDAux fuel₂ p x := by
  induction N with
  | zero =>
    intro x _ _ hx hN _ _
    have := meas_pos p r x hx
    omega
  | succ N ih =>
    intro x fuel₁ fuel₂ hx hN h₁ h₂
    have hpos := meas_pos p r x hx
    cases fuel₁ with
    | zero => omega
    | succ f₁ =>
      cases fuel₂ with
      | zero => omega
      | succ f₂ =>
        by_cases hr : p.getD x x = x
        · show (if p.getD x x = x then x else rootDAux f₁ p (p.getD x x)) =
            (if p.getD x x = x then x else rootDAux f₂ p (p.getD x x))
          rw [if_pos hr, if_pos hr]
        · show (if p.getD x x = x then x else rootDAux f₁ p (p.getD x x)) =
            (if p.getD x x = x then x else rootDAux f₂ p (p.getD x x))
          rw [if_neg hr, if_neg hr]
          have hpx : p.getD x x < p.length := hok.1 x hx
          have hstep := meas_step_lt p r x hok hx hr
          exact ih (p.getD x x) f₁ f₂ hpx (by omega) (by omega) (by omega)

theorem rootDAux_isRoot (p r : List Nat) (hok : Okp p r) (N : Nat) :
    ∀ x fuel, x < p.length → meas p r x ≤ N → meas p r x ≤ fuel →
      p.getD (rootDAux fuel p x) (rootDAux fuel p x) = rootDAux fuel p x ∧
      rootDAux fuel p x < p.length := by
  induction N with
  | zero =>
    intro x _ hx hN _
    have := meas_pos p r x hx
    omega
  | succ N ih =>
    intro x fuel hx hN hfuel
    have hpos := meas_pos p r x hx
    cases fuel with
    | zero => omega
    | succ f =>
      by_cases hr : p.getD x x = x
      · have hred : rootDAux (f + 1) p x = x := by
          show (if p.getD x x = x then x else rootDAux f p (p.getD x x)) = x
          rw [if_pos hr]
        rw [hred]
        exact ⟨hr, hx⟩
      · have hred : rootDAux (f + 1) p x = rootDAux f p (p.getD x x) := by
          show (if p.getD x x = x then x else rootDAux f p (p.getD x x)) = _
          rw [if_neg hr]
        rw [hred]
        have hpx : p.getD x x < p.length := hok.1 x hx
        have hstep := meas_step_lt p r x hok hx hr
        exact ih (p.getD x x) f hpx (by omega) (by omega)

theorem rootD_spec (p r : List Nat) (x : Nat) (hok : Okp p r) (hx : x < p.length) :
    p.getD (rootD p x) (rootD p x) = rootD p x ∧ rootD p x < p.length :=
  rootDAux_isRoot p r hok (meas p r x) x p.length hx (le_refl _) (meas_le_length p r x)

theorem rootD_of_root (p : List Nat) (x : Nat) (hr : p.getD x x = x) :
    rootD p x = x := by
  rw [rootD]
  cases hL : p.length with
  | zero => rfl
  | succ L =>
    show (if p.getD x x = x then x else rootDAux L p (p.getD x x)) = x
    rw [if_pos hr]

theorem rootD_step (p r : List Nat) (x : Nat) (hok : Okp p r) (hx : x < p.length)
    (hnr : p.getD x x ≠ x) : rootD p x = rootD p (p.getD x x) := by
  have hlen : meas p r x ≤ p.length := meas_le_length p r x
  have hpos := meas_pos p r x hx
  have hpx : p.getD x x < p.length := hok.1 x hx
  have hstep := meas_step_lt p r x hok hx hnr
  have h₂ : rootDAux p.length p x = rootDAux (p.length - 1) p (p.getD x x) := by
    cases hL : p.length with
    | zero => omega
    | succ L =>
      show (if p.getD x x = x then x else rootDAux L p (p.getD x x)) = _
      rw [if_neg hnr]
      rfl
  rw [rootD, h₂, rootD]
  exact rootDAux_congr p r hok (meas p r (p.getD x x)) (p.getD x x) (p.length - 1)
    p.length hpx (le_refl _) (by omega) (by omega)

theorem rank_lt_rootD (p r : List Nat) (x : Nat) (hok : Okp p r)
    (hx : x < p.length) (hnr : p.getD x x ≠ x) :
    r.getD x 0 < r.getD (rootD p x) 0 := by
  have hgen : ∀ N x, x < p.length → p.getD x x ≠ x → meas p r x ≤ N →
      r.getD x 0 < r.getD (rootD p x) 0 := by
    intro N
    induction N with
    | zero =>
      intro x hx _ hN
      have := meas_pos p r x hx
      omega
    | succ N ih =>
      intro x hx hnr hN
      have hpos := meas_pos p r x hx
      have hpx : p.getD x x < p.length := hok.1 x hx
      have hrank := hok.2 x hx hnr
      have hstep := meas_step_lt p r x hok hx hnr
      rw [rootD_step p r x hok hx hnr]
      by_cases hr₂ : p.getD (p.getD x x) (p.getD x x) = p.getD x x
      · rw [rootD_of_root p (p.getD x x) hr₂]
        exact hrank
      · have := ih (p.getD x x) hpx hr₂ (by omega)
        omega
  exact hgen (meas p r x) x hx hnr (le_refl _)

theorem okp_set_root (p r : List Nat) (x : Nat) (hok : Okp p r) (hx : x < p.length) :
    Okp (p.set x (rootD p x)) r ∧
    (∀ y, y < p.length → rootD (p.set x (rootD p x)) y = rootD p y) := by
  obtain ⟨hroot_isroot, hroot_lt⟩ := rootD_spec p r x hok hx
  have hlen : (p.set x (rootD p x)).length = p.length := List.length_set p x _
  have hgetD : ∀ y, (p.set x (rootD p x)).getD y y =
      if y = x then rootD p x else p.getD y y := by
    intro y
    by_cases hyx : y = x
    · subst hyx
      rw [if_pos rfl, getD_set_self p y _ y hx]
    · rw [if_neg hyx, getD_set_ne p x _ y y (fun hc => hyx hc.symm)]
  have hok₂ : Okp (p.set x (rootD p x)) r := by
    constructor
    · intro y hy
      rw [hlen] at hy
      rw [hlen, hgetD y]
      by_cases hyx : y = x
      · rw [if_pos hyx]
        exact hroot_lt
      · rw [if_neg hyx]
        exact hok.1 y hy
    · intro y hy hne
      rw [hlen] at hy
      rw [hgetD y] at hne ⊢
      by_cases hyx : y = x
      · rw [if_pos hyx] at hne ⊢
        subst hyx
        have hnr : p.getD y y ≠ y := by
          intro hc
          rw [rootD_of_root p y hc] at hne
          exact hne rfl
        exact rank_lt_rootD p r y hok hy hnr
      · rw [if_neg hyx] at hne ⊢
        exact hok.2 y hy hne
  refine ⟨hok₂, ?_⟩
  have hgen : ∀ N y, y < p.length → meas p r y ≤ N →
      rootD (p.set x (rootD p x)) y = rootD p y := by
    intro N
    induction N with
    | zero =>
      intro y hy hN
      have := meas_pos p r y hy
      omega
    | succ N ih =>
      intro y hy hN
      by_cases hyx : y = x
      · subst hyx
        by_cases hr : p.getD y y = y
        · have h₁ : rootD p y = y := rootD_of_root p y hr
          rw [h₁]
          apply rootD_of_root
          exact getD_set_self p y y y hy
        · have hrootne : rootD p y ≠ y := by
            intro hc
            have := rank_lt_rootD p r y hok hy hr
            rw [hc] at this
            omega
          have hq₁ : (p.set y (rootD p y)).getD y y = rootD p y := by
            rw [hgetD y, if_pos rfl]
          have hq₂ : (p.set y (rootD p y)).getD (rootD p y) (rootD p y) = rootD p y := by
            rw [hgetD (rootD p y), if_neg hrootne]
            exact hroot_isroot
          rw [rootD_step (p.set y (rootD p y)) r y hok₂ (by rw [hlen]; exact hy)
            (by rw [hq₁]; exact hrootne), hq₁, rootD_of_root _ _ hq₂]
      · by_cases hr : p.getD y y = y
        · rw [rootD_of_root p y hr, rootD_of_root _ y (by rw [hgetD y, if_neg hyx]; exact hr)]
        · have hpy : p.getD y y < p.length := hok.1 y hy
          have hstep := meas_step_lt p r y hok hy hr
          rw [rootD_step p r y hok hy hr,
            rootD_step (p.set x (rootD p x)) r y hok₂ (by rw [hlen]; exact hy)
              (by rw [hgetD y, if_neg hyx]; exact hr),
            hgetD y, if_neg hyx]
          exact ih (p.getD y y) hpy (by omega)
  intro y hy
  exact hgen (meas p r y) y hy (le_refl _)

theorem findAux_spec (p r : List Nat) (hok : Okp p r) :
    ∀ N fuel x, x < p.length → meas p r x ≤ N → meas p r x ≤ fuel →
      (findAux fuel p x).1 = rootD p x ∧
      (findAux fuel p x).2.length = p.length ∧
      Okp (findAux fuel p x).2 r ∧
      (∀ y, y < p.length → rootD (findAux fuel p x).2 y = rootD p y) := by
  intro N
  induction N with
  | zero =>
    intro fuel x hx hN _
    have := meas_pos p r x hx
    omega
  | succ N ih =>
    intro fuel x hx hN hfuel
    have hpos := meas_pos p r x hx
    cases fuel with
    | zero => omega
    | succ f =>
      by_cases hr : p.getD x x = x
      · have hred : findAux (f + 1) p x = (x, p) := by
          show (if p.getD x x = x then (x, p) else
            ((findAux f p (p.getD x x)).1,
              (findAux f p (p.getD x x)).2.set x (findAux f p (p.getD x x)).1)) = (x, p)
          rw [if_pos hr]
        rw [hred]
        exact ⟨(rootD_of_root p x hr).symm, rfl, hok, fun y _ => rfl⟩
      · have hred : findAux (f + 1) p x =
            ((findAux f p (p.getD x x)).1,
              (findAux f p (p.getD x x)).2.set x (findAux f p (p.getD x x)).1) := by
          show (if p.getD x x = x then (x, p) else
            ((findAux f p (p.getD x x)).1,
              (findAux f p (p.getD x x)).2.set x (findAux f p (p.getD x x)).1)) = _
          rw [if_neg hr]
        have hpx : p.getD x x < p.length := hok.1 x hx
        have hstep := meas_step_lt p r x hok hx hr
        obtain ⟨ha, hb, hc, hd⟩ := ih f (p.getD x x) hpx (by omega) (by omega)
        set p₁ := (findAux f p (p.getD x x)).2 with hp₁
        have hroot_eq : (findAux f p (p.getD x x)).1 = rootD p₁ x := by
          rw [ha, ← rootD_step p r x hok hx hr]
          exact (hd x hx).symm
        obtain ⟨hok₃, hpres⟩ := okp_set_root p₁ r x hc (by rw [hb]; exact hx)
        rw [hred]
        refine ⟨?_, ?_, ?_, ?_⟩
        · show (findAux f p (p.getD x x)).1 = rootD p x
          rw [ha, rootD_step p r x hok hx hr]
        · show (p₁.set x (findAux f p (p.getD x x)).1).length = p.length
          rw [List.length_set, hb]
        · show Okp (p₁.set x (findAux f p (p.getD x x)).1) r
          rw [hroot_eq]
          exact hok₃
        · intro y hy
          show rootD (p₁.set x (findAux f p (p.getD x x)).1) y = rootD p y
          rw [hroot_eq, hpres y (by rw [hb]; exact hy), hd y hy]

theorem find_spec (u : UnionFind) (x : Nat) (hwf : WFU u) (hx : x < u.parent.length) :
    (find u x).1 = rootD u.parent x ∧
    (find u x).2.parent.length = u.parent.length ∧
    (find u x).2.rank = u.rank ∧
    (find u x).2.size = u.size ∧
    (find u x).2.count = u.count ∧
    WFU (find u x).2 ∧
    (∀ y, y < u.parent.length → rootD (find u x).2.parent y = rootD u.parent y) := by
  obtain ⟨hrk, hok⟩ := hwf
  obtain ⟨ha, hb, hc, hd⟩ := findAux_spec u.parent u.rank hok
    (meas u.parent u.rank x) u.parent.length x hx (le_refl _)
    (meas_le_length u.parent u.rank x)
  refine ⟨ha, hb, rfl, rfl, rfl, ⟨?_, hc⟩, hd⟩
  show u.rank.length = (findAux u.parent.length u.parent x).2.length
  rw [hb]
  exact hrk

theorem okp_merge (p₂ r₂ : List Nat) (ra rb : Nat) (hok : Okp p₂ r₂)
    (hra : p₂.getD ra ra = ra) (hralt : ra < p₂.length) (hrblt : rb < p₂.length)
    (hne : ra ≠ rb) (hrank : r₂.getD ra 0 < r₂.getD rb 0) :
    Okp (p₂.set ra rb) r₂ := by
  have hget : ∀ z, (p₂.set ra rb).getD z z = if z = ra then rb else p₂.getD z z := by
    intro z
    by_cases hz : z = ra
    · subst hz
      rw [if_pos rfl, getD_set_self p₂ z rb z hralt]
    · rw [if_neg hz, getD_set_ne p₂ ra rb z z (fun hc => hz hc.symm)]
  constructor
  · intro z hz
    rw [List.length_set] at hz ⊢
    rw [hget z]
    by_cases hza : z = ra
    · rw [if_pos hza]
      exact hrblt
    · rw [if_neg hza]
      exact hok.1 z hz
  · intro z hz hznr
    rw [List.length_set] at hz
    rw [hget z] at hznr ⊢
    by_cases hza : z = ra
    · rw [if_pos hza] at hznr ⊢
      subst hza
      exact hrank
    · rw [if_neg hza] at hznr ⊢
      exact hok.2 z hz hznr

theorem okp_merge_tie (p₂ r₂ : List Nat) (ra rb : Nat) (hok : Okp p₂ r₂)
    (hrl : r₂.length = p₂.length)
    (hra : p₂.getD ra ra = ra) (hralt : ra < p₂.length) (hrblt : rb < p₂.length)
    (hne : ra ≠ rb) (hrank : r₂.getD ra 0 = r₂.getD rb 0) :
    Okp (p₂.set rb ra) (r₂.set ra (r₂.getD ra 0 + 1)) := by
  have hget : ∀ z, (p₂.set rb ra).getD z z = if z = rb then ra else p₂.getD z z := by
    intro z
    by_cases hz : z = rb
    · subst hz
      rw [if_pos rfl, getD_set_self p₂ z ra z hrblt]
    · rw [if_neg hz, getD_set_ne p₂ rb ra z z (fun hc => hz hc.symm)]
  have hrget : ∀ z, (r₂.set ra (r₂.getD ra 0 + 1)).getD z 0 =
      if z = ra then r₂.getD ra 0 + 1 else r₂.getD z 0 := by
    intro z
    by_cases hz : z = ra
    · subst hz
      rw [if_pos rfl, getD_set_self r₂ z _ 0 (by omega)]
    · rw [if_neg hz, getD_set_ne r₂ ra _ z 0 (fun hc => hz hc.symm)]
  constructor
  · intro z hz
    rw [List.length_set] at hz ⊢
    rw [hget z]
    by_cases hzb : z = rb
    · rw [if_pos hzb]
      exact hralt
    · rw [if_neg hzb]
      exact hok.1 z hz
  · intro z hz hznr
    rw [List.length_set] at hz
    rw [hget z] at hznr ⊢
    by_cases hzb : z = rb
    · rw [if_pos hzb] at hznr ⊢
      subst hzb
      rw [hrget z, hrget ra, if_neg (fun hc => hne hc.symm), if_pos rfl]
      omega
    · rw [if_neg hzb] at hznr ⊢
      have hold := hok.2 z hz hznr
      rw [hrget z, hrget (p₂.getD z z)]
      by_cases hza : z = ra
      · subst hza
        rw [hra] at hznr
        exact absurd rfl hznr
      · rw [if_neg hza]
        by_cases hpa : p₂.getD z z = ra
        · rw [if_pos hpa, ← hpa]
          omega
        · rw [if_neg hpa]
          exact hold

theorem union_spec (u : UnionFind) (x y : Nat) (hwf : WFU u)
    (hx : x < u.parent.length) (hy : y < u.parent.length) :
    ((union u x y).1 = true ↔ rootD u.parent x ≠ rootD u.parent y) ∧
    ((union u x y).2.count =
      if rootD u.parent x = rootD u.parent y then u.count else u.count - 1) ∧
    WFU (union u x y).2 ∧
    (union u x y).2.parent.length = u.parent.length := by
  obtain ⟨ha₁, hb₁, hc₁, hd₁, he₁, hwf₁, hp₁⟩ := find_spec u x hwf hx
  obtain ⟨ha₂, hb₂, hc₂, hd₂, he₂, hwf₂, hp₂⟩ :=
    find_spec (find u x).2 y hwf₁ (by rw [hb₁]; exact hy)
  set rX := (find u x).1 with hrXdef
  set rY := (find (find u x).2 y).1 with hrYdef
  set u₂ := (find (find u x).2 y).2 with hu₂def
  have hrx : rX = rootD u.parent x := ha₁
  have hry : rY = rootD u.parent y := by rw [ha₂]; exact hp₁ y hy
  have hlen₂ : u₂.parent.length = u.parent.length := by rw [hu₂def, hb₂, hb₁]
  have hrank₂ : u₂.rank = u.rank := by rw [hu₂def, hc₂, hc₁]
  have hcount₂ : u₂.count = u.count := by rw [hu₂def, he₂, he₁]
  have hroot₂ : ∀ z, z < u.parent.length → rootD u₂.parent z = rootD u.parent z := by
    intro z hz
    rw [hu₂def, hp₂ z (by rw [hb₁]; exact hz), hp₁ z hz]
  have hun : union u x y =
      (if rX = rY then (false, u₂)
       else if u₂.rank.getD rX 0 < u₂.rank.getD rY 0 then
        (true, { u₂ with parent := u₂.parent.set rX rY,
                         size := u₂.size.set rY
                           (u₂.size.getD rY 0 + u₂.size.getD rX 0),
                         count := u₂.count - 1 })
       else if u₂.rank.getD rY 0 < u₂.rank.getD rX 0 then
        (true, { u₂ with parent := u₂.parent.set rY rX,
                         size := u₂.size.set rX
                           (u₂.size.getD rX 0 + u₂.size.getD rY 0),
                         count := u₂.count - 1 })
       else
        (true, { u₂ with parent := u₂.parent.set rY rX,
                         size := u₂.size.set rX
                           (u₂.size.getD rX 0 + u₂.size.getD rY 0),
                         rank := u₂.rank.set rX (u₂.rank.getD rX 0 + 1),
                         count := u₂.count - 1 })) := rfl
  by_cases hroots : rootD u.parent x = rootD u.parent y
  · have hcond : rX = rY := by rw [hrx, hry, hroots]
    rw [hun, if_pos hcond]
    refine ⟨by simp [hroots], ?_, hwf₂, hlen₂⟩
    rw [if_pos hroots]
    exact hcount₂
  · have hcond : ¬ rX = rY := by rw [hrx, hry]; exact hroots
    rw [hun, if_neg hcond]
    have hxroot : u₂.parent.getD rX rX = rX ∧ rX < u₂.parent.length := by
      have h := rootD_spec u₂.parent u₂.rank x hwf₂.2 (by rw [hlen₂]; exact hx)
      rw [hroot₂ x hx, ← hrx] at h
      exact h
    have hyroot : u₂.parent.getD rY rY = rY ∧ rY < u₂.parent.length := by
      have h := rootD_spec u₂.parent u₂.rank y hwf₂.2 (by rw [hlen₂]; exact hy)
      rw [hroot₂ y hy, ← hry] at h
      exact h
    have hrkl : u₂.rank.length = u₂.parent.length := hwf₂.1
    by_cases hc₁r : u₂.rank.getD rX 0 < u₂.rank.getD rY 0
    · rw [if_pos hc₁r]
      refine ⟨by simp [hroots], by rw [if_neg hroots]; exact hcount₂ ▸ rfl, ?_, ?_⟩
      · constructor
        · show u₂.rank.length = (u₂.parent.set rX rY).length
          rw [List.length_set]
          exact hrkl
        · exact okp_merge u₂.parent u₂.rank rX rY hwf₂.2 hxroot.1 hxroot.2 hyroot.2
            hcond hc₁r
      · show (u₂.parent.set rX rY).length = u.parent.length
        rw [List.length_set]
        exact hlen₂
    · rw [if_neg hc₁r]
      by_cases hc₂r : u₂.rank.getD rY 0 < u₂.rank.getD rX 0
      · rw [if_pos hc₂r]
        refine ⟨by simp [hroots], by rw [if_neg hroots]; exact hcount₂ ▸ rfl, ?_, ?_⟩
        · constructor
          · show u₂.rank.length = (u₂.parent.set rY rX).length
            rw [List.length_set]
            exact hrkl
          · exact okp_merge u₂.parent u₂.rank rY rX hwf₂.2 hyroot.1 hyroot.2 hxroot.2
              (Ne.symm hcond) hc₂r
        · show (u₂.parent.set rY rX).length = u.parent.length
          rw [List.length_set]
          exact hlen₂
      · rw [if_neg hc₂r]
        refine ⟨by simp [hroots], by rw [if_neg hroots]; exact hcount₂ ▸ rfl, ?_, ?_⟩
        · constructor
          · show (u₂.rank.set rX (u₂.rank.getD rX 0 + 1)).length =
              (u₂.parent.set rY rX).length
            rw [List.length_set, List.length_set]
            exact hrkl
          · exact okp_merge_tie u₂.parent u₂.rank rX rY hwf₂.2 hrkl hxroot.1 hxroot.2
              hyroot.2 hcond (by omega)
        · show (u₂.parent.set rY rX).length = u.parent.length
          rw [List.length_set]
          exact hlen₂

theorem connected_spec (u : UnionFind) (x y : Nat) (hwf : WFU u)
    (hx : x < u.parent.length) (hy : y < u.parent.length) :
    (connected u x y).1 = decide (rootD u.parent x = rootD u.parent y) := by
  obtain ⟨ha₁, hb₁, hc₁, hd₁, he₁, hwf₁, hp₁⟩ := find_spec u x hwf hx
  obtain ⟨ha₂, hb₂, hc₂, hd₂, he₂, hwf₂, hp₂⟩ :=
    find_spec (find u x).2 y hwf₁ (by rw [hb₁]; exact hy)
  show decide ((find u x).1 = (find (find u x).2 y).1) = _
  rw [ha₁, ha₂, hp₁ y hy]

theorem wfu_init (n : Nat) : WFU (init n) := by
  have hget : ∀ x, x < n → (List.range n).getD x x = x := by
    intro x hx
    rw [List.getD_eq_getElem _ _ (by simpa using hx)]
    simp
  refine ⟨by simp [init], ?_, ?_⟩
  · intro x hx
    simp only [init] at hx ⊢
    rw [List.length_range] at hx
    rw [hget x hx, List.length_range]
    exact hx
  · intro x hx hne
    simp only [init] at hx hne
    rw [List.length_range] at hx
    rw [hget x hx] at hne
    exact absurd rfl hne

theorem length_init (n : Nat) : (init n).parent.length = n := by
  simp [init]

theorem wfu_runUnions (n : Nat) (ops : List (Nat × Nat))
    (hops : ∀ xy ∈ ops, xy.1 < n ∧ xy.2 < n) :
    WFU (runUnions (init n) ops) ∧ (runUnions (init n) ops).parent.length = n := by
  rw [runUnions]
  have h₀ : WFU (init n) ∧ (init n).parent.length = n := ⟨wfu_init n, length_init n⟩
  generalize init n = s at h₀ ⊢
  induction ops generalizing s with
  | nil => exact h₀
  | cons op rest ih =>
    have hop := hops op (List.mem_cons_self _ _)
    obtain ⟨hs₁, hs₂, hs₃, hs₄⟩ := union_spec s op.1 op.2 h₀.1
      (by rw [h₀.2]; exact hop.1) (by rw [h₀.2]; exact hop.2)
    exact ih (fun o ho => hops o (List.mem_cons_of_mem _ ho)) _ ⟨hs₃, by rw [hs₄, h₀.2]⟩

end UnionFind

/-- C8: after any sequence of `union` calls on a `UnionFind` of size `n`,
`union(x, y)` returns true exactly when `x` and `y` are in different sets
(i.e. `connected` would be false); `getCount` drops by exactly 1 on a true
`union` and is unchanged on a false one; and `connected` is reflexive,
symmetric and transitive. -/
theorem C8_union_find_laws (n : Nat) (ops : List (Nat × Nat))
    (hops : ∀ xy ∈ ops, xy.1 < n ∧ xy.2 < n) (x y z : Nat)
    (hx : x < n) (hy : y < n) (hz : z < n) :
    ((UnionFind.union (UnionFind.runUnions (UnionFind.init n) ops) x y).1 = true ↔
      (UnionFind.connected (UnionFind.runUnions (UnionFind.init n) ops) x y).1 = false) ∧
    ((UnionFind.union (UnionFind.runUnions (UnionFind.init n) ops) x y).1 = true →
      UnionFind.getCount
          (UnionFind.union (UnionFind.runUnions (UnionFind.init n) ops) x y).2 =
        UnionFind.getCount (UnionFind.runUnions (UnionFind.init n) ops) - 1) ∧
    ((UnionFind.union (UnionFind.runUnions (UnionFind.init n) ops) x y).1 = false →
      UnionFind.getCount
          (UnionFind.union (UnionFind.runUnions (UnionFind.init n) ops) x y).2 =
        UnionFind.getCount (UnionFind.runUnions (UnionFind.init n) ops)) ∧
    ((UnionFind.connected (UnionFind.runUnions (UnionFind.init n) ops) x x).1 = true) ∧
    ((UnionFind.connected (UnionFind.runUnions (UnionFind.init n) ops) x y).1 = true →
      (UnionFind.connected (UnionFind.runUnions (UnionFind.init n) ops) y x).1 = true) ∧
    ((UnionFind.connected (UnionFind.runUnions (UnionFind.init n) ops) x y).1 = true →
      (UnionFind.connected (UnionFind.runUnions (UnionFind.init n) ops) y z).1 = true →
      (UnionFind.connected (UnionFind.runUnions (UnionFind.init n) ops) x z).1 = true) := by
  obtain ⟨hwf, hlen⟩ := UnionFind.wfu_runUnions n ops hops
  have hx₂ : x < (UnionFind.runUnions (UnionFind.init n) ops).parent.length := by
    rw [hlen]; exact hx
  have hy₂ : y < (UnionFind.runUnions (UnionFind.init n) ops).parent.length := by
    rw [hlen]; exact hy
  have hz₂ : z < (UnionFind.runUnions (UnionFind.init n) ops).parent.length := by
    rw [hlen]; exact hz
  obtain ⟨hu₁, hu₂, _, _⟩ :=
    UnionFind.union_spec (UnionFind.runUnions (UnionFind.init n) ops) x y hwf hx₂ hy₂
  have hcxy := UnionFind.connected_spec (UnionFind.runUnions (UnionFind.init n) ops)
    x y hwf hx₂ hy₂
  have hcyx := UnionFind.connected_spec (UnionFind.runUnions (UnionFind.init n) ops)
    y x hwf hy₂ hx₂
  have hcyz := UnionFind.connected_spec (UnionFind.runUnions (UnionFind.init n) ops)
    y z hwf hy₂ hz₂
  have hcxz := UnionFind.connected_spec (UnionFind.runUnions (UnionFind.init n) ops)
    x z hwf hx₂ hz₂
  have hcxx := UnionFind.connected_spec (UnionFind.runUnions (UnionFind.init n) ops)
    x x hwf hx₂ hx₂
  refine ⟨?_, ?_, ?_, ?_, ?_, ?_⟩
  · rw [hu₁, hcxy]
    constructor
    · intro h
      simpa using h
    · intro h
      simpa using h
  · intro h
    have hne := hu₁.1 h
    show (UnionFind.union (UnionFind.runUnions (UnionFind.init n) ops) x y).2.count = _
    rw [hu₂, if_neg hne]
    rfl
  · intro h
    have heq : UnionFind.rootD (UnionFind.runUnions (UnionFind.init n) ops).parent x =
        UnionFind.rootD (UnionFind.runUnions (UnionFind.init n) ops).parent y := by
      by_contra hc
      rw [hu₁.2 hc] at h
      exact Bool.noConfusion h
    show (UnionFind.union (UnionFind.runUnions (UnionFind.init n) ops) x y).2.count = _
    rw [hu₂, if_pos heq]
    rfl
  · rw [hcxx]
    simp
  · intro h
    rw [hcxy] at h
    rw [hcyx]
    simp only [decide_eq_true_eq] at h ⊢
    exact h.symm
  · intro h₁ h₂
    rw [hcxy] at h₁
    rw [hcyz] at h₂
    rw [hcxz]
    simp only [decide_eq_true_eq] at h₁ h₂ ⊢
    exact h₁.trans h₂

/-- C8 witness: the laws at a concrete state (size 3, after union(0, 1)). -/
theorem C8_union_find_laws_witness :
    ((UnionFind.union (UnionFind.runUnions (UnionFind.init 3) [(0, 1)]) 0 2).1 = true ↔
      (UnionFind.connected (UnionFind.runUnions (UnionFind.init 3) [(0, 1)]) 0 2).1 = false) ∧
    ((UnionFind.union (UnionFind.runUnions (UnionFind.init 3) [(0, 1)]) 0 2).1 = true →
      UnionFind.getCount
          (UnionFind.union (UnionFind.runUnions (UnionFind.init 3) [(0, 1)]) 0 2).2 =
        UnionFind.getCount (UnionFind.runUnions (UnionFind.init 3) [(0, 1)]) - 1) ∧
    ((UnionFind.union (UnionFind.runUnions (UnionFind.init 3) [(0, 1)]) 0 2).1 = false →
      UnionFind.getCount
          (UnionFind.union (UnionFind.runUnions (UnionFind.init 3) [(0, 1)]) 0 2).2 =
        UnionFind.getCount (UnionFind.runUnions (UnionFind.init 3) [(0, 1)])) ∧
    ((UnionFind.connected (UnionFind.runUnions (UnionFind.init 3) [(0, 1)]) 0 0).1 = true) ∧
    ((UnionFind.connected (UnionFind.runUnions (UnionFind.init 3) [(0, 1)]) 0 2).1 = true →
      (UnionFind.connected (UnionFind.runUnions (UnionFind.init 3) [(0, 1)]) 2 0).1 = true) ∧
    ((UnionFind.connected (UnionFind.runUnions (UnionFind.init 3) [(0, 1)]) 0 2).1 = true →
      (UnionFind.connected (UnionFind.runUnions (UnionFind.init 3) [(0, 1)]) 2 1).1 = true →
      (UnionFind.connected (UnionFind.runUnions (UnionFind.init 3) [(0, 1)]) 0 1).1 = true) :=
  C8_union_find_laws 3 [(0, 1)] (by decide) 0 2 1 (by decide) (by decide) (by decide)

/-! ## Shortest-path family

`number` distances are modelled as `Option ℤ` with `none` standing for
`Infinity` (the initialization stores `Infinity` explicitly, so a distance
map entry can be "present and infinite" as in the source).  JavaScript
`Infinity` arithmetic: `Infinity + w = Infinity`, `x < Infinity` is true for
finite `x`, `Infinity < x` is false. -/

/-- Weighted adjacency map: `Map<number, [number, number][]>`. -/
def WeightedGraph : Type := List (Nat × List (Nat × Int))

/-- Edge list entry `[from, to, weight]`. -/
def BFEdge : Type := Nat × Nat × Int

/-- Result record of `bellmanFord`. -/
structure BellmanFordResult where
  distances : List (Nat × Option Int)
  previous : List (Nat × Nat)
  hasNegativeCycle : Bool

/-- Initialization: every vertex to `Infinity`, then the source to 0. -/
def bfInit (vertices : List Nat) (start : Nat) : List (Nat × Option Int) :=
  mset (vertices.foldl (fun m v => mset m v none) []) start (some 0)

/-- One relaxation of one edge, updating distance and predecessor maps. -/
def relaxEdge (st : List (Nat × Option Int) × List (Nat × Nat)) (e : BFEdge) :
    List (Nat × Option Int) × List (Nat × Nat) :=
  match (mget st.1 e.1).getD none with
  | none => st
  | some du =>
    match (mget st.1 e.2.1).getD none with
    | none => (mset st.1 e.2.1 (some (du + e.2.2)), mset st.2 e.2.1 e.1)
    | some dv =>
      if du + e.2.2 < dv then
        (mset st.1 e.2.1 (some (du + e.2.2)), mset st.2 e.2.1 e.1)
      else st

/-- One full pass over the edge list. -/
def bfPass (edges : List BFEdge) (st : List (Nat × Option Int) × List (Nat × Nat)) :
    List (Nat × Option Int) × List (Nat × Nat) :=
  edges.foldl relaxEdge st

/-- The verification-pass test: `distU !== Infinity && distU + weight < distV`. -/
def relaxableB (dist : List (Nat × Option Int)) (e : BFEdge) : Bool :=
  match (mget dist e.1).getD none with
  | none => false
  | some du =>
    match (mget dist e.2.1).getD none with
    | none => true
    | some dv => decide (du + e.2.2 < dv)

/-- State (distances, predecessors) after the `V-1` relaxation passes. -/
def bfRelaxed (vertices : List Nat) (edges : List BFEdge) (start : Nat) :
    List (Nat × Option Int) × List (Nat × Nat) :=
  (fun st => bfPass edges st)^[vertices.length - 1] (bfInit vertices start, [])

/-- The `bellmanFord` function of src/graphs/bellmanFord.ts. -/
def bellmanFord (vertices : List Nat) (edges : List BFEdge) (start : Nat) :
    BellmanFordResult :=
  let st := bfRelaxed vertices edges start
  { distances := st.1, previous := st.2,
    hasNegativeCycle := edges.any (relaxableB st.1) }

/-- The `graphToEdges` helper (iteration in map insertion order). -/
def graphToEdges (graph : WeightedGraph) : List BFEdge :=
  graph.foldl (fun acc p => acc ++ p.2.map (fun e => (p.1, e.1, e.2))) []

/-- JavaScript addition with `Infinity`. -/
def addO (a b : Option Int) : Option Int :=
  match a, b with
  | some x, some y => some (x + y)
  | _, _ => none

/-- JavaScript `<` with `Infinity` on the right or left. -/
def ltO (a b : Option Int) : Bool :=
  match a, b with
  | some x, some y => decide (x < y)
  | some _, none => true
  | none, _ => false

/-- Result record of `floydWarshall` (matrices as functions of two indices). -/
structure FloydWarshallResult where
  distances : Nat → Nat → Option Int
  next : Nat → Nat → Option Nat
  hasNegativeCycle : Bool

/-- The `floydWarshall` function of src/graphs/floydWarshall.ts. -/
def floydWarshall (n : Nat) (edges : List BFEdge) : FloydWarshallResult :=
  let dist0 : Nat → Nat → Option Int := fun i j => if i = j then some 0 else none
  let next0 : Nat → Nat → Option Nat := fun i j => if i = j then some i else none
  let dist1 := edges.foldl
    (fun d e => fun i j => if i = e.1 ∧ j = e.2.1 then some e.2.2 else d i j) dist0
  let next1 := edges.foldl
    (fun d e => fun i j => if i = e.1 ∧ j = e.2.1 then some e.2.1 else d i j) next0
  let main := (List.range n).foldl
    (fun (dn : (Nat → Nat → Option Int) × (Nat → Nat → Option Nat)) k =>
    (List.range n).foldl (fun dn i =>
      (List.range n).foldl (fun dn j =>
        if ltO (addO (dn.1 i k) (dn.1 k j)) (dn.1 i j) then
          (fun i₂ j₂ => if i₂ = i ∧ j₂ = j then addO (dn.1 i k) (dn.1 k j) else dn.1 i₂ j₂,
           fun i₂ j₂ => if i₂ = i ∧ j₂ = j then dn.2 i k else dn.2 i₂ j₂)
        else dn) dn) dn) (dist1, next1)
  { distances := main.1, next := main.2,
    hasNegativeCycle := (List.range n).any (fun i => ltO (main.1 i i) (some 0)) }

/-- Result record of `dijkstra`. -/
structure DijkstraResult where
  distances : List (Nat × Option Int)
  previous : List (Nat × Nat)

/-- Internal state of the `dijkstra` main loop. -/
structure DState where
  dist : List (Nat × Option Int)
  prev : List (Nat × Nat)
  visited : List Nat
  pq : List (Int × Nat)

/-- Stable insertion for the priority-queue model. -/
def pqInsert (x : Int × Nat) : List (Int × Nat) → List (Int × Nat)
  | [] => [x]
  | y :: ys => if x.1 ≤ y.1 then x :: y :: ys else y :: pqInsert x ys

/-- Model of `pq.sort((a, b) => a[0] - b[0])`: JavaScript `Array.sort` is a
stable sort by the first component, and every stable sort by a total key
produces the same output list. -/
def pqSort (l : List (Int × Nat)) : List (Int × Nat) :=
  l.foldr pqInsert []

/-- Relaxation of the popped node's outgoing edges (the inner `for` loop). -/
def dRelax (node : Nat) (d : Int) (st : DState) (ns : List (Nat × Int)) : DState :=
  ns.foldl (fun s nw =>
    if nw.1 ∈ s.visited then s
    else
      let newDist := d + nw.2
      match (mget s.dist nw.1).getD none with
      | none =>
        { s with dist := mset s.dist nw.1 (some newDist),
                 prev := mset s.prev nw.1 node, pq := s.pq ++ [(newDist, nw.1)] }
      | some cur =>
        if newDist < cur then
          { s with dist := mset s.dist nw.1 (some newDist),
                   prev := mset s.prev nw.1 node, pq := s.pq ++ [(newDist, nw.1)] }
        else s) st

/-- The `while (pq.length > 0)` loop, with explicit fuel (each iteration
consumes one queue entry; the bound chosen in `dijkstra` is proved
sufficient below). -/
def dijkstraLoop (graph : WeightedGraph) : Nat → DState → DState
  | 0, st => st
  | fuel + 1, st =>
    match pqSort st.pq with
    | [] => st
    | (d, node) :: rest =>
      if node ∈ st.visited then dijkstraLoop graph fuel { st with pq := rest }
      else
        dijkstraLoop graph fuel
          (dRelax node d { st with visited := node :: st.visited, pq := rest }
            ((mget graph node).getD []))

/-- Total number of adjacency entries, used as the fuel bound. -/
def totalEdges (graph : WeightedGraph) : Nat :=
  (graph.map (fun p => p.2.length)).sum

/-- The `dijkstra` function of the Dijkstra source file. -/
def dijkstra (graph : WeightedGraph) (start : Nat) : DijkstraResult :=
  let dist0 := mset (graph.foldl (fun m p => mset m p.1 none) []) start (some 0)
  let stF := dijkstraLoop graph (1 + totalEdges graph)
    { dist := dist0, prev := [], visited := [], pq := [(0, start)] }
  { distances := stF.dist, previous := stF.prev }

/-- Path reconstruction `getPath` (shared by the Dijkstra and Bellman-Ford
files).  The `while` loop is modelled with fuel `previous.size + 1`: on the
predecessor maps the algorithms produce, chains are acyclic and shorter than
the map, so the fuel never runs out. -/
def getPathAux : Nat → List (Nat × Nat) → Nat → Nat → List Nat → Option (List Nat)
  | 0, _, _, _, _ => none
  | fuel + 1, previous, start, current, path =>
    if current = start then some path
    else
      match mget previous current with
      | none => none
      | some p => getPathAux fuel previous start p (p :: path)

/-- The `getPath` function. -/
def getPath (previous : List (Nat × Nat)) (start fin : Nat) : Option (List Nat) :=
  if (mget previous fin) = none ∧ start ≠ fin then none
  else getPathAux (previous.length + 1) previous start fin [fin]

set_option maxRecDepth 8192 in
/-- C5: `bellmanFord` relaxes all edges across exactly `V-1` full passes
(`bfRelaxed` is by definition that iteration) and then performs one
additional verification pass: the returned `hasNegativeCycle` is true iff
some edge is still relaxable in the state after the `V-1` passes; on the
concrete 4-cycle 0→1→2→3→0 with weights 1, -1, -1, -1 (total -2) from
source 0, both `bellmanFord` and `floydWarshall` report a negative cycle. -/
theorem C5_bellman_ford_verification_pass (vertices : List Nat) (edges : List BFEdge)
    (start : Nat) :
    ((bellmanFord vertices edges start).distances = (bfRelaxed vertices edges start).1) ∧
    ((bellmanFord vertices edges start).hasNegativeCycle = true ↔
      ∃ e ∈ edges, relaxableB (bfRelaxed vertices edges start).1 e = true) ∧
    (bellmanFord [0, 1, 2, 3] [(0, 1, 1), (1, 2, -1), (2, 3, -1), (3, 0, -1)]
      0).hasNegativeCycle = true ∧
    (floydWarshall 4 [(0, 1, 1), (1, 2, -1), (2, 3, -1), (3, 0, -1)]).hasNegativeCycle =
      true := by
  refine ⟨rfl, ?_, by decide, by decide⟩
  show (edges.any (relaxableB (bfRelaxed vertices edges start).1) = true) ↔ _
  rw [List.any_eq_true]

/-- The concrete weighted graph of the spec scenario. -/
def dijkstraDemoGraph : WeightedGraph :=
  [(0, [(1, 4), (2, 1)]), (1, [(3, 1)]), (2, [(1, 2), (3, 5)]), (3, [])]

set_option maxRecDepth 8192 in
/-- C6: on the graph 0→1 (4), 0→2 (1), 1→3 (1), 2→1 (2), 2→3 (5) from
source 0, `dijkstra` returns distances 0, 3, 1, 4 for vertices 0, 1, 2, 3
and the predecessor map reconstructs the path 0→2→1→3 to vertex 3. -/
theorem C6_dijkstra_concrete_scenario :
    mget (dijkstra dijkstraDemoGraph 0).distances 0 = some (some 0) ∧
    mget (dijkstra dijkstraDemoGraph 0).distances 1 = some (some 3) ∧
    mget (dijkstra dijkstraDemoGraph 0).distances 2 = some (some 1) ∧
    mget (dijkstra dijkstraDemoGraph 0).distances 3 = some (some 4) ∧
    getPath (dijkstra dijkstraDemoGraph 0).previous 0 3 = some [0, 2, 1, 3] :=
  ⟨by decide, by decide, by decide, by decide, by decide⟩

/-! ## Segment Tree (src/data-structures/segmentTree.ts)

The backing array (`new Array(4n).fill(identity)`) is modelled as a total
function `Nat → T` initialized to the identity; `build`, `update` and
`query` recurse over `[start, end]` exactly as the source.  Source recursion
happens only on ranges with `start ≤ end`; the `start > end` case (written
as a final `else` below to make the recursion total) is unreachable. -/

/-- Functional array write. -/
def fset {T : Type} (t : Nat → T) (i : Nat) (v : T) : Nat → T :=
  fun j => if j = i then v else t j

/-- The constructor's recursive `build`. -/
def buildT {T : Type} (combine : T → T → T) (arr : List T) (ident : T) :
    Nat → Nat → Nat → (Nat → T) → (Nat → T)
  | node, start, e, t =>
    if start = e then fset t node (arr.getD start ident)
    else if _h : start < e then
      let mid := (start + e) / 2
      let t₁ := buildT combine arr ident (2 * node) start mid t
      let t₂ := buildT combine arr ident (2 * node + 1) (mid + 1) e t₁
      fset t₂ node (combine (t₂ (2 * node)) (t₂ (2 * node + 1)))
    else t
termination_by node start e => e - start
decreasing_by all_goals omega

/-- The recursive `updateHelper`. -/
def updateT {T : Type} (combine : T → T → T) :
    Nat → Nat → Nat → Nat → T → (Nat → T) → (Nat → T)
  | node, start, e, i, v, t =>
    if start = e then fset t node v
    else if _h : start < e then
      let mid := (start + e) / 2
      let t₁ := if i ≤ mid then updateT combine (2 * node) start mid i v t
                else updateT combine (2 * node + 1) (mid + 1) e i v t
      fset t₁ node (combine (t₁ (2 * node)) (t₁ (2 * node + 1)))
    else t
termination_by node start e i v => e - start
decreasing_by all_goals omega

/-- The recursive `queryHelper`. -/
def queryT {T : Type} (combine : T → T → T) (ident : T) :
    Nat → Nat → Nat → Nat → Nat → (Nat → T) → T
  | node, start, e, l, r, t =>
    if r < start ∨ e < l then ident
    else if l ≤ start ∧ e ≤ r then t node
    else if _h : start < e then
      let mid := (start + e) / 2
      combine (queryT combine ident (2 * node) start mid l r t)
        (queryT combine ident (2 * node + 1) (mid + 1) e l r t)
    else ident
termination_by node start e l r t => e - start
decreasing_by all_goals omega

/-- The generic `SegmentTree<T>` class. -/
structure SegmentTree (T : Type) where
  tree : Nat → T
  n : Nat
  combine : T → T → T
  identity : T

/-- The constructor. -/
def SegmentTree.make {T : Type} (arr : List T) (combine : T → T → T) (ident : T) :
    SegmentTree T :=
  { tree := if 0 < arr.length then
      buildT combine arr ident 1 0 (arr.length - 1) (fun _ => ident)
    else fun _ => ident,
    n := arr.length, combine := combine, identity := ident }

/-- Method `update`. -/
def SegmentTree.update {T : Type} (s : SegmentTree T) (i : Nat) (v : T) :
    SegmentTree T :=
  { s with tree := updateT s.combine 1 0 (s.n - 1) i v s.tree }

/-- Method `query`. -/
def SegmentTree.query {T : Type} (s : SegmentTree T) (l r : Nat) : T :=
  queryT s.combine s.identity 1 0 (s.n - 1) l r s.tree

/-- Brute-force combine of `f` over the inclusive range `[a, b]`. -/
def rangeFold {T : Type} (combine : T → T → T) (f : Nat → T) (a b : Nat) : T :=
  ((List.range' (a + 1) (b - a)).map f).foldl combine (f a)

theorem foldl_assoc {T : Type} (combine : T → T → T)
    (hassoc : ∀ a b c, combine (combine a b) c = combine a (combine b c)) :
    ∀ (l : List T) (x y : T),
      List.foldl combine (combine x y) l = combine x (List.foldl combine y l) := by
  intro l
  induction l with
  | nil => intro x y; rfl
  | cons z l ih =>
    intro x y
    show List.foldl combine (combine (combine x y) z) l = _
    rw [hassoc, ih]
    rfl

theorem rangeFold_single {T : Type} (combine : T → T → T) (f : Nat → T) (a : Nat) :
    rangeFold combine f a a = f a := by
  simp [rangeFold]

theorem rangeFold_congr {T : Type} (combine : T → T → T) (f g : Nat → T) (a b : Nat)
    (hab : a ≤ b) (h : ∀ j, a ≤ j → j ≤ b → f j = g j) :
    rangeFold combine f a b = rangeFold combine g a b := by
  rw [rangeFold, rangeFold, h a (le_refl a) hab]
  congr 1
  apply List.map_congr_left
  intro j hj
  rw [List.mem_range'] at hj
  exact h j (by omega) (by omega)

theorem rangeFold_split {T : Type} (combine : T → T → T)
    (hassoc : ∀ a b c, combine (combine a b) c = combine a (combine b c))
    (f : Nat → T) (a m b : Nat) (ham : a ≤ m) (hmb : m < b) :
    rangeFold combine f a b = combine (rangeFold combine f a m) (rangeFold combine f (m + 1) b) := by
  have hsplit : List.range' (a + 1) (b - a) =
      List.range' (a + 1) (m - a) ++ List.range' (m + 1) (b - m) := by
    have h := List.range'_append (a + 1) (m - a) (b - m) 1
    rw [one_mul, show a + 1 + (m - a) = m + 1 by omega,
      show (b - m) + (m - a) = b - a by omega] at h
    exact h.symm
  rw [rangeFold, hsplit, List.map_append, List.foldl_append]
  have hR : b - m = (b - (m + 1)) + 1 := by omega
  rw [hR, List.range'_succ, List.map_cons, List.foldl_cons]
  rw [foldl_assoc combine hassoc]
  rfl

/-- Subtree relation on heap indices: `m` is a descendant of `node`. -/
def isDesc (node m : Nat) : Prop :=
  ∃ k, m / 2 ^ k = node

theorem isDesc_self (node : Nat) : isDesc node node :=
  ⟨0, by simp⟩

theorem isDesc_left (node m : Nat) (h : isDesc (2 * node) m) : isDesc node m := by
  obtain ⟨k, hk⟩ := h
  refine ⟨k + 1, ?_⟩
  rw [pow_succ, ← Nat.div_div_eq_div_mul, hk]
  omega

theorem isDesc_right (node m : Nat) (h : isDesc (2 * node + 1) m) : isDesc node m := by
  obtain ⟨k, hk⟩ := h
  refine ⟨k + 1, ?_⟩
  rw [pow_succ, ← Nat.div_div_eq_div_mul, hk]
  omega

theorem isDesc_ge (node m : Nat) (h : isDesc node m) : node ≤ m := by
  obtain ⟨k, hk⟩ := h
  calc node = m / 2 ^ k := hk.symm
    _ ≤ m := Nat.div_le_self _ _

theorem not_isDesc_lt (node m : Nat) (h : m < node) : ¬ isDesc node m :=
  fun hc => absurd (isDesc_ge node m hc) (by omega)

theorem isDesc_sibling_disjoint (node m : Nat) (hpos : 1 ≤ node) :
    ¬ (isDesc (2 * node) m ∧ isDesc (2 * node + 1) m) := by
  rintro ⟨⟨k₁, hk₁⟩, ⟨k₂, hk₂⟩⟩
  rcases Nat.lt_trichotomy k₁ k₂ with h | h | h
  · have hdd : m / 2 ^ k₂ = (m / 2 ^ k₁) / 2 ^ (k₂ - k₁) := by
      rw [Nat.div_div_eq_div_mul, ← pow_add, show k₁ + (k₂ - k₁) = k₂ by omega]
    rw [hk₁, hk₂] at hdd
    have h2d : 2 ≤ 2 ^ (k₂ - k₁) := by
      calc 2 = 2 ^ 1 := (pow_one 2).symm
        _ ≤ 2 ^ (k₂ - k₁) := Nat.pow_le_pow_right (by omega) (by omega)
    have h₂ : (2 * node) / 2 ^ (k₂ - k₁) ≤ (2 * node) / 2 :=
      Nat.div_le_div_left h2d (by omega)
    have h₃ : (2 * node) / 2 = node := Nat.mul_div_cancel_left node (by omega)
    rw [h₃] at h₂
    omega
  · rw [h] at hk₁
    rw [hk₁] at hk₂
    omega
  · have hdd : m / 2 ^ k₁ = (m / 2 ^ k₂) / 2 ^ (k₁ - k₂) := by
      rw [Nat.div_div_eq_div_mul, ← pow_add, show k₂ + (k₁ - k₂) = k₁ by omega]
    rw [hk₁, hk₂] at hdd
    have h2d : 2 ≤ 2 ^ (k₁ - k₂) := by
      calc 2 = 2 ^ 1 := (pow_one 2).symm
        _ ≤ 2 ^ (k₁ - k₂) := Nat.pow_le_pow_right (by omega) (by omega)
    have h₂ : (2 * node + 1) / 2 ^ (k₁ - k₂) ≤ (2 * node + 1) / 2 :=
      Nat.div_le_div_left h2d (by omega)
    have h₃ : (2 * node + 1) / 2 = node := by omega
    rw [h₃] at h₂
    omega

theorem not_isDesc_node_left (node : Nat) (hpos : 1 ≤ node) : ¬ isDesc (2 * node) node :=
  not_isDesc_lt _ _ (by omega)

theorem not_isDesc_node_right (node : Nat) (hpos : 1 ≤ node) :
    ¬ isDesc (2 * node + 1) node :=
  not_isDesc_lt _ _ (by omega)

/-- Correctness of a tree array w.r.t. the logical array `f` on the node
decomposition rooted at `(node, start, e)`: every node stores the fold of
`f` over its range. -/
def TreeOk {T : Type} (combine : T → T → T) (f : Nat → T) (t : Nat → T) :
    Nat → Nat → Nat → Prop
  | node, start, e =>
    t node = rangeFold combine f start e ∧
    (start < e →
      TreeOk combine f t (2 * node) start ((start + e) / 2) ∧
      TreeOk combine f t (2 * node + 1) ((start + e) / 2 + 1) e)
termination_by node start e => e - start
decreasing_by all_goals omega

theorem TreeOk_iff {T : Type} (combine : T → T → T) (f t : Nat → T)
    (node start e : Nat) :
    TreeOk combine f t node start e ↔
      (t node = rangeFold combine f start e ∧
        (start < e →
          TreeOk combine f t (2 * node) start ((start + e) / 2) ∧
          TreeOk combine f t (2 * node + 1) ((start + e) / 2 + 1) e)) := by
  rw [TreeOk]

theorem TreeOk_congr {T : Type} (combine : T → T → T) (f g t u : Nat → T) :
    ∀ N node start e, e - start ≤ N → start ≤ e →
      (∀ j, start ≤ j → j ≤ e → f j = g j) →
      (∀ m, isDesc node m → t m = u m) →
      TreeOk combine f t node start e → TreeOk combine g u node start e := by
  intro N
  induction N with
  | zero =>
    intro node start e hN hse hf ht h
    rw [TreeOk_iff] at h ⊢
    have he : start = e := by omega
    subst he
    refine ⟨?_, fun hc => absurd hc (by omega)⟩
    rw [← ht node (isDesc_self node), h.1, rangeFold_single, rangeFold_single,
      hf start (le_refl _) (le_refl _)]
  | succ N ih =>
    intro node start e hN hse hf ht h
    rw [TreeOk_iff] at h ⊢
    constructor
    · rw [← ht node (isDesc_self node), h.1]
      exact rangeFold_congr combine f g start e hse hf
    · intro hlt
      obtain ⟨hL, hR⟩ := h.2 hlt
      have hmid₁ : start ≤ (start + e) / 2 := by omega
      have hmid₂ : (start + e) / 2 < e := by omega
      constructor
      · exact ih (2 * node) start ((start + e) / 2) (by omega) hmid₁
          (fun j h₁ h₂ => hf j h₁ (by omega))
          (fun m hm => ht m (isDesc_left node m hm)) hL
      · exact ih (2 * node + 1) ((start + e) / 2 + 1) e (by omega) (by omega)
          (fun j h₁ h₂ => hf j (by omega) h₂)
          (fun m hm => ht m (isDesc_right node m hm)) hR

theorem buildT_ok {T : Type} (combine : T → T → T) (arr : List T) (ident : T)
    (hassoc : ∀ a b c, combine (combine a b) c = combine a (combine b c)) :
    ∀ N node start e t, e - start ≤ N → start ≤ e → 1 ≤ node →
      TreeOk combine (fun j => arr.getD j ident)
        (buildT combine arr ident node start e t) node start e ∧
      (∀ m, ¬ isDesc node m → buildT combine arr ident node start e t m = t m) := by
  intro N
  induction N with
  | zero =>
    intro node start e t hN hse hnode
    have he : start = e := by omega
    subst he
    rw [buildT, if_pos rfl]
    constructor
    · rw [TreeOk_iff]
      refine ⟨?_, fun hc => absurd hc (by omega)⟩
      rw [rangeFold_single, fset, if_pos rfl]
    · intro m hm
      have : m ≠ node := fun h => hm (h ▸ isDesc_self node)
      rw [fset, if_neg this]
  | succ N ih =>
    intro node start e t hN hse hnode
    by_cases he : start = e
    · subst he
      rw [buildT, if_pos rfl]
      constructor
      · rw [TreeOk_iff]
        refine ⟨?_, fun hc => absurd hc (by omega)⟩
        rw [rangeFold_single, fset, if_pos rfl]
      · intro m hm
        have : m ≠ node := fun h => hm (h ▸ isDesc_self node)
        rw [fset, if_neg this]
    · have hlt : start < e := by omega
      have hm₁ : start ≤ (start + e) / 2 := by omega
      have hm₂ : (start + e) / 2 < e := by omega
      obtain ⟨hokL, hlocL⟩ := ih (2 * node) start ((start + e) / 2) t (by omega) hm₁ (by omega)
      obtain ⟨hokR, hlocR⟩ := ih (2 * node + 1) ((start + e) / 2 + 1) e
        (buildT combine arr ident (2 * node) start ((start + e) / 2) t) (by omega) (by omega) (by omega)
      have hb : buildT combine arr ident node start e t =
          fset (buildT combine arr ident (2 * node + 1) ((start + e) / 2 + 1) e
              (buildT combine arr ident (2 * node) start ((start + e) / 2) t)) node
            (combine
              (buildT combine arr ident (2 * node + 1) ((start + e) / 2 + 1) e
                (buildT combine arr ident (2 * node) start ((start + e) / 2) t) (2 * node))
              (buildT combine arr ident (2 * node + 1) ((start + e) / 2 + 1) e
                (buildT combine arr ident (2 * node) start ((start + e) / 2) t) (2 * node + 1))) := by
        rw [buildT, if_neg he, dif_pos hlt]
      rw [hb]
      generalize hg₁ : buildT combine arr ident (2 * node) start ((start + e) / 2) t = t₁
        at hokL hlocL hokR hlocR ⊢
      generalize hg₂ : buildT combine arr ident (2 * node + 1) ((start + e) / 2 + 1) e t₁ = t₂
        at hokR hlocR ⊢
      have hL1 : t₁ (2 * node) = rangeFold combine (fun j => arr.getD j ident) start ((start + e) / 2) :=
        ((TreeOk_iff _ _ _ _ _ _).mp hokL).1
      have hR1 : t₂ (2 * node + 1) = rangeFold combine (fun j => arr.getD j ident) ((start + e) / 2 + 1) e :=
        ((TreeOk_iff _ _ _ _ _ _).mp hokR).1
      have h21 : t₂ (2 * node) = t₁ (2 * node) :=
        hlocR (2 * node) (not_isDesc_lt (2 * node + 1) (2 * node) (by omega))
      constructor
      · rw [TreeOk_iff]
        constructor
        · rw [fset, if_pos rfl, h21, hL1, hR1,
            rangeFold_split combine hassoc _ start ((start + e) / 2) e hm₁ hm₂]
        · intro _
          constructor
          · refine TreeOk_congr combine _ _ t₁ _ ((start + e) / 2 - start) (2 * node) start
              ((start + e) / 2) (le_refl _) hm₁ (fun j _ _ => rfl) ?_ hokL
            intro m hm
            have hmne : m ≠ node := fun h => not_isDesc_node_left node hnode (h ▸ hm)
            have hmR : ¬ isDesc (2 * node + 1) m := fun h =>
              isDesc_sibling_disjoint node m hnode ⟨hm, h⟩
            rw [fset, if_neg hmne]
            exact (hlocR m hmR).symm
          · refine TreeOk_congr combine _ _ t₂ _ (e - ((start + e) / 2 + 1)) (2 * node + 1)
              ((start + e) / 2 + 1) e (le_refl _) (by omega) (fun j _ _ => rfl) ?_ hokR
            intro m hm
            have hmne : m ≠ node := fun h => not_isDesc_node_right node hnode (h ▸ hm)
            rw [fset, if_neg hmne]
      · intro m hm
        have hmne : m ≠ node := fun h => hm (h ▸ isDesc_self node)
        have hmL : ¬ isDesc (2 * node) m := fun h => hm (isDesc_left node m h)
        have hmR : ¬ isDesc (2 * node + 1) m := fun h => hm (isDesc_right node m h)
        rw [fset, if_neg hmne, hlocR m hmR, hlocL m hmL]

theorem updateT_ok {T : Type} (combine : T → T → T)
    (hassoc : ∀ a b c, combine (combine a b) c = combine a (combine b c))
    (f : Nat → T) (i : Nat) (v : T) :
    ∀ N node start e t, e - start ≤ N → start ≤ e → 1 ≤ node → start ≤ i → i ≤ e →
      TreeOk combine f t node start e →
      TreeOk combine (fun j => if j = i then v else f j)
        (updateT combine node start e i v t) node start e ∧
      (∀ m, ¬ isDesc node m → updateT combine node start e i v t m = t m) := by
  intro N
  induction N with
  | zero =>
    intro node start e t hN hse hnode hsi hie hok
    have he : start = e := by omega
    subst he
    have hsi' : start = i := by omega
    rw [updateT, if_pos rfl]
    constructor
    · rw [TreeOk_iff]
      refine ⟨?_, fun hc => absurd hc (by omega)⟩
      rw [rangeFold_single, fset, if_pos rfl, if_pos hsi']
    · intro m hm
      have : m ≠ node := fun h => hm (h ▸ isDesc_self node)
      rw [fset, if_neg this]
  | succ N ih =>
    intro node start e t hN hse hnode hsi hie hok
    by_cases he : start = e
    · subst he
      have hsi' : start = i := by omega
      rw [updateT, if_pos rfl]
      constructor
      · rw [TreeOk_iff]
        refine ⟨?_, fun hc => absurd hc (by omega)⟩
        rw [rangeFold_single, fset, if_pos rfl, if_pos hsi']
      · intro m hm
        have : m ≠ node := fun h => hm (h ▸ isDesc_self node)
        rw [fset, if_neg this]
    · have hlt : start < e := by omega
      have hm₁ : start ≤ (start + e) / 2 := by omega
      have hm₂ : (start + e) / 2 < e := by omega
      obtain ⟨hokL, hokR⟩ := ((TreeOk_iff _ _ _ _ _ _).mp hok).2 hlt
      by_cases hi : i ≤ (start + e) / 2
      · have hb : updateT combine node start e i v t =
            fset (updateT combine (2 * node) start ((start + e) / 2) i v t) node
              (combine (updateT combine (2 * node) start ((start + e) / 2) i v t (2 * node))
                (updateT combine (2 * node) start ((start + e) / 2) i v t (2 * node + 1))) := by
          rw [updateT, if_neg he, dif_pos hlt]
          simp [hi]
        rw [hb]
        obtain ⟨hokL', hlocL'⟩ := ih (2 * node) start ((start + e) / 2) t (by omega) hm₁
          (by omega) hsi hi hokL
        generalize hg₁ : updateT combine (2 * node) start ((start + e) / 2) i v t = t₁
          at hokL' hlocL' ⊢
        have hL1 : t₁ (2 * node) =
            rangeFold combine (fun j => if j = i then v else f j) start ((start + e) / 2) :=
          ((TreeOk_iff _ _ _ _ _ _).mp hokL').1
        have hR0 : t₁ (2 * node + 1) = t (2 * node + 1) :=
          hlocL' _ (fun h => isDesc_sibling_disjoint node (2 * node + 1) hnode ⟨h, isDesc_self _⟩)
        have hR1 : t (2 * node + 1) = rangeFold combine f ((start + e) / 2 + 1) e :=
          ((TreeOk_iff _ _ _ _ _ _).mp hokR).1
        have hRc : rangeFold combine f ((start + e) / 2 + 1) e =
            rangeFold combine (fun j => if j = i then v else f j) ((start + e) / 2 + 1) e :=
          rangeFold_congr combine f _ _ _ (by omega)
            (fun j h₁ h₂ => (if_neg (show ¬ j = i by omega)).symm)
        constructor
        · rw [TreeOk_iff]
          constructor
          · rw [fset, if_pos rfl, hL1, hR0, hR1, hRc,
              ← rangeFold_split combine hassoc _ start ((start + e) / 2) e hm₁ hm₂]
          · intro _
            constructor
            · refine TreeOk_congr combine _ _ t₁ _ ((start + e) / 2 - start) (2 * node) start
                ((start + e) / 2) (le_refl _) hm₁ (fun j _ _ => rfl) ?_ hokL'
              intro m hm
              have hmne : m ≠ node := fun h => not_isDesc_node_left node hnode (h ▸ hm)
              rw [fset, if_neg hmne]
            · refine TreeOk_congr combine f _ t _ (e - ((start + e) / 2 + 1)) (2 * node + 1)
                ((start + e) / 2 + 1) e (le_refl _) (by omega)
                (fun j h₁ h₂ => (if_neg (show ¬ j = i by omega)).symm) ?_ hokR
              intro m hm
              have hmne : m ≠ node := fun h => not_isDesc_node_right node hnode (h ▸ hm)
              have hmL : ¬ isDesc (2 * node) m := fun h =>
                isDesc_sibling_disjoint node m hnode ⟨h, hm⟩
              rw [fset, if_neg hmne, hlocL' m hmL]
        · intro m hm
          have hmne : m ≠ node := fun h => hm (h ▸ isDesc_self node)
          have hmL : ¬ isDesc (2 * node) m := fun h => hm (isDesc_left node m h)
          rw [fset, if_neg hmne, hlocL' m hmL]
      · have hb : updateT combine node start e i v t =
            fset (updateT combine (2 * node + 1) ((start + e) / 2 + 1) e i v t) node
              (combine (updateT combine (2 * node + 1) ((start + e) / 2 + 1) e i v t (2 * node))
                (updateT combine (2 * node + 1) ((start + e) / 2 + 1) e i v t (2 * node + 1))) := by
          rw [updateT, if_neg he, dif_pos hlt]
          simp [hi]
        rw [hb]
        obtain ⟨hokR', hlocR'⟩ := ih (2 * node + 1) ((start + e) / 2 + 1) e t (by omega)
          (by omega) (by omega) (by omega) hie hokR
        generalize hg₁ : updateT combine (2 * node + 1) ((start + e) / 2 + 1) e i v t = t₁
          at hokR' hlocR' ⊢
        have hR1 : t₁ (2 * node + 1) =
            rangeFold combine (fun j => if j = i then v else f j) ((start + e) / 2 + 1) e :=
          ((TreeOk_iff _ _ _ _ _ _).mp hokR').1
        have hL0 : t₁ (2 * node) = t (2 * node) :=
          hlocR' _ (not_isDesc_lt (2 * node + 1) (2 * node) (by omega))
        have hL1 : t (2 * node) = rangeFold combine f start ((start + e) / 2) :=
          ((TreeOk_iff _ _ _ _ _ _).mp hokL).1
        have hLc : rangeFold combine f start ((start + e) / 2) =
            rangeFold combine (fun j => if j = i then v else f j) start ((start + e) / 2) :=
          rangeFold_congr combine f _ _ _ hm₁
            (fun j h₁ h₂ => (if_neg (show ¬ j = i by omega)).symm)
        constructor
        · rw [TreeOk_iff]
          constructor
          · rw [fset, if_pos rfl, hR1, hL0, hL1, hLc,
              ← rangeFold_split combine hassoc _ start ((start + e) / 2) e hm₁ hm₂]
          · intro _
            constructor
            · refine TreeOk_congr combine f _ t _ ((start + e) / 2 - start) (2 * node) start
                ((start + e) / 2) (le_refl _) hm₁
                (fun j h₁ h₂ => (if_neg (show ¬ j = i by omega)).symm) ?_ hokL
              intro m hm
              have hmne : m ≠ node := fun h => not_isDesc_node_left node hnode (h ▸ hm)
              have hmR : ¬ isDesc (2 * node + 1) m := fun h =>
                isDesc_sibling_disjoint node m hnode ⟨hm, h⟩
              rw [fset, if_neg hmne, hlocR' m hmR]
            · refine TreeOk_congr combine _ _ t₁ _ (e - ((start + e) / 2 + 1)) (2 * node + 1)
                ((start + e) / 2 + 1) e (le_refl _) (by omega) (fun j _ _ => rfl) ?_ hokR'
              intro m hm
              have hmne : m ≠ node := fun h => not_isDesc_node_right node hnode (h ▸ hm)
              rw [fset, if_neg hmne]
        · intro m hm
          have hmne : m ≠ node := fun h => hm (h ▸ isDesc_self node)
          have hmR : ¬ isDesc (2 * node + 1) m := fun h => hm (isDesc_right node m h)
          rw [fset, if_neg hmne, hlocR' m hmR]

theorem queryT_ok_leaf {T : Type} (combine : T → T → T) (ident : T) (f : Nat → T)
    (l r node start : Nat) (t : Nat → T)
    (hok : TreeOk combine f t node start start) :
    queryT combine ident node start start l r t =
      if max l start ≤ min r start then rangeFold combine f (max l start) (min r start)
      else ident := by
  rw [queryT]
  by_cases hc1 : r < start ∨ start < l
  · rw [if_pos hc1, if_neg (show ¬ max l start ≤ min r start by omega)]
  · have hc2 : l ≤ start ∧ start ≤ r := by omega
    rw [if_neg hc1, if_pos hc2, if_pos (show max l start ≤ min r start by omega),
      ((TreeOk_iff _ _ _ _ _ _).mp hok).1,
      show max l start = start by omega, show min r start = start by omega]

theorem queryT_ok {T : Type} (combine : T → T → T) (ident : T)
    (hassoc : ∀ a b c, combine (combine a b) c = combine a (combine b c))
    (hidl : ∀ x, combine ident x = x) (hidr : ∀ x, combine x ident = x)
    (f : Nat → T) (l r : Nat) :
    ∀ N node start e t, e - start ≤ N → start ≤ e → 1 ≤ node →
      TreeOk combine f t node start e →
      queryT combine ident node start e l r t =
        if max l start ≤ min r e then rangeFold combine f (max l start) (min r e)
        else ident := by
  intro N
  induction N with
  | zero =>
    intro node start e t hN hse hnode hok
    have he : start = e := by omega
    subst he
    exact queryT_ok_leaf combine ident f l r node start t hok
  | succ N ih =>
    intro node start e t hN hse hnode hok
    by_cases he : start = e
    · subst he
      exact queryT_ok_leaf combine ident f l r node start t hok
    · have hlt : start < e := by omega
      rw [queryT]
      by_cases hc1 : r < start ∨ e < l
      · rw [if_pos hc1, if_neg (show ¬ max l start ≤ min r e by omega)]
      · rw [if_neg hc1]
        by_cases hc2 : l ≤ start ∧ e ≤ r
        · rw [if_pos hc2, if_pos (show max l start ≤ min r e by omega),
            ((TreeOk_iff _ _ _ _ _ _).mp hok).1,
            show max l start = start by omega, show min r e = e by omega]
        · rw [if_neg hc2, dif_pos hlt]
          obtain ⟨hokL, hokR⟩ := ((TreeOk_iff _ _ _ _ _ _).mp hok).2 hlt
          have hQL := ih (2 * node) start ((start + e) / 2) t (by omega) (by omega)
            (by omega) hokL
          have hQR := ih (2 * node + 1) ((start + e) / 2 + 1) e t (by omega) (by omega)
            (by omega) hokR
          show combine (queryT combine ident (2 * node) start ((start + e) / 2) l r t)
              (queryT combine ident (2 * node + 1) ((start + e) / 2 + 1) e l r t) = _
          rw [hQL, hQR]
          by_cases hab : max l start ≤ min r e
          · rw [if_pos hab]
            by_cases hbm : min r e ≤ (start + e) / 2
            · have h1 : ¬ max l ((start + e) / 2 + 1) ≤ min r e := by omega
              have h2 : max l start ≤ min r ((start + e) / 2) := by omega
              have h3 : min r ((start + e) / 2) = min r e := by omega
              rw [if_neg h1, if_pos h2, h3, hidr]
            · by_cases ham : (start + e) / 2 < max l start
              · have h1 : ¬ max l start ≤ min r ((start + e) / 2) := by omega
                have h2 : max l ((start + e) / 2 + 1) ≤ min r e := by omega
                have h3 : max l ((start + e) / 2 + 1) = max l start := by omega
                rw [if_neg h1, if_pos h2, h3, hidl]
              · have h2 : max l start ≤ min r ((start + e) / 2) := by omega
                have h4 : max l ((start + e) / 2 + 1) ≤ min r e := by omega
                have h3 : min r ((start + e) / 2) = (start + e) / 2 := by omega
                have h5 : max l ((start + e) / 2 + 1) = (start + e) / 2 + 1 := by omega
                rw [if_pos h2, if_pos h4, h3, h5,
                  ← rangeFold_split combine hassoc f (max l start) ((start + e) / 2)
                    (min r e) (by omega) (by omega)]
          · rw [if_neg hab]
            have h1 : ¬ max l start ≤ min r ((start + e) / 2) := by omega
            have h2 : ¬ max l ((start + e) / 2 + 1) ≤ min r e := by omega
            rw [if_neg h1, if_neg h2, hidl]

/-! ## Fenwick Tree (src/pages/CategoryPage.tsx, class FenwickTree)

JS `i & -i` operates on the 32-bit two's-complement representation, so for
`0 < i < 2^32` it equals `i &&& (2^32 - i)`; this is `lowbit` below.  The
recursion `lsb` computes the same least-significant-bit value and is the
form the proofs work with (`lowbit_eq_lsb`).  The `while` loops of `update`
and `prefixSum` strictly move the index, so fuel `n + 1` (resp. `i + 2`)
is enough. -/


/-- Least significant set bit, by parity recursion. -/
def lsb (n : Nat) : Nat :=
  if n = 0 then 0
  else if n % 2 = 1 then 1
  else 2 * lsb (n / 2)
termination_by n
decreasing_by omega

/-- JS `i & -i` on a 32-bit integer. -/
def lowbit (i : Nat) : Nat := i &&& (2 ^ 32 - i)

theorem lsb_zero : lsb 0 = 0 := by rw [lsb, if_pos rfl]

theorem lsb_odd (n : Nat) (h : n % 2 = 1) : lsb n = 1 := by
  rw [lsb, if_neg (by omega), if_pos h]

theorem lsb_two_mul (x : Nat) (hx : 1 ≤ x) : lsb (2 * x) = 2 * lsb x := by
  rw [lsb, if_neg (by omega), if_neg (by omega), Nat.mul_div_cancel_left x (by omega)]

theorem lsb_pos : ∀ n, 1 ≤ n → 1 ≤ lsb n := by
  intro n
  induction n using Nat.strong_induction_on with
  | _ n ih =>
    intro h
    rw [lsb, if_neg (by omega)]
    by_cases hp : n % 2 = 1
    · rw [if_pos hp]
    · rw [if_neg hp]
      have := ih (n / 2) (by omega) (by omega)
      omega

theorem lsb_le : ∀ n, lsb n ≤ n := by
  intro n
  induction n using Nat.strong_induction_on with
  | _ n ih =>
    rw [lsb]
    by_cases h0 : n = 0
    · rw [if_pos h0]; omega
    · rw [if_neg h0]
      by_cases hp : n % 2 = 1
      · rw [if_pos hp]; omega
      · rw [if_neg hp]
        have := ih (n / 2) (by omega)
        omega

theorem lsb_decomp : ∀ n, 1 ≤ n → ∃ m, n = lsb n * (2 * m + 1) := by
  intro n
  induction n using Nat.strong_induction_on with
  | _ n ih =>
    intro h
    by_cases hp : n % 2 = 1
    · exact ⟨n / 2, by rw [lsb_odd n hp]; omega⟩
    · have h2 : n = 2 * (n / 2) := by omega
      obtain ⟨m, hm⟩ := ih (n / 2) (by omega) (by omega)
      refine ⟨m, ?_⟩
      rw [h2, lsb_two_mul (n / 2) (by omega)]
      calc 2 * (n / 2) = 2 * (lsb (n / 2) * (2 * m + 1)) := by rw [← hm]
        _ = 2 * lsb (n / 2) * (2 * m + 1) := by ring

theorem lsb_pow : ∀ n, 1 ≤ n → ∃ k, lsb n = 2 ^ k := by
  intro n
  induction n using Nat.strong_induction_on with
  | _ n ih =>
    intro h
    by_cases hp : n % 2 = 1
    · exact ⟨0, by rw [lsb_odd n hp, pow_zero]⟩
    · have h2 : n = 2 * (n / 2) := by omega
      obtain ⟨k, hk⟩ := ih (n / 2) (by omega) (by omega)
      refine ⟨k + 1, ?_⟩
      rw [h2, lsb_two_mul (n / 2) (by omega), hk]
      ring

theorem lsb_mul_pow : ∀ j x, 1 ≤ x → lsb (2 ^ j * x) = 2 ^ j * lsb x := by
  intro j
  induction j with
  | zero => intro x hx; rw [pow_zero, one_mul, one_mul]
  | succ j ih =>
    intro x hx
    have h1 : 2 ^ (j + 1) * x = 2 * (2 ^ j * x) := by ring
    have h2 : 1 ≤ 2 ^ j * x := Nat.one_le_iff_ne_zero.mpr (by positivity)
    rw [h1, lsb_two_mul _ h2, ih x hx]
    ring

theorem lsb_add_low : ∀ j m s, 0 < s → s < 2 ^ j → lsb (2 ^ j * m + s) = lsb s := by
  intro j
  induction j with
  | zero => intro m s h1 h2; omega
  | succ j ih =>
    intro m s h1 h2
    by_cases hp : s % 2 = 1
    · have hsplit : 2 ^ (j + 1) * m = 2 * (2 ^ j * m) := by ring
      have hodd : (2 ^ (j + 1) * m + s) % 2 = 1 := by rw [hsplit]; omega
      rw [lsb_odd _ hodd, lsb_odd s hp]
    · obtain ⟨s', rfl⟩ : ∃ s', s = 2 * s' := ⟨s / 2, by omega⟩
      have h4 : 0 < s' := by omega
      have h5 : s' < 2 ^ j := by
        have hpow : (2:Nat) ^ (j + 1) = 2 * 2 ^ j := by ring
        omega
      have h3 : 2 ^ (j + 1) * m + 2 * s' = 2 * (2 ^ j * m + s') := by ring
      rw [h3, lsb_two_mul _ (by omega), ih m s' h4 h5, lsb_two_mul s' h4]

theorem land_bit00 (a b : Nat) : (2 * a) &&& (2 * b) = 2 * (a &&& b) := by
  apply Nat.eq_of_testBit_eq
  intro k
  cases k with
  | zero =>
    rw [Nat.testBit_land, Nat.testBit_zero, Nat.testBit_zero, Nat.testBit_zero,
      show (2 * a) % 2 = 0 by omega, show (2 * b) % 2 = 0 by omega,
      show (2 * (a &&& b)) % 2 = 0 by omega]
    rfl
  | succ k =>
    rw [Nat.testBit_land, Nat.testBit_succ, Nat.testBit_succ, Nat.testBit_succ,
      show (2 * a) / 2 = a by omega, show (2 * b) / 2 = b by omega,
      show (2 * (a &&& b)) / 2 = a &&& b by omega, ← Nat.testBit_land]

theorem land_bit01 (a b : Nat) : (2 * a) &&& (2 * b + 1) = 2 * (a &&& b) := by
  apply Nat.eq_of_testBit_eq
  intro k
  cases k with
  | zero =>
    rw [Nat.testBit_land, Nat.testBit_zero, Nat.testBit_zero, Nat.testBit_zero,
      show (2 * a) % 2 = 0 by omega, show (2 * b + 1) % 2 = 1 by omega,
      show (2 * (a &&& b)) % 2 = 0 by omega]
    rfl
  | succ k =>
    rw [Nat.testBit_land, Nat.testBit_succ, Nat.testBit_succ, Nat.testBit_succ,
      show (2 * a) / 2 = a by omega, show (2 * b + 1) / 2 = b by omega,
      show (2 * (a &&& b)) / 2 = a &&& b by omega, ← Nat.testBit_land]

theorem land_bit10 (a b : Nat) : (2 * a + 1) &&& (2 * b) = 2 * (a &&& b) := by
  apply Nat.eq_of_testBit_eq
  intro k
  cases k with
  | zero =>
    rw [Nat.testBit_land, Nat.testBit_zero, Nat.testBit_zero, Nat.testBit_zero,
      show (2 * a + 1) % 2 = 1 by omega, show (2 * b) % 2 = 0 by omega,
      show (2 * (a &&& b)) % 2 = 0 by omega]
    rfl
  | succ k =>
    rw [Nat.testBit_land, Nat.testBit_succ, Nat.testBit_succ, Nat.testBit_succ,
      show (2 * a + 1) / 2 = a by omega, show (2 * b) / 2 = b by omega,
      show (2 * (a &&& b)) / 2 = a &&& b by omega, ← Nat.testBit_land]

theorem land_bit11 (a b : Nat) : (2 * a + 1) &&& (2 * b + 1) = 2 * (a &&& b) + 1 := by
  apply Nat.eq_of_testBit_eq
  intro k
  cases k with
  | zero =>
    rw [Nat.testBit_land, Nat.testBit_zero, Nat.testBit_zero, Nat.testBit_zero,
      show (2 * a + 1) % 2 = 1 by omega, show (2 * b + 1) % 2 = 1 by omega,
      show (2 * (a &&& b) + 1) % 2 = 1 by omega]
    rfl
  | succ k =>
    rw [Nat.testBit_land, Nat.testBit_succ, Nat.testBit_succ, Nat.testBit_succ,
      show (2 * a + 1) / 2 = a by omega, show (2 * b + 1) / 2 = b by omega,
      show (2 * (a &&& b) + 1) / 2 = a &&& b by omega, ← Nat.testBit_land]

theorem land_compl : ∀ j a, a < 2 ^ j → a &&& (2 ^ j - 1 - a) = 0 := by
  intro j
  induction j with
  | zero =>
    intro a ha
    have : a = 0 := by omega
    subst this
    rfl
  | succ j ih =>
    intro a ha
    have hpow : (2:Nat) ^ (j + 1) = 2 * 2 ^ j := by ring
    by_cases hp : a % 2 = 1
    · obtain ⟨b, rfl⟩ : ∃ b, a = 2 * b + 1 := ⟨a / 2, by omega⟩
      have hb : b < 2 ^ j := by omega
      have h1 : 2 ^ (j + 1) - 1 - (2 * b + 1) = 2 * (2 ^ j - 1 - b) := by omega
      rw [h1, land_bit10, ih b hb]
    · obtain ⟨b, rfl⟩ : ∃ b, a = 2 * b := ⟨a / 2, by omega⟩
      have hb : b < 2 ^ j := by omega
      have h1 : 2 ^ (j + 1) - 1 - (2 * b) = 2 * (2 ^ j - 1 - b) + 1 := by omega
      rw [h1, land_bit01, ih b hb]

theorem land_neg_eq_lsb : ∀ j x, 1 ≤ x → x < 2 ^ j → x &&& (2 ^ j - x) = lsb x := by
  intro j
  induction j with
  | zero => intro x h1 h2; omega
  | succ j ih =>
    intro x h1 h2
    have hpow : (2:Nat) ^ (j + 1) = 2 * 2 ^ j := by ring
    by_cases hp : x % 2 = 1
    · obtain ⟨a, rfl⟩ : ∃ a, x = 2 * a + 1 := ⟨x / 2, by omega⟩
      have ha : a < 2 ^ j := by omega
      have h3 : 2 ^ (j + 1) - (2 * a + 1) = 2 * (2 ^ j - 1 - a) + 1 := by omega
      rw [h3, land_bit11, land_compl j a ha, lsb_odd _ (by omega)]
    · obtain ⟨a, rfl⟩ : ∃ a, x = 2 * a := ⟨x / 2, by omega⟩
      have ha : a < 2 ^ j := by omega
      have h3 : 2 ^ (j + 1) - 2 * a = 2 * (2 ^ j - a) := by omega
      rw [h3, land_bit00, ih a (by omega) ha, lsb_two_mul a (by omega)]

theorem lowbit_eq_lsb (x : Nat) (h1 : 1 ≤ x) (h2 : x < 2 ^ 32) :
    lowbit x = lsb x := land_neg_eq_lsb 32 x h1 h2

theorem lsb_walk_le (p : Nat) (hp : 1 ≤ p) :
    (p + lsb p) - lsb (p + lsb p) ≤ p - lsb p := by
  obtain ⟨m, hm⟩ := lsb_decomp p hp
  obtain ⟨k, hk⟩ := lsb_pow p hp
  rw [hk] at hm
  have hL : 1 ≤ lsb (m + 1) := lsb_pos (m + 1) (by omega)
  have hpb : p + lsb p = 2 ^ (k + 1) * (m + 1) := by
    rw [hk, hm]; ring
  have hl : lsb (p + lsb p) = 2 ^ (k + 1) * lsb (m + 1) := by
    rw [hpb, lsb_mul_pow (k + 1) (m + 1) (by omega)]
  rw [hl, hpb, hk, hm]
  have h2 : 2 ^ (k + 1) * (m + 1) = 2 ^ k * (2 * m + 1) + 2 ^ k := by ring
  have h3 : 2 ^ k * 2 ≤ 2 ^ (k + 1) * lsb (m + 1) := by
    have he : (2:Nat) ^ (k + 1) = 2 ^ k * 2 := by ring
    calc 2 ^ k * 2 = 2 ^ k * 2 * 1 := by ring
      _ ≤ 2 ^ k * 2 * lsb (m + 1) := Nat.mul_le_mul_left _ hL
      _ = 2 ^ (k + 1) * lsb (m + 1) := by rw [he]
  omega

theorem lsb_gap (p r : Nat) (hp : 1 ≤ p) (hr1 : 0 < r) (hr2 : r < lsb p) :
    lsb (p + r) = lsb r := by
  obtain ⟨m, hm⟩ := lsb_decomp p hp
  obtain ⟨k, hk⟩ := lsb_pow p hp
  have hr2' : r < 2 ^ k := by omega
  have hpr : p + r = 2 ^ (k + 1) * m + (2 ^ k + r) := by
    rw [hk] at hm
    rw [hm]; ring
  have hs1 : 0 < 2 ^ k + r := by positivity
  have hs2 : 2 ^ k + r < 2 ^ (k + 1) := by
    have he : (2:Nat) ^ (k + 1) = 2 ^ k * 2 := by ring
    omega
  rw [hpr, lsb_add_low (k + 1) m (2 ^ k + r) hs1 hs2]
  have h1 : (2:Nat) ^ k + r = 2 ^ k * 1 + r := by ring
  rw [h1, lsb_add_low k 1 r hr1 hr2']

/-- Brute-force sum of `f` over the half-open range `[a, b)`. -/
def rangeSum (f : Nat → Int) (a b : Nat) : Int :=
  ((List.range' a (b - a)).map f).sum

theorem rangeSum_empty (f : Nat → Int) (a : Nat) : rangeSum f a a = 0 := by
  simp [rangeSum]

theorem rangeSum_cons (f : Nat → Int) (a b : Nat) (h : a < b) :
    rangeSum f a b = f a + rangeSum f (a + 1) b := by
  rw [rangeSum, rangeSum, show b - a = (b - (a + 1)) + 1 by omega, List.range'_succ,
    List.map_cons, List.sum_cons]

theorem rangeSum_split (f : Nat → Int) (a m b : Nat) (ham : a ≤ m) (hmb : m ≤ b) :
    rangeSum f a b = rangeSum f a m + rangeSum f m b := by
  have hsplit : List.range' a (b - a) =
      List.range' a (m - a) ++ List.range' m (b - m) := by
    have h := List.range'_append a (m - a) (b - m) 1
    rw [one_mul, show a + (m - a) = m by omega,
      show (b - m) + (m - a) = b - a by omega] at h
    exact h.symm
  rw [rangeSum, hsplit, List.map_append, List.sum_append]
  rfl

theorem rangeSum_point (f : Nat → Int) (i : Nat) (delta : Int) :
    ∀ N a b, b - a ≤ N →
      rangeSum (fun j => if j = i then f j + delta else f j) a b =
        rangeSum f a b + (if a ≤ i ∧ i < b then delta else 0) := by
  intro N
  induction N with
  | zero =>
    intro a b hN
    by_cases hab : a < b
    · omega
    · have hba : b ≤ a := by omega
      rw [rangeSum, rangeSum, show b - a = 0 by omega]
      rw [if_neg (by omega)]
      simp
  | succ N ih =>
    intro a b hN
    by_cases hab : a < b
    · rw [rangeSum_cons _ a b hab, rangeSum_cons f a b hab, ih (a + 1) b (by omega)]
      by_cases hai : a = i
      · rw [if_pos hai, if_neg (by omega), if_pos (by omega)]
        ring
      · rw [if_neg hai]
        by_cases hc : a + 1 ≤ i ∧ i < b
        · rw [if_pos hc, if_pos (by omega)]
          ring
        · rw [if_neg hc, if_neg (by omega)]
          ring
    · rw [rangeSum, rangeSum, show b - a = 0 by omega]
      rw [if_neg (by omega)]
      simp

/-- The `FenwickTree` class state: 1-indexed backing array and size. -/
structure FenwickTree where
  tree : Nat → Int
  n : Nat

/-- The `update` loop; `fuel` bounds the iteration count. -/
def fenwickUpdateAux (n : Nat) (delta : Int) : Nat → Nat → (Nat → Int) → (Nat → Int)
  | 0, _, tree => tree
  | fuel + 1, i, tree =>
    if i ≤ n then
      fenwickUpdateAux n delta fuel (i + lowbit i) (fset tree i (tree i + delta))
    else tree

/-- Method `update(i, delta)` (0-indexed `i`). -/
def FenwickTree.update (ft : FenwickTree) (i : Nat) (delta : Int) : FenwickTree :=
  { ft with tree := fenwickUpdateAux ft.n delta (ft.n + 1) (i + 1) ft.tree }

/-- The `prefixSum` loop. -/
def fenwickPrefixAux (tree : Nat → Int) : Nat → Nat → Int → Int
  | 0, _, sum => sum
  | fuel + 1, i, sum =>
    if 0 < i then fenwickPrefixAux tree fuel (i - lowbit i) (sum + tree i) else sum

/-- Method `prefixSum(i)` (inclusive, 0-indexed). -/
def FenwickTree.prefixSum (ft : FenwickTree) (i : Nat) : Int :=
  fenwickPrefixAux ft.tree (i + 2) (i + 1) 0

/-- Method `query(l, r)` (inclusive, 0-indexed). -/
def FenwickTree.query (ft : FenwickTree) (l r : Nat) : Int :=
  if r < l then 0
  else if l = 0 then ft.prefixSum r
  else ft.prefixSum r - ft.prefixSum (l - 1)

/-- Fenwick invariant: entry `p` stores the sum of the logical array over
the 0-indexed half-open range `[p - lsb p, p)`. -/
def FenwickInv (n : Nat) (tree : Nat → Int) (f : Nat → Int) : Prop :=
  ∀ p, 1 ≤ p → p ≤ n → tree p = rangeSum f (p - lsb p) p

theorem fenwickPrefixAux_spec (n : Nat) (tree : Nat → Int) (f : Nat → Int)
    (hinv : FenwickInv n tree f) (hn : n < 2 ^ 32) :
    ∀ fuel p acc, p ≤ fuel → p ≤ n →
      fenwickPrefixAux tree fuel p acc = acc + rangeSum f 0 p := by
  intro fuel
  induction fuel with
  | zero =>
    intro p acc hf hp
    have : p = 0 := by omega
    subst this
    rw [fenwickPrefixAux, rangeSum_empty]
    ring
  | succ fuel ih =>
    intro p acc hf hp
    by_cases hp0 : 0 < p
    · rw [fenwickPrefixAux, if_pos hp0, lowbit_eq_lsb p hp0 (by omega)]
      have hle := lsb_le p
      have hpos := lsb_pos p hp0
      rw [ih (p - lsb p) (acc + tree p) (by omega) (by omega),
        hinv p hp0 hp, rangeSum_split f 0 (p - lsb p) p (by omega) (by omega)]
      ring
    · rw [fenwickPrefixAux, if_neg hp0, show p = 0 by omega, rangeSum_empty]
      ring

theorem fenwickUpdateAux_spec (n : Nat) (delta : Int) (i : Nat) (hn : n < 2 ^ 32) :
    ∀ fuel p tree, n + 1 - p ≤ fuel → 1 ≤ p → p - lsb p ≤ i → i < p →
      ∀ q, fenwickUpdateAux n delta fuel p tree q =
        tree q + (if p ≤ q ∧ q ≤ n ∧ q - lsb q ≤ i ∧ i < q then delta else 0) := by
  intro fuel
  induction fuel with
  | zero =>
    intro p tree hf hp hcov hip q
    rw [fenwickUpdateAux, if_neg (show ¬ (p ≤ q ∧ q ≤ n ∧ q - lsb q ≤ i ∧ i < q) by omega),
      add_zero]
  | succ fuel ih =>
    intro p tree hf hp hcov hip q
    by_cases hpn : p ≤ n
    · rw [fenwickUpdateAux, if_pos hpn, lowbit_eq_lsb p hp (by omega)]
      have hpos := lsb_pos p hp
      have hle := lsb_le p
      have hstep := lsb_walk_le p hp
      rw [ih (p + lsb p) (fset tree p (tree p + delta)) (by omega) (by omega)
        (by omega) (by omega) q]
      by_cases hq : q = p
      · subst hq
        rw [fset, if_pos rfl, if_neg (by omega), if_pos ⟨le_refl q, hpn, hcov, hip⟩]
        ring
      · rw [fset, if_neg hq]
        have hiff : (p + lsb p ≤ q ∧ q ≤ n ∧ q - lsb q ≤ i ∧ i < q) ↔
            (p ≤ q ∧ q ≤ n ∧ q - lsb q ≤ i ∧ i < q) := by
          constructor
          · rintro ⟨h1, h2, h3, h4⟩
            exact ⟨by omega, h2, h3, h4⟩
          · rintro ⟨h1, h2, h3, h4⟩
            refine ⟨?_, h2, h3, h4⟩
            by_contra hlt
            obtain ⟨r, hr, hrpos, hrlt⟩ : ∃ r, q = p + r ∧ 0 < r ∧ r < lsb p :=
              ⟨q - p, by omega, by omega, by omega⟩
            have hgap : lsb q = lsb r := by
              rw [hr]; exact lsb_gap p r hp hrpos hrlt
            have hrle := lsb_le r
            omega
        rw [if_congr hiff rfl rfl]
    · rw [fenwickUpdateAux, if_neg hpn, if_neg (by omega), add_zero]

theorem fenwick_update_inv (ft : FenwickTree) (i : Nat) (delta : Int) (f : Nat → Int)
    (hn : ft.n < 2 ^ 32) (hi : i < ft.n) (hinv : FenwickInv ft.n ft.tree f) :
    FenwickInv ft.n (ft.update i delta).tree
      (fun j => if j = i then f j + delta else f j) := by
  intro p hp1 hpn
  have hpos := lsb_pos (i + 1) (by omega)
  have hspec := fenwickUpdateAux_spec ft.n delta i hn (ft.n + 1) (i + 1) ft.tree
    (by omega) (by omega) (by omega) (by omega) p
  show fenwickUpdateAux ft.n delta (ft.n + 1) (i + 1) ft.tree p = _
  rw [hspec, hinv p hp1 hpn,
    rangeSum_point f i delta p (p - lsb p) p (by omega)]
  have hple := lsb_le p
  by_cases hc : p - lsb p ≤ i ∧ i < p
  · rw [if_pos hc, if_pos (by omega)]
  · rw [if_neg hc, if_neg (by omega)]

theorem fenwick_query_spec (ft : FenwickTree) (f : Nat → Int)
    (hinv : FenwickInv ft.n ft.tree f) (hn : ft.n < 2 ^ 32)
    (l r : Nat) (hlr : l ≤ r) (hr : r < ft.n) :
    ft.query l r = rangeSum f l (r + 1) := by
  rw [FenwickTree.query, if_neg (by omega)]
  have hpre : ∀ k, k < ft.n → ft.prefixSum k = rangeSum f 0 (k + 1) := by
    intro k hk
    rw [FenwickTree.prefixSum,
      fenwickPrefixAux_spec ft.n ft.tree f hinv hn (k + 2) (k + 1) 0 (by omega) (by omega)]
    ring
  by_cases hl : l = 0
  · rw [if_pos hl, hpre r hr, hl]
  · rw [if_neg hl, hpre r hr, hpre (l - 1) (by omega),
      rangeSum_split f 0 l (r + 1) (by omega) (by omega),
      show l - 1 + 1 = l by omega]
    ring

/-- A sequence of `update` calls. -/
def fenApplyUpdates (ft : FenwickTree) (ups : List (Nat × Int)) : FenwickTree :=
  ups.foldl (fun ft u => ft.update u.1 u.2) ft

/-- The logical array tracked alongside a sequence of `update` calls. -/
def fenLogicalF (f : Nat → Int) (ups : List (Nat × Int)) : Nat → Int :=
  ups.foldl (fun f u => fun j => if j = u.1 then f j + u.2 else f j) f

theorem fenApplyUpdates_inv :
    ∀ (ups : List (Nat × Int)) (ft : FenwickTree) (f : Nat → Int),
      ft.n < 2 ^ 32 → (∀ u ∈ ups, u.1 < ft.n) → FenwickInv ft.n ft.tree f →
      (fenApplyUpdates ft ups).n = ft.n ∧
      FenwickInv ft.n (fenApplyUpdates ft ups).tree (fenLogicalF f ups) := by
  intro ups
  induction ups with
  | nil => intro ft f hn hups hinv; exact ⟨rfl, hinv⟩
  | cons u ups ih =>
    intro ft f hn hups hinv
    have hu : u.1 < ft.n := hups u (List.mem_cons_self u ups)
    have hinv' := fenwick_update_inv ft u.1 u.2 f hn hu hinv
    have hn' : (ft.update u.1 u.2).n = ft.n := rfl
    have := ih (ft.update u.1 u.2) (fun j => if j = u.1 then f j + u.2 else f j)
      (by rw [hn']; exact hn) (fun v hv => by rw [hn']; exact hups v (List.mem_cons_of_mem u hv))
      (by rw [hn']; exact hinv')
    exact ⟨by rw [← hn']; exact this.1, by rw [← hn']; exact this.2⟩

/-- The array constructor: start from a zero tree and `update` each index. -/
def FenwickTree.ofList (arr : List Int) : FenwickTree :=
  (List.range arr.length).foldl (fun ft i => ft.update i (arr.getD i 0))
    { tree := fun _ => 0, n := arr.length }

theorem fenLogicalF_fresh :
    ∀ (l : List Nat) (g : Nat → Int) (f : Nat → Int),
      l.Nodup → ∀ j,
        fenLogicalF f (l.map (fun i => (i, g i))) j =
          if j ∈ l then f j + g j else f j := by
  intro l
  induction l with
  | nil => intro g f _ j; simp [fenLogicalF]
  | cons i l ih =>
    intro g f hnd j
    rw [List.map_cons]
    show fenLogicalF (fun j' => if j' = i then f j' + g i else f j') (l.map fun i => (i, g i)) j = _
    rw [ih g _ hnd.of_cons j]
    by_cases hj : j ∈ l
    · have hji : j ≠ i := fun h => (List.nodup_cons.mp hnd).1 (h ▸ hj)
      rw [if_pos hj, if_pos (List.mem_cons_of_mem i hj), if_neg hji]
    · by_cases hji : j = i
      · subst hji
        rw [if_neg hj, if_pos rfl, if_pos (List.mem_cons_self j l)]
      · rw [if_neg hj, if_neg hji, if_neg (by simp [hji, hj])]

theorem fenwickInv_zero (n : Nat) : FenwickInv n (fun _ => 0) (fun _ => 0) := by
  intro p hp1 hpn
  rw [rangeSum]
  simp

theorem fenwick_ofList_inv (arr : List Int) (h32 : arr.length < 2 ^ 32) :
    (FenwickTree.ofList arr).n = arr.length ∧
    FenwickInv arr.length (FenwickTree.ofList arr).tree (fun j => arr.getD j 0) := by
  have hfold : FenwickTree.ofList arr =
      fenApplyUpdates { tree := fun _ => 0, n := arr.length }
        ((List.range arr.length).map (fun i => (i, arr.getD i 0))) := by
    rw [FenwickTree.ofList, fenApplyUpdates, List.foldl_map]
  have hspec := fenApplyUpdates_inv
    ((List.range arr.length).map (fun i => (i, arr.getD i 0)))
    { tree := fun _ => 0, n := arr.length } (fun _ => 0) h32
    (by
      intro u hu
      rw [List.mem_map] at hu
      obtain ⟨i, hi, rfl⟩ := hu
      exact List.mem_range.mp hi)
    (fenwickInv_zero arr.length)
  rw [hfold]
  refine ⟨hspec.1, ?_⟩
  have hlog : ∀ j,
      fenLogicalF (fun _ => 0) ((List.range arr.length).map (fun i => (i, arr.getD i 0))) j =
        arr.getD j 0 := by
    intro j
    rw [fenLogicalF_fresh (List.range arr.length) (fun i => arr.getD i 0) (fun _ => 0)
      (List.nodup_range _) j]
    by_cases hj : j ∈ List.range arr.length
    · rw [if_pos hj]; ring
    · rw [if_neg hj, List.getD_eq_default arr 0 (by
        rw [List.mem_range] at hj
        omega)]
  have : fenLogicalF (fun _ => 0) ((List.range arr.length).map (fun i => (i, arr.getD i 0))) =
      (fun j => arr.getD j 0) := funext hlog
  rw [← this]
  exact hspec.2

theorem fen_round_trip (arr : List Int) (ups : List (Nat × Int))
    (h32 : arr.length < 2 ^ 32) (hups : ∀ u ∈ ups, u.1 < arr.length)
    (l r : Nat) (hlr : l ≤ r) (hr : r < arr.length) :
    (fenApplyUpdates (FenwickTree.ofList arr) ups).query l r =
      rangeSum (fenLogicalF (fun j => arr.getD j 0) ups) l (r + 1) := by
  obtain ⟨hn0, hinv0⟩ := fenwick_ofList_inv arr h32
  have h := fenApplyUpdates_inv ups (FenwickTree.ofList arr) (fun j => arr.getD j 0)
    (by rw [hn0]; exact h32) (by intro u hu; rw [hn0]; exact hups u hu)
    (by rw [hn0]; exact hinv0)
  have hn1 : (fenApplyUpdates (FenwickTree.ofList arr) ups).n = arr.length := by
    rw [h.1, hn0]
  refine fenwick_query_spec (fenApplyUpdates (FenwickTree.ofList arr) ups)
    (fenLogicalF (fun j => arr.getD j 0) ups) ?_ (by rw [hn1]; exact h32) l r hlr
    (by rw [hn1]; exact hr)
  rw [hn1]
  rw [hn0] at h
  exact h.2

/-- A sequence of `SegmentTree.update` calls. -/
def segApplyUpdates {T : Type} (s : SegmentTree T) (ups : List (Nat × T)) : SegmentTree T :=
  ups.foldl (fun s u => s.update u.1 u.2) s

/-- The logical array tracked alongside a sequence of `update` calls. -/
def segLogicalF {T : Type} (f : Nat → T) (ups : List (Nat × T)) : Nat → T :=
  ups.foldl (fun f u => fset f u.1 u.2) f

theorem seg_make_ok {T : Type} (arr : List T) (combine : T → T → T) (ident : T)
    (hassoc : ∀ a b c, combine (combine a b) c = combine a (combine b c))
    (h : 0 < arr.length) :
    (SegmentTree.make arr combine ident).n = arr.length ∧
    (SegmentTree.make arr combine ident).combine = combine ∧
    (SegmentTree.make arr combine ident).identity = ident ∧
    TreeOk combine (fun j => arr.getD j ident) (SegmentTree.make arr combine ident).tree
      1 0 (arr.length - 1) := by
  refine ⟨rfl, rfl, rfl, ?_⟩
  show TreeOk combine _
    (if 0 < arr.length then buildT combine arr ident 1 0 (arr.length - 1) (fun _ => ident)
     else fun _ => ident) 1 0 (arr.length - 1)
  rw [if_pos h]
  exact (buildT_ok combine arr ident hassoc (arr.length - 1) 1 0 (arr.length - 1)
    (fun _ => ident) (le_refl _) (by omega) (by omega)).1

theorem segApplyUpdates_ok {T : Type} (combine : T → T → T)
    (hassoc : ∀ a b c, combine (combine a b) c = combine a (combine b c)) :
    ∀ (ups : List (Nat × T)) (s : SegmentTree T) (f : Nat → T),
      s.combine = combine → 0 < s.n → (∀ u ∈ ups, u.1 < s.n) →
      TreeOk combine f s.tree 1 0 (s.n - 1) →
      (segApplyUpdates s ups).combine = combine ∧
      (segApplyUpdates s ups).identity = s.identity ∧
      (segApplyUpdates s ups).n = s.n ∧
      TreeOk combine (segLogicalF f ups) (segApplyUpdates s ups).tree 1 0 (s.n - 1) := by
  intro ups
  induction ups with
  | nil => intro s f hc hn hups hok; exact ⟨hc, rfl, rfl, hok⟩
  | cons u ups ih =>
    intro s f hc hn hups hok
    have hu : u.1 < s.n := hups u (List.mem_cons_self u ups)
    have hok' : TreeOk combine (fset f u.1 u.2) (s.update u.1 u.2).tree 1 0 (s.n - 1) := by
      show TreeOk combine _ (updateT s.combine 1 0 (s.n - 1) u.1 u.2 s.tree) 1 0 (s.n - 1)
      rw [hc]
      exact (updateT_ok combine hassoc f u.1 u.2 (s.n - 1) 1 0 (s.n - 1) s.tree (le_refl _)
        (by omega) (by omega) (by omega) (by omega) hok).1
    have hstep := ih (s.update u.1 u.2) (fset f u.1 u.2) hc hn
      (fun v hv => hups v (List.mem_cons_of_mem u hv)) hok'
    exact ⟨hstep.1, hstep.2.1, hstep.2.2.1, hstep.2.2.2⟩

theorem seg_round_trip {T : Type} (combine : T → T → T) (ident : T)
    (hassoc : ∀ a b c, combine (combine a b) c = combine a (combine b c))
    (hidl : ∀ x, combine ident x = x) (hidr : ∀ x, combine x ident = x)
    (arr : List T) (ups : List (Nat × T)) (hups : ∀ u ∈ ups, u.1 < arr.length)
    (l r : Nat) (hlr : l ≤ r) (hr : r < arr.length) :
    (segApplyUpdates (SegmentTree.make arr combine ident) ups).query l r =
      rangeFold combine (segLogicalF (fun j => arr.getD j ident) ups) l r := by
  have harr : 0 < arr.length := by omega
  obtain ⟨hn0, hc0, hi0, hok0⟩ := seg_make_ok arr combine ident hassoc harr
  obtain ⟨hc1, hi1, hn1, hok1⟩ := segApplyUpdates_ok combine hassoc ups
    (SegmentTree.make arr combine ident) (fun j => arr.getD j ident) hc0
    (by rw [hn0]; exact harr) (by intro u hu; rw [hn0]; exact hups u hu)
    (by rw [hn0]; exact hok0)
  rw [hn0] at hok1 hn1
  rw [SegmentTree.query, hc1, hi1.trans hi0, hn1,
    queryT_ok combine ident hassoc hidl hidr (segLogicalF (fun j => arr.getD j ident) ups)
      l r (arr.length - 1) 1 0 (arr.length - 1)
      (segApplyUpdates (SegmentTree.make arr combine ident) ups).tree (le_refl _)
      (by omega) (by omega) hok1,
    if_pos (by omega : max l 0 ≤ min r (arr.length - 1)),
    show max l 0 = l by omega, show min r (arr.length - 1) = r by omega]

/-- **C7** For every Fenwick Tree and SegmentTree built over n values and every
sequence of point updates, `query(l, r)` equals the brute-force combine
(sum for the Fenwick tree; any associative `combine` with identity — in
particular sum, min, max — for the generic SegmentTree) recomputed directly
over the raw updated array on that range, for all valid `0 ≤ l ≤ r < n`.
The Fenwick tree relies on the 32-bit `i & -i` trick, so its size must fit
in 32 bits for the JS code to be meaningful. -/
theorem C7_fenwick_segment_round_trip {T : Type} (combine : T → T → T) (ident : T)
    (hassoc : ∀ a b c, combine (combine a b) c = combine a (combine b c))
    (hidl : ∀ x, combine ident x = x) (hidr : ∀ x, combine x ident = x)
    (arrS : List T) (upsS : List (Nat × T)) (hupsS : ∀ u ∈ upsS, u.1 < arrS.length)
    (arrF : List Int) (upsF : List (Nat × Int)) (hupsF : ∀ u ∈ upsF, u.1 < arrF.length)
    (h32 : arrF.length < 2 ^ 32) (l r : Nat) (hlr : l ≤ r)
    (hrS : r < arrS.length) (hrF : r < arrF.length) :
    (segApplyUpdates (SegmentTree.make arrS combine ident) upsS).query l r =
      rangeFold combine (segLogicalF (fun j => arrS.getD j ident) upsS) l r ∧
    (fenApplyUpdates (FenwickTree.ofList arrF) upsF).query l r =
      rangeSum (fenLogicalF (fun j => arrF.getD j 0) upsF) l (r + 1) :=
  ⟨seg_round_trip combine ident hassoc hidl hidr arrS upsS hupsS l r hlr hrS,
   fen_round_trip arrF upsF h32 hupsF l r hlr hrF⟩

/-- Witness for C7 on a concrete instance: integer sum trees over `[1, 2, 3]`
with the point update at index 1, queried on `[0, 2]`. -/
theorem C7_fenwick_segment_round_trip_witness :
    (segApplyUpdates (SegmentTree.make [(1:Int), 2, 3] (fun a b => a + b) 0)
        [(1, 5)]).query 0 2 =
      rangeFold (fun a b => a + b)
        (segLogicalF (fun j => [(1:Int), 2, 3].getD j 0) [(1, 5)]) 0 2 ∧
    (fenApplyUpdates (FenwickTree.ofList [(1:Int), 2, 3]) [(1, 5)]).query 0 2 =
      rangeSum (fenLogicalF (fun j => [(1:Int), 2, 3].getD j 0) [(1, 5)]) 0 3 :=
  C7_fenwick_segment_round_trip (fun a b => a + b) 0
    (fun a b c => add_assoc a b c) (fun x => zero_add x) (fun x => add_zero x)
    [(1:Int), 2, 3] [(1, 5)] (by decide)
    [(1:Int), 2, 3] [(1, 5)] (by decide) (by decide)
    0 2 (by decide) (by decide) (by decide)

/-! ## Lazy Segment Tree (src/data-structures/segmentTree.ts, class LazySegmentTree)

Mutable `tree`/`lazy` arrays become functional state threaded through the
helpers; `queryHelper` returns both its result and the state because
`pushDown` mutates.  As with `SegmentTree`, the recursion only ever visits
ranges with `start ≤ end`, and the impossible `start > end` case of the
helpers is a final `else` to make the recursion total. -/

structure LazyST where
  tree : Nat → Int
  lazy : Nat → Int
  n : Nat

/-- The constructor: `build` is the same recursion as `SegmentTree.build`
with `combine = (+)`, on arrays initialised to 0. -/
def LazyST.make (arr : List Int) : LazyST :=
  { n := arr.length,
    tree := if 0 < arr.length
      then buildT (fun a b => a + b) arr 0 1 0 (arr.length - 1) (fun _ => 0)
      else fun _ => 0,
    lazy := fun _ => 0 }

/-- `pushDown(node, start, end)`. -/
def pushDown (node start e : Nat) (st : LazyST) : LazyST :=
  if st.lazy node ≠ 0 then
    let mid := (start + e) / 2
    let t₁ := fset st.tree (2 * node)
      (st.tree (2 * node) + st.lazy node * ((mid - start + 1 : Nat) : Int))
    let t₂ := fset t₁ (2 * node + 1)
      (t₁ (2 * node + 1) + st.lazy node * ((e - mid : Nat) : Int))
    let l₁ := fset st.lazy (2 * node) (st.lazy (2 * node) + st.lazy node)
    let l₂ := fset l₁ (2 * node + 1) (l₁ (2 * node + 1) + st.lazy node)
    let l₃ := fset l₂ node 0
    { st with tree := t₂, lazy := l₃ }
  else st

/-- `rangeUpdateHelper`. -/
def rangeUpdateHelper : Nat → Nat → Nat → Nat → Nat → Int → LazyST → LazyST
  | node, start, e, l, r, delta, st =>
    if r < start ∨ e < l then st
    else if l ≤ start ∧ e ≤ r then
      { st with
        tree := fset st.tree node (st.tree node + delta * ((e - start + 1 : Nat) : Int)),
        lazy := fset st.lazy node (st.lazy node + delta) }
    else if _h : start < e then
      let st₁ := pushDown node start e st
      let mid := (start + e) / 2
      let st₂ := rangeUpdateHelper (2 * node) start mid l r delta st₁
      let st₃ := rangeUpdateHelper (2 * node + 1) (mid + 1) e l r delta st₂
      { st₃ with tree := fset st₃.tree node (st₃.tree (2 * node) + st₃.tree (2 * node + 1)) }
    else st
termination_by node start e l r delta st => e - start
decreasing_by all_goals omega

/-- Method `rangeUpdate(l, r, delta)`. -/
def LazyST.rangeUpdate (st : LazyST) (l r : Nat) (delta : Int) : LazyST :=
  rangeUpdateHelper 1 0 (st.n - 1) l r delta st

/-- `queryHelper`; also returns the state since `pushDown` mutates it. -/
def lazyQueryHelper : Nat → Nat → Nat → Nat → Nat → LazyST → Int × LazyST
  | node, start, e, l, r, st =>
    if r < start ∨ e < l then (0, st)
    else if l ≤ start ∧ e ≤ r then (st.tree node, st)
    else if _h : start < e then
      let st₁ := pushDown node start e st
      let mid := (start + e) / 2
      let q₁ := lazyQueryHelper (2 * node) start mid l r st₁
      let q₂ := lazyQueryHelper (2 * node + 1) (mid + 1) e l r q₁.2
      (q₁.1 + q₂.1, q₂.2)
    else (0, st)
termination_by node start e l r st => e - start
decreasing_by all_goals omega

/-- Method `query(l, r)`. -/
def LazyST.query (st : LazyST) (l r : Nat) : Int × LazyST :=
  lazyQueryHelper 1 0 (st.n - 1) l r st

/-- Lazy-tree invariant: `tree node` is the sum of the logical array `f`
over `[start, e]`, and each child subtree is correct for `f` minus the
node's pending lazy value (which the children have not yet received). -/
def LInv (t l : Nat → Int) : (Nat → Int) → Nat → Nat → Nat → Prop
  | f, node, start, e =>
    t node = rangeSum f start (e + 1) ∧
    (start < e →
      LInv t l (fun j => f j - l node) (2 * node) start ((start + e) / 2) ∧
      LInv t l (fun j => f j - l node) (2 * node + 1) ((start + e) / 2 + 1) e)
termination_by f node start e => e - start
decreasing_by all_goals omega

theorem LInv_iff (t l f : Nat → Int) (node start e : Nat) :
    LInv t l f node start e ↔
      (t node = rangeSum f start (e + 1) ∧
        (start < e →
          LInv t l (fun j => f j - l node) (2 * node) start ((start + e) / 2) ∧
          LInv t l (fun j => f j - l node) (2 * node + 1) ((start + e) / 2 + 1) e)) := by
  rw [LInv]

theorem rangeSum_congr (f g : Nat → Int) (a b : Nat)
    (h : ∀ j, a ≤ j → j < b → f j = g j) :
    rangeSum f a b = rangeSum g a b := by
  rw [rangeSum, rangeSum]
  congr 1
  apply List.map_congr_left
  intro j hj
  rw [List.mem_range'] at hj
  exact h j (by omega) (by omega)

theorem LInv_congr (t t' l l' : Nat → Int) :
    ∀ N f g node start e, e - start ≤ N → start ≤ e →
      (∀ j, start ≤ j → j ≤ e → f j = g j) →
      (∀ m, isDesc node m → t m = t' m) →
      (∀ m, isDesc node m → l m = l' m) →
      LInv t l f node start e → LInv t' l' g node start e := by
  intro N
  induction N with
  | zero =>
    intro f g node start e hN hse hf ht hl h
    have he : start = e := by omega
    subst he
    rw [LInv_iff] at h ⊢
    refine ⟨?_, fun hc => absurd hc (by omega)⟩
    rw [← ht node (isDesc_self node), h.1]
    exact rangeSum_congr f g start (start + 1) (fun j h₁ h₂ => hf j h₁ (by omega))
  | succ N ih =>
    intro f g node start e hN hse hf ht hl h
    rw [LInv_iff] at h ⊢
    constructor
    · rw [← ht node (isDesc_self node), h.1]
      exact rangeSum_congr f g start (e + 1) (fun j h₁ h₂ => hf j h₁ (by omega))
    · intro hlt
      obtain ⟨hL, hR⟩ := h.2 hlt
      have hln : l node = l' node := hl node (isDesc_self node)
      constructor
      · exact ih (fun j => f j - l node) (fun j => g j - l' node) (2 * node) start
          ((start + e) / 2) (by omega) (by omega)
          (fun j h₁ h₂ => by
            show f j - l node = g j - l' node
            rw [hf j h₁ (by omega), hln])
          (fun m hm => ht m (isDesc_left node m hm))
          (fun m hm => hl m (isDesc_left node m hm)) hL
      · exact ih (fun j => f j - l node) (fun j => g j - l' node) (2 * node + 1)
          ((start + e) / 2 + 1) e (by omega) (by omega)
          (fun j h₁ h₂ => by
            show f j - l node = g j - l' node
            rw [hf j (by omega) h₂, hln])
          (fun m hm => ht m (isDesc_right node m hm))
          (fun m hm => hl m (isDesc_right node m hm)) hR

theorem rangeSum_sub_const (f : Nat → Int) (c : Int) :
    ∀ N a b, b - a ≤ N →
      rangeSum (fun j => f j - c) a b = rangeSum f a b - c * ((b - a : Nat) : Int) := by
  intro N
  induction N with
  | zero =>
    intro a b hN
    rw [rangeSum, rangeSum, show b - a = 0 by omega]
    simp
  | succ N ih =>
    intro a b hN
    by_cases hab : a < b
    · rw [rangeSum_cons _ a b hab, rangeSum_cons f a b hab, ih (a + 1) b (by omega)]
      have hc : ((b - a : Nat) : Int) = ((b - (a + 1) : Nat) : Int) + 1 := by omega
      rw [hc]
      ring
    · rw [rangeSum, rangeSum, show b - a = 0 by omega]
      simp

theorem rangeSum_add_const (f : Nat → Int) (c : Int) :
    ∀ N a b, b - a ≤ N →
      rangeSum (fun j => f j + c) a b = rangeSum f a b + c * ((b - a : Nat) : Int) := by
  intro N
  induction N with
  | zero =>
    intro a b hN
    rw [rangeSum, rangeSum, show b - a = 0 by omega]
    simp
  | succ N ih =>
    intro a b hN
    by_cases hab : a < b
    · rw [rangeSum_cons _ a b hab, rangeSum_cons f a b hab, ih (a + 1) b (by omega)]
      have hc : ((b - a : Nat) : Int) = ((b - (a + 1) : Nat) : Int) + 1 := by omega
      rw [hc]
      ring
    · rw [rangeSum, rangeSum, show b - a = 0 by omega]
      simp

theorem foldl_add_eq (L : List Int) : ∀ x : Int, L.foldl (fun p q => p + q) x = x + L.sum := by
  induction L with
  | nil => intro x; simp
  | cons y L ih =>
    intro x
    rw [List.foldl_cons, ih, List.sum_cons]
    ring

theorem rangeFold_add_eq_rangeSum (f : Nat → Int) (a b : Nat) (hab : a ≤ b) :
    rangeFold (fun x y => x + y) f a b = rangeSum f a (b + 1) := by
  rw [rangeFold, rangeSum, show b + 1 - a = (b - a) + 1 by omega, List.range'_succ,
    List.map_cons, List.sum_cons, foldl_add_eq]

theorem LInv_of_TreeOk (f : Nat → Int) :
    ∀ N node start e t, e - start ≤ N → start ≤ e →
      TreeOk (fun x y => x + y) f t node start e → LInv t (fun _ => 0) f node start e := by
  intro N
  induction N with
  | zero =>
    intro node start e t hN hse hok
    have he : start = e := by omega
    subst he
    rw [LInv_iff]
    refine ⟨?_, fun hc => absurd hc (by omega)⟩
    rw [((TreeOk_iff _ _ _ _ _ _).mp hok).1, rangeFold_add_eq_rangeSum f start start (le_refl _)]
  | succ N ih =>
    intro node start e t hN hse hok
    rw [LInv_iff]
    constructor
    · rw [((TreeOk_iff _ _ _ _ _ _).mp hok).1, rangeFold_add_eq_rangeSum f start e hse]
    · intro hlt
      obtain ⟨hL, hR⟩ := ((TreeOk_iff _ _ _ _ _ _).mp hok).2 hlt
      constructor
      · refine LInv_congr t t (fun _ => 0) (fun _ => 0) N f _ (2 * node) start
          ((start + e) / 2) (by omega) (by omega) ?_ (fun _ _ => rfl) (fun _ _ => rfl)
          (ih (2 * node) start ((start + e) / 2) t (by omega) (by omega) hL)
        intro j _ _
        show f j = f j - 0
        ring
      · refine LInv_congr t t (fun _ => 0) (fun _ => 0) N f _ (2 * node + 1)
          ((start + e) / 2 + 1) e (by omega) (by omega) ?_ (fun _ _ => rfl) (fun _ _ => rfl)
          (ih (2 * node + 1) ((start + e) / 2 + 1) e t (by omega) (by omega) hR)
        intro j _ _
        show f j = f j - 0
        ring

theorem lazy_make_inv (arr : List Int) (h : 0 < arr.length) :
    LInv (LazyST.make arr).tree (LazyST.make arr).lazy (fun j => arr.getD j 0)
      1 0 (arr.length - 1) := by
  show LInv (if 0 < arr.length
      then buildT (fun a b => a + b) arr 0 1 0 (arr.length - 1) (fun _ => 0)
      else fun _ => 0) (fun _ => 0) _ 1 0 (arr.length - 1)
  rw [if_pos h]
  exact LInv_of_TreeOk (fun j => arr.getD j 0) (arr.length - 1) 1 0 (arr.length - 1) _
    (le_refl _) (by omega)
    (buildT_ok (fun x y => x + y) arr 0 (fun a b c => add_assoc a b c) (arr.length - 1)
      1 0 (arr.length - 1) (fun _ => 0) (le_refl _) (by omega) (by omega)).1

theorem LInv_retarget (t t' l l' f g : Nat → Int) (node start e : Nat)
    (hnode : 1 ≤ node) (hse : start ≤ e)
    (hval : t' node = rangeSum g start (e + 1))
    (hlz : ∀ j, start ≤ j → j ≤ e → f j - l node = g j - l' node)
    (ht : ∀ m, isDesc node m → m ≠ node → t m = t' m)
    (hl : ∀ m, isDesc node m → m ≠ node → l m = l' m)
    (h : LInv t l f node start e) : LInv t' l' g node start e := by
  rw [LInv_iff] at h ⊢
  refine ⟨hval, fun hlt => ?_⟩
  obtain ⟨hL, hR⟩ := h.2 hlt
  constructor
  · refine LInv_congr t t' l l' ((start + e) / 2 - start) _ _ (2 * node) start
      ((start + e) / 2) (le_refl _) (by omega)
      (fun j h₁ h₂ => hlz j h₁ (by omega)) ?_ ?_ hL
    · intro m hm
      exact ht m (isDesc_left node m hm) (fun hmn =>
        not_isDesc_node_left node hnode (hmn ▸ hm))
    · intro m hm
      exact hl m (isDesc_left node m hm) (fun hmn =>
        not_isDesc_node_left node hnode (hmn ▸ hm))
  · refine LInv_congr t t' l l' (e - ((start + e) / 2 + 1)) _ _ (2 * node + 1)
      ((start + e) / 2 + 1) e (le_refl _) (by omega)
      (fun j h₁ h₂ => hlz j (by omega) h₂) ?_ ?_ hR
    · intro m hm
      exact ht m (isDesc_right node m hm) (fun hmn =>
        not_isDesc_node_right node hnode (hmn ▸ hm))
    · intro m hm
      exact hl m (isDesc_right node m hm) (fun hmn =>
        not_isDesc_node_right node hnode (hmn ▸ hm))

theorem LInv_children_of_zero (t l f : Nat → Int) (node start e : Nat)
    (hlt : start < e) (hl0 : l node = 0) (h : LInv t l f node start e) :
    LInv t l f (2 * node) start ((start + e) / 2) ∧
    LInv t l f (2 * node + 1) ((start + e) / 2 + 1) e := by
  obtain ⟨hL, hR⟩ := ((LInv_iff _ _ _ _ _ _).mp h).2 hlt
  constructor
  · refine LInv_congr t t l l ((start + e) / 2 - start) _ f (2 * node) start
      ((start + e) / 2) (le_refl _) (by omega) ?_ (fun _ _ => rfl) (fun _ _ => rfl) hL
    intro j _ _
    show f j - l node = f j
    rw [hl0]
    ring
  · refine LInv_congr t t l l (e - ((start + e) / 2 + 1)) _ f (2 * node + 1)
      ((start + e) / 2 + 1) e (le_refl _) (by omega) ?_ (fun _ _ => rfl) (fun _ _ => rfl) hR
    intro j _ _
    show f j - l node = f j
    rw [hl0]
    ring

theorem pushDown_spec (node start e : Nat) (st : LazyST) (f : Nat → Int)
    (hnode : 1 ≤ node) (hse : start < e)
    (h : LInv st.tree st.lazy f node start e) :
    LInv (pushDown node start e st).tree (pushDown node start e st).lazy f node start e ∧
    (pushDown node start e st).lazy node = 0 ∧
    (pushDown node start e st).n = st.n ∧
    (∀ m, ¬ isDesc node m → (pushDown node start e st).tree m = st.tree m ∧
      (pushDown node start e st).lazy m = st.lazy m) := by
  by_cases hlz : st.lazy node ≠ 0
  case neg =>
    rw [pushDown, if_neg hlz]
    exact ⟨h, by omega, rfl, fun m _ => ⟨rfl, rfl⟩⟩
  case pos =>
    have hb : pushDown node start e st = { st with
        tree := fset
          (fset st.tree (2 * node)
            (st.tree (2 * node) + st.lazy node * (((start + e) / 2 - start + 1 : Nat) : Int)))
          (2 * node + 1)
          (fset st.tree (2 * node)
            (st.tree (2 * node) + st.lazy node * (((start + e) / 2 - start + 1 : Nat) : Int))
            (2 * node + 1) + st.lazy node * ((e - (start + e) / 2 : Nat) : Int)),
        lazy := fset
          (fset (fset st.lazy (2 * node) (st.lazy (2 * node) + st.lazy node)) (2 * node + 1)
            (fset st.lazy (2 * node) (st.lazy (2 * node) + st.lazy node) (2 * node + 1)
              + st.lazy node))
          node 0 } := by
      rw [pushDown, if_pos hlz]
    have hne1 : (2 * node : Nat) ≠ 2 * node + 1 := by omega
    have hnn1 : (node : Nat) ≠ 2 * node := by omega
    have hnn2 : (node : Nat) ≠ 2 * node + 1 := by omega
    have ht2n : (pushDown node start e st).tree (2 * node) =
        st.tree (2 * node) + st.lazy node * (((start + e) / 2 - start + 1 : Nat) : Int) := by
      rw [hb]
      show fset _ (2 * node + 1) _ (2 * node) = _
      rw [fset, if_neg hne1, fset, if_pos rfl]
    have ht2n1 : (pushDown node start e st).tree (2 * node + 1) =
        st.tree (2 * node + 1) + st.lazy node * ((e - (start + e) / 2 : Nat) : Int) := by
      rw [hb]
      show fset _ (2 * node + 1) _ (2 * node + 1) = _
      rw [fset, if_pos rfl, fset, if_neg (Ne.symm hne1)]
    have htoth : ∀ m, m ≠ 2 * node → m ≠ 2 * node + 1 →
        (pushDown node start e st).tree m = st.tree m := by
      intro m hm1 hm2
      rw [hb]
      show fset _ (2 * node + 1) _ m = _
      rw [fset, if_neg hm2, fset, if_neg hm1]
    have hl2n : (pushDown node start e st).lazy (2 * node) =
        st.lazy (2 * node) + st.lazy node := by
      rw [hb]
      show fset _ node 0 (2 * node) = _
      rw [fset, if_neg (Ne.symm hnn1), fset, if_neg hne1, fset, if_pos rfl]
    have hl2n1 : (pushDown node start e st).lazy (2 * node + 1) =
        st.lazy (2 * node + 1) + st.lazy node := by
      rw [hb]
      show fset _ node 0 (2 * node + 1) = _
      rw [fset, if_neg (Ne.symm hnn2), fset, if_pos rfl, fset, if_neg (Ne.symm hne1)]
    have hlnode : (pushDown node start e st).lazy node = 0 := by
      rw [hb]
      show fset _ node 0 node = _
      rw [fset, if_pos rfl]
    have hloth : ∀ m, m ≠ node → m ≠ 2 * node → m ≠ 2 * node + 1 →
        (pushDown node start e st).lazy m = st.lazy m := by
      intro m hm0 hm1 hm2
      rw [hb]
      show fset _ node 0 m = _
      rw [fset, if_neg hm0, fset, if_neg hm2, fset, if_neg hm1]
    have hn : (pushDown node start e st).n = st.n := by rw [hb]
    obtain ⟨hCL, hCR⟩ := ((LInv_iff _ _ _ _ _ _).mp h).2 hse
    have hm₁ : start ≤ (start + e) / 2 := by omega
    have hm₂ : (start + e) / 2 < e := by omega
    have hLv : st.tree (2 * node) =
        rangeSum (fun j => f j - st.lazy node) start ((start + e) / 2 + 1) :=
      ((LInv_iff _ _ _ _ _ _).mp hCL).1
    have hRv : st.tree (2 * node + 1) =
        rangeSum (fun j => f j - st.lazy node) ((start + e) / 2 + 1) (e + 1) :=
      ((LInv_iff _ _ _ _ _ _).mp hCR).1
    have hchildL : LInv (pushDown node start e st).tree (pushDown node start e st).lazy
        f (2 * node) start ((start + e) / 2) := by
      refine LInv_retarget st.tree _ st.lazy _ (fun j => f j - st.lazy node) f
        (2 * node) start ((start + e) / 2) (by omega) hm₁ ?_ ?_ ?_ ?_ hCL
      · rw [ht2n, hLv,
          rangeSum_sub_const f (st.lazy node) ((start + e) / 2 + 1 - start) start
            ((start + e) / 2 + 1) (le_refl _),
          show ((start + e) / 2 - start + 1 : Nat) = ((start + e) / 2 + 1 - start : Nat)
            by omega]
        ring
      · intro j _ _
        rw [hl2n]
        ring
      · intro m hm hmne
        exact (htoth m hmne (fun hc =>
          isDesc_sibling_disjoint node m hnode ⟨hm, hc ▸ isDesc_self _⟩)).symm
      · intro m hm hmne
        refine (hloth m (fun hc => not_isDesc_node_left node hnode (hc ▸ hm)) hmne
          (fun hc => isDesc_sibling_disjoint node m hnode ⟨hm, hc ▸ isDesc_self _⟩)).symm
    have hchildR : LInv (pushDown node start e st).tree (pushDown node start e st).lazy
        f (2 * node + 1) ((start + e) / 2 + 1) e := by
      refine LInv_retarget st.tree _ st.lazy _ (fun j => f j - st.lazy node) f
        (2 * node + 1) ((start + e) / 2 + 1) e (by omega) (by omega) ?_ ?_ ?_ ?_ hCR
      · rw [ht2n1, hRv,
          rangeSum_sub_const f (st.lazy node) (e + 1 - ((start + e) / 2 + 1))
            ((start + e) / 2 + 1) (e + 1) (le_refl _),
          show ((e - (start + e) / 2 : Nat)) = ((e + 1 - ((start + e) / 2 + 1) : Nat))
            by omega]
        ring
      · intro j _ _
        rw [hl2n1]
        ring
      · intro m hm hmne
        exact (htoth m (fun hc =>
          isDesc_sibling_disjoint node m hnode ⟨hc ▸ isDesc_self _, hm⟩) hmne).symm
      · intro m hm hmne
        refine (hloth m (fun hc => not_isDesc_node_right node hnode (hc ▸ hm))
          (fun hc => isDesc_sibling_disjoint node m hnode ⟨hc ▸ isDesc_self _, hm⟩)
          hmne).symm
    refine ⟨?_, hlnode, hn, ?_⟩
    · rw [LInv_iff]
      constructor
      · rw [htoth node hnn1 hnn2]
        exact ((LInv_iff _ _ _ _ _ _).mp h).1
      · intro _
        constructor
        · refine LInv_congr _ _ _ _ ((start + e) / 2 - start) f _ (2 * node) start
            ((start + e) / 2) (le_refl _) (by omega) ?_ (fun _ _ => rfl) (fun _ _ => rfl)
            hchildL
          intro j _ _
          show f j = f j - (pushDown node start e st).lazy node
          rw [hlnode]
          ring
        · refine LInv_congr _ _ _ _ (e - ((start + e) / 2 + 1)) f _ (2 * node + 1)
            ((start + e) / 2 + 1) e (le_refl _) (by omega) ?_ (fun _ _ => rfl)
            (fun _ _ => rfl) hchildR
          intro j _ _
          show f j = f j - (pushDown node start e st).lazy node
          rw [hlnode]
          ring
    · intro m hm
      have hm0 : m ≠ node := fun hc => hm (hc ▸ isDesc_self node)
      have hm1 : m ≠ 2 * node := fun hc => hm (isDesc_left node m (hc ▸ isDesc_self _))
      have hm2 : m ≠ 2 * node + 1 := fun hc => hm (isDesc_right node m (hc ▸ isDesc_self _))
      exact ⟨htoth m hm1 hm2, hloth m hm0 hm1 hm2⟩

theorem LInv_noOverlap (lq rq : Nat) (delta : Int) (f : Nat → Int)
    (node start e : Nat) (t l : Nat → Int) (hse : start ≤ e)
    (hc1 : rq < start ∨ e < lq) (h : LInv t l f node start e) :
    LInv t l (fun j => if lq ≤ j ∧ j ≤ rq then f j + delta else f j) node start e := by
  refine LInv_congr t t l l (e - start) f _ node start e (le_refl _) hse ?_
    (fun _ _ => rfl) (fun _ _ => rfl) h
  intro j h₁ h₂
  show f j = if lq ≤ j ∧ j ≤ rq then f j + delta else f j
  rw [if_neg (by omega)]

theorem rangeUpdate_cover (lq rq : Nat) (delta : Int) (f : Nat → Int)
    (node start e : Nat) (st : LazyST) (hnode : 1 ≤ node) (hse : start ≤ e)
    (hc2 : lq ≤ start ∧ e ≤ rq) (h : LInv st.tree st.lazy f node start e) :
    LInv (fset st.tree node (st.tree node + delta * ((e - start + 1 : Nat) : Int)))
      (fset st.lazy node (st.lazy node + delta))
      (fun j => if lq ≤ j ∧ j ≤ rq then f j + delta else f j) node start e := by
  rw [LInv_iff]
  constructor
  · rw [fset, if_pos rfl, ((LInv_iff _ _ _ _ _ _).mp h).1,
      ← rangeSum_congr (fun j => f j + delta)
        (fun j => if lq ≤ j ∧ j ≤ rq then f j + delta else f j) start (e + 1)
        (fun j h₁ h₂ => by
          show f j + delta = if lq ≤ j ∧ j ≤ rq then f j + delta else f j
          rw [if_pos (by omega : lq ≤ j ∧ j ≤ rq)]),
      rangeSum_add_const f delta (e + 1 - start) start (e + 1) (le_refl _),
      show ((e - start + 1 : Nat) : Int) = ((e + 1 - start : Nat) : Int) by omega]
  · intro hlt
    obtain ⟨hL, hR⟩ := ((LInv_iff _ _ _ _ _ _).mp h).2 hlt
    have hlnew : fset st.lazy node (st.lazy node + delta) node = st.lazy node + delta := by
      rw [fset, if_pos rfl]
    constructor
    · refine LInv_congr _ _ _ _ ((start + e) / 2 - start) _ _ (2 * node) start
        ((start + e) / 2) (le_refl _) (by omega) ?_ ?_ ?_ hL
      · intro j h₁ h₂
        show f j - st.lazy node =
          (if lq ≤ j ∧ j ≤ rq then f j + delta else f j) -
            fset st.lazy node (st.lazy node + delta) node
        rw [hlnew, if_pos (by omega : lq ≤ j ∧ j ≤ rq)]
        ring
      · intro m hm
        show st.tree m = fset st.tree node _ m
        rw [fset, if_neg (fun hc : m = node => not_isDesc_node_left node hnode (hc ▸ hm))]
      · intro m hm
        show st.lazy m = fset st.lazy node _ m
        rw [fset, if_neg (fun hc : m = node => not_isDesc_node_left node hnode (hc ▸ hm))]
    · refine LInv_congr _ _ _ _ (e - ((start + e) / 2 + 1)) _ _ (2 * node + 1)
        ((start + e) / 2 + 1) e (le_refl _) (by omega) ?_ ?_ ?_ hR
      · intro j h₁ h₂
        show f j - st.lazy node =
          (if lq ≤ j ∧ j ≤ rq then f j + delta else f j) -
            fset st.lazy node (st.lazy node + delta) node
        rw [hlnew, if_pos (by omega : lq ≤ j ∧ j ≤ rq)]
        ring
      · intro m hm
        show st.tree m = fset st.tree node _ m
        rw [fset, if_neg (fun hc : m = node => not_isDesc_node_right node hnode (hc ▸ hm))]
      · intro m hm
        show st.lazy m = fset st.lazy node _ m
        rw [fset, if_neg (fun hc : m = node => not_isDesc_node_right node hnode (hc ▸ hm))]

theorem rangeUpdateHelper_spec (lq rq : Nat) (delta : Int) (f : Nat → Int) :
    ∀ N node start e st, e - start ≤ N → start ≤ e → 1 ≤ node →
      LInv st.tree st.lazy f node start e →
      LInv (rangeUpdateHelper node start e lq rq delta st).tree
        (rangeUpdateHelper node start e lq rq delta st).lazy
        (fun j => if lq ≤ j ∧ j ≤ rq then f j + delta else f j) node start e ∧
      (rangeUpdateHelper node start e lq rq delta st).n = st.n ∧
      (∀ m, ¬ isDesc node m →
        (rangeUpdateHelper node start e lq rq delta st).tree m = st.tree m ∧
        (rangeUpdateHelper node start e lq rq delta st).lazy m = st.lazy m) := by
  intro N
  induction N with
  | zero =>
    intro node start e st hN hse hnode h
    have he : start = e := by omega
    subst he
    by_cases hc1 : rq < start ∨ start < lq
    · rw [rangeUpdateHelper, if_pos hc1]
      exact ⟨LInv_noOverlap lq rq delta f node start start st.tree st.lazy (le_refl _) hc1 h,
        rfl, fun m _ => ⟨rfl, rfl⟩⟩
    · have hc2 : lq ≤ start ∧ start ≤ rq := by omega
      rw [rangeUpdateHelper, if_neg hc1, if_pos hc2]
      refine ⟨rangeUpdate_cover lq rq delta f node start start st hnode (le_refl _) hc2 h,
        rfl, ?_⟩
      intro m hm
      have hm0 : m ≠ node := fun hc => hm (hc ▸ isDesc_self node)
      constructor
      · show fset st.tree node _ m = _
        rw [fset, if_neg hm0]
      · show fset st.lazy node _ m = _
        rw [fset, if_neg hm0]
  | succ N ih =>
    intro node start e st hN hse hnode h
    by_cases hc1 : rq < start ∨ e < lq
    · rw [rangeUpdateHelper, if_pos hc1]
      exact ⟨LInv_noOverlap lq rq delta f node start e st.tree st.lazy hse hc1 h,
        rfl, fun m _ => ⟨rfl, rfl⟩⟩
    · by_cases hc2 : lq ≤ start ∧ e ≤ rq
      · rw [rangeUpdateHelper, if_neg hc1, if_pos hc2]
        refine ⟨rangeUpdate_cover lq rq delta f node start e st hnode hse hc2 h, rfl, ?_⟩
        intro m hm
        have hm0 : m ≠ node := fun hc => hm (hc ▸ isDesc_self node)
        constructor
        · show fset st.tree node _ m = _
          rw [fset, if_neg hm0]
        · show fset st.lazy node _ m = _
          rw [fset, if_neg hm0]
      · have hlt : start < e := by omega
        have hb : rangeUpdateHelper node start e lq rq delta st =
            { rangeUpdateHelper (2 * node + 1) ((start + e) / 2 + 1) e lq rq delta
                (rangeUpdateHelper (2 * node) start ((start + e) / 2) lq rq delta
                  (pushDown node start e st)) with
              tree := fset
                (rangeUpdateHelper (2 * node + 1) ((start + e) / 2 + 1) e lq rq delta
                  (rangeUpdateHelper (2 * node) start ((start + e) / 2) lq rq delta
                    (pushDown node start e st))).tree node
                ((rangeUpdateHelper (2 * node + 1) ((start + e) / 2 + 1) e lq rq delta
                  (rangeUpdateHelper (2 * node) start ((start + e) / 2) lq rq delta
                    (pushDown node start e st))).tree (2 * node) +
                 (rangeUpdateHelper (2 * node + 1) ((start + e) / 2 + 1) e lq rq delta
                  (rangeUpdateHelper (2 * node) start ((start + e) / 2) lq rq delta
                    (pushDown node start e st))).tree (2 * node + 1)) } := by
          rw [rangeUpdateHelper, if_neg hc1, if_neg hc2, dif_pos hlt]
        obtain ⟨hP, hPz, hPn, hPloc⟩ := pushDown_spec node start e st f hnode hlt h
        obtain ⟨hCL, hCR⟩ := LInv_children_of_zero _ _ f node start e hlt hPz hP
        obtain ⟨hU2, hn2, loc2⟩ := ih (2 * node) start ((start + e) / 2)
          (pushDown node start e st) (by omega) (by omega) (by omega) hCL
        have hCR2 : LInv (rangeUpdateHelper (2 * node) start ((start + e) / 2) lq rq delta
            (pushDown node start e st)).tree
            (rangeUpdateHelper (2 * node) start ((start + e) / 2) lq rq delta
              (pushDown node start e st)).lazy f (2 * node + 1) ((start + e) / 2 + 1) e := by
          refine LInv_congr _ _ _ _ (e - ((start + e) / 2 + 1)) f f (2 * node + 1)
            ((start + e) / 2 + 1) e (le_refl _) (by omega) (fun _ _ _ => rfl) ?_ ?_ hCR
          · intro m hm
            exact (loc2 m (fun hc => isDesc_sibling_disjoint node m hnode ⟨hc, hm⟩)).1.symm
          · intro m hm
            exact (loc2 m (fun hc => isDesc_sibling_disjoint node m hnode ⟨hc, hm⟩)).2.symm
        obtain ⟨hU3, hn3, loc3⟩ := ih (2 * node + 1) ((start + e) / 2 + 1) e
          (rangeUpdateHelper (2 * node) start ((start + e) / 2) lq rq delta
            (pushDown node start e st)) (by omega) (by omega) (by omega) hCR2
        rw [hb]
        generalize hg₁ : rangeUpdateHelper (2 * node) start ((start + e) / 2) lq rq delta
          (pushDown node start e st) = st₂ at hU2 hn2 loc2 hU3 hn3 loc3 ⊢
        generalize hg₂ : rangeUpdateHelper (2 * node + 1) ((start + e) / 2 + 1) e lq rq delta
          st₂ = st₃ at hU3 hn3 loc3 ⊢
        have hLz3 : st₃.lazy node = 0 := by
          rw [(loc3 node (not_isDesc_node_right node hnode)).2,
            (loc2 node (not_isDesc_node_left node hnode)).2]
          exact hPz
        have ht2n : st₃.tree (2 * node) = st₂.tree (2 * node) :=
          (loc3 (2 * node) (not_isDesc_lt (2 * node + 1) (2 * node) (by omega))).1
        refine ⟨?_, ?_, ?_⟩
        · rw [LInv_iff]
          constructor
          · show fset st₃.tree node _ node = _
            rw [fset, if_pos rfl, ht2n, ((LInv_iff _ _ _ _ _ _).mp hU2).1,
              ((LInv_iff _ _ _ _ _ _).mp hU3).1,
              ← rangeSum_split _ start ((start + e) / 2 + 1) (e + 1) (by omega) (by omega)]
          · intro _
            constructor
            · refine LInv_congr _ _ _ _ ((start + e) / 2 - start) _ _ (2 * node) start
                ((start + e) / 2) (le_refl _) (by omega) ?_ ?_ ?_ hU2
              · intro j _ _
                show (if lq ≤ j ∧ j ≤ rq then f j + delta else f j) =
                  (if lq ≤ j ∧ j ≤ rq then f j + delta else f j) - st₃.lazy node
                rw [hLz3]
                ring
              · intro m hm
                have hm0 : m ≠ node := fun hc => not_isDesc_node_left node hnode (hc ▸ hm)
                have hms : ¬ isDesc (2 * node + 1) m := fun hc =>
                  isDesc_sibling_disjoint node m hnode ⟨hm, hc⟩
                show st₂.tree m = fset st₃.tree node _ m
                rw [fset, if_neg hm0, (loc3 m hms).1]
              · intro m hm
                have hms : ¬ isDesc (2 * node + 1) m := fun hc =>
                  isDesc_sibling_disjoint node m hnode ⟨hm, hc⟩
                show st₂.lazy m = st₃.lazy m
                rw [(loc3 m hms).2]
            · refine LInv_congr _ _ _ _ (e - ((start + e) / 2 + 1)) _ _ (2 * node + 1)
                ((start + e) / 2 + 1) e (le_refl _) (by omega) ?_ ?_ ?_ hU3
              · intro j _ _
                show (if lq ≤ j ∧ j ≤ rq then f j + delta else f j) =
                  (if lq ≤ j ∧ j ≤ rq then f j + delta else f j) - st₃.lazy node
                rw [hLz3]
                ring
              · intro m hm
                have hm0 : m ≠ node := fun hc => not_isDesc_node_right node hnode (hc ▸ hm)
                show st₃.tree m = fset st₃.tree node _ m
                rw [fset, if_neg hm0]
              · intro m _
                rfl
        · show st₃.n = st.n
          rw [hn3, hn2, hPn]
        · intro m hm
          have hm0 : m ≠ node := fun hc => hm (hc ▸ isDesc_self node)
          have hmL : ¬ isDesc (2 * node) m := fun hc => hm (isDesc_left node m hc)
          have hmR : ¬ isDesc (2 * node + 1) m := fun hc => hm (isDesc_right node m hc)
          constructor
          · show fset st₃.tree node _ m = st.tree m
            rw [fset, if_neg hm0, (loc3 m hmR).1, (loc2 m hmL).1]
            exact (hPloc m hm).1
          · show st₃.lazy m = st.lazy m
            rw [(loc3 m hmR).2, (loc2 m hmL).2]
            exact (hPloc m hm).2

theorem lazyQueryHelper_leaf (lq rq : Nat) (f : Nat → Int) (node start : Nat) (st : LazyST)
    (h : LInv st.tree st.lazy f node start start) :
    (lazyQueryHelper node start start lq rq st).1 =
      (if max lq start ≤ min rq start then rangeSum f (max lq start) (min rq start + 1)
       else 0) ∧
    (lazyQueryHelper node start start lq rq st).2 = st := by
  rw [lazyQueryHelper]
  by_cases hc1 : rq < start ∨ start < lq
  · rw [if_pos hc1]
    exact ⟨by rw [if_neg (show ¬ max lq start ≤ min rq start by omega)], rfl⟩
  · have hc2 : lq ≤ start ∧ start ≤ rq := by omega
    rw [if_neg hc1, if_pos hc2]
    refine ⟨?_, rfl⟩
    rw [if_pos (show max lq start ≤ min rq start by omega),
      show max lq start = start by omega, show min rq start = start by omega]
    exact ((LInv_iff _ _ _ _ _ _).mp h).1

theorem lazyQueryHelper_spec (lq rq : Nat) (f : Nat → Int) :
    ∀ N node start e st, e - start ≤ N → start ≤ e → 1 ≤ node →
      LInv st.tree st.lazy f node start e →
      (lazyQueryHelper node start e lq rq st).1 =
        (if max lq start ≤ min rq e then rangeSum f (max lq start) (min rq e + 1)
         else 0) ∧
      LInv (lazyQueryHelper node start e lq rq st).2.tree
        (lazyQueryHelper node start e lq rq st).2.lazy f node start e ∧
      (lazyQueryHelper node start e lq rq st).2.n = st.n ∧
      (∀ m, ¬ isDesc node m →
        (lazyQueryHelper node start e lq rq st).2.tree m = st.tree m ∧
        (lazyQueryHelper node start e lq rq st).2.lazy m = st.lazy m) := by
  intro N
  induction N with
  | zero =>
    intro node start e st hN hse hnode h
    have he : start = e := by omega
    subst he
    obtain ⟨hv, hs⟩ := lazyQueryHelper_leaf lq rq f node start st h
    rw [hv, hs]
    exact ⟨rfl, h, rfl, fun m _ => ⟨rfl, rfl⟩⟩
  | succ N ih =>
    intro node start e st hN hse hnode h
    by_cases he : start = e
    · subst he
      obtain ⟨hv, hs⟩ := lazyQueryHelper_leaf lq rq f node start st h
      rw [hv, hs]
      exact ⟨rfl, h, rfl, fun m _ => ⟨rfl, rfl⟩⟩
    · have hlt : start < e := by omega
      by_cases hc1 : rq < start ∨ e < lq
      · rw [lazyQueryHelper, if_pos hc1]
        exact ⟨by rw [if_neg (show ¬ max lq start ≤ min rq e by omega)], h, rfl,
          fun m _ => ⟨rfl, rfl⟩⟩
      · by_cases hc2 : lq ≤ start ∧ e ≤ rq
        · rw [lazyQueryHelper, if_neg hc1, if_pos hc2]
          refine ⟨?_, h, rfl, fun m _ => ⟨rfl, rfl⟩⟩
          rw [if_pos (show max lq start ≤ min rq e by omega),
            show max lq start = start by omega, show min rq e = e by omega]
          exact ((LInv_iff _ _ _ _ _ _).mp h).1
        · have hb : lazyQueryHelper node start e lq rq st =
              ((lazyQueryHelper (2 * node) start ((start + e) / 2) lq rq
                  (pushDown node start e st)).1 +
               (lazyQueryHelper (2 * node + 1) ((start + e) / 2 + 1) e lq rq
                  (lazyQueryHelper (2 * node) start ((start + e) / 2) lq rq
                    (pushDown node start e st)).2).1,
               (lazyQueryHelper (2 * node + 1) ((start + e) / 2 + 1) e lq rq
                  (lazyQueryHelper (2 * node) start ((start + e) / 2) lq rq
                    (pushDown node start e st)).2).2) := by
            rw [lazyQueryHelper, if_neg hc1, if_neg hc2, dif_pos hlt]
          obtain ⟨hP, hPz, hPn, hPloc⟩ := pushDown_spec node start e st f hnode hlt h
          obtain ⟨hCL, hCR⟩ := LInv_children_of_zero _ _ f node start e hlt hPz hP
          obtain ⟨hv1, hI1, hn1, loc1⟩ := ih (2 * node) start ((start + e) / 2)
            (pushDown node start e st) (by omega) (by omega) (by omega) hCL
          have hCR2 : LInv (lazyQueryHelper (2 * node) start ((start + e) / 2) lq rq
              (pushDown node start e st)).2.tree
              (lazyQueryHelper (2 * node) start ((start + e) / 2) lq rq
                (pushDown node start e st)).2.lazy f (2 * node + 1)
              ((start + e) / 2 + 1) e := by
            refine LInv_congr _ _ _ _ (e - ((start + e) / 2 + 1)) f f (2 * node + 1)
              ((start + e) / 2 + 1) e (le_refl _) (by omega) (fun _ _ _ => rfl) ?_ ?_ hCR
            · intro m hm
              exact (loc1 m (fun hc => isDesc_sibling_disjoint node m hnode ⟨hc, hm⟩)).1.symm
            · intro m hm
              exact (loc1 m (fun hc => isDesc_sibling_disjoint node m hnode ⟨hc, hm⟩)).2.symm
          obtain ⟨hv2, hI2, hn2, loc2⟩ := ih (2 * node + 1) ((start + e) / 2 + 1) e
            (lazyQueryHelper (2 * node) start ((start + e) / 2) lq rq
              (pushDown node start e st)).2 (by omega) (by omega) (by omega) hCR2
          rw [hb]
          generalize hg₁ : lazyQueryHelper (2 * node) start ((start + e) / 2) lq rq
            (pushDown node start e st) = q₁ at hv1 hI1 hn1 loc1 hv2 hI2 hn2 loc2 ⊢
          generalize hg₂ : lazyQueryHelper (2 * node + 1) ((start + e) / 2 + 1) e lq rq
            q₁.2 = q₂ at hv2 hI2 hn2 loc2 ⊢
          have hLz2 : q₂.2.lazy node = 0 := by
            rw [(loc2 node (not_isDesc_node_right node hnode)).2,
              (loc1 node (not_isDesc_node_left node hnode)).2]
            exact hPz
          refine ⟨?_, ?_, ?_, ?_⟩
          · show q₁.1 + q₂.1 = _
            rw [hv1, hv2]
            by_cases hab : max lq start ≤ min rq e
            · rw [if_pos hab]
              by_cases hbm : min rq e ≤ (start + e) / 2
              · have h1 : ¬ max lq ((start + e) / 2 + 1) ≤ min rq e := by omega
                have h2 : max lq start ≤ min rq ((start + e) / 2) := by omega
                have h3 : min rq ((start + e) / 2) = min rq e := by omega
                rw [if_neg h1, if_pos h2, h3, add_zero]
              · by_cases ham : (start + e) / 2 < max lq start
                · have h1 : ¬ max lq start ≤ min rq ((start + e) / 2) := by omega
                  have h2 : max lq ((start + e) / 2 + 1) ≤ min rq e := by omega
                  have h3 : max lq ((start + e) / 2 + 1) = max lq start := by omega
                  rw [if_neg h1, if_pos h2, h3, zero_add]
                · have h2 : max lq start ≤ min rq ((start + e) / 2) := by omega
                  have h4 : max lq ((start + e) / 2 + 1) ≤ min rq e := by omega
                  have h3 : min rq ((start + e) / 2) = (start + e) / 2 := by omega
                  have h5 : max lq ((start + e) / 2 + 1) = (start + e) / 2 + 1 := by omega
                  rw [if_pos h2, if_pos h4, h3, h5,
                    ← rangeSum_split f (max lq start) ((start + e) / 2 + 1) (min rq e + 1)
                      (by omega) (by omega)]
            · rw [if_neg hab]
              have h1 : ¬ max lq start ≤ min rq ((start + e) / 2) := by omega
              have h2 : ¬ max lq ((start + e) / 2 + 1) ≤ min rq e := by omega
              rw [if_neg h1, if_neg h2, add_zero]
          · show LInv q₂.2.tree q₂.2.lazy f node start e
            rw [LInv_iff]
            constructor
            · rw [(loc2 node (not_isDesc_node_right node hnode)).1,
                (loc1 node (not_isDesc_node_left node hnode)).1]
              exact ((LInv_iff _ _ _ _ _ _).mp hP).1
            · intro _
              constructor
              · refine LInv_congr _ _ _ _ ((start + e) / 2 - start) f _ (2 * node) start
                  ((start + e) / 2) (le_refl _) (by omega) ?_ ?_ ?_ hI1
                · intro j _ _
                  show f j = f j - q₂.2.lazy node
                  rw [hLz2]
                  ring
                · intro m hm
                  exact ((loc2 m (fun hc =>
                    isDesc_sibling_disjoint node m hnode ⟨hm, hc⟩)).1).symm
                · intro m hm
                  exact ((loc2 m (fun hc =>
                    isDesc_sibling_disjoint node m hnode ⟨hm, hc⟩)).2).symm
              · refine LInv_congr _ _ _ _ (e - ((start + e) / 2 + 1)) f _ (2 * node + 1)
                  ((start + e) / 2 + 1) e (le_refl _) (by omega) ?_ (fun _ _ => rfl)
                  (fun _ _ => rfl) hI2
                intro j _ _
                show f j = f j - q₂.2.lazy node
                rw [hLz2]
                ring
          · show q₂.2.n = st.n
            rw [hn2, hn1, hPn]
          · intro m hm
            have hmL : ¬ isDesc (2 * node) m := fun hc => hm (isDesc_left node m hc)
            have hmR : ¬ isDesc (2 * node + 1) m := fun hc => hm (isDesc_right node m hc)
            constructor
            · show q₂.2.tree m = st.tree m
              rw [(loc2 m hmR).1, (loc1 m hmL).1]
              exact (hPloc m hm).1
            · show q₂.2.lazy m = st.lazy m
              rw [(loc2 m hmR).2, (loc1 m hmL).2]
              exact (hPloc m hm).2

/-- An interleaving step: a `rangeUpdate(l, r, delta)` or a `query(l, r)`. -/
inductive LazyOp where
  | upd (l r : Nat) (delta : Int)
  | qry (l r : Nat)

def LazyOp.lo : LazyOp → Nat
  | .upd l _ _ => l
  | .qry l _ => l

def LazyOp.hi : LazyOp → Nat
  | .upd _ r _ => r
  | .qry _ r => r

/-- Run an interleaving against the lazy tree, collecting query results. -/
def lazyRun (st : LazyST) : List LazyOp → LazyST × List Int
  | [] => (st, [])
  | .upd l r delta :: ops => lazyRun (st.rangeUpdate l r delta) ops
  | .qry l r :: ops =>
    ((lazyRun (st.query l r).2 ops).1,
     (st.query l r).1 :: (lazyRun (st.query l r).2 ops).2)

/-- Reference run: each range update is applied as individual point updates
(`+ delta` at every index of `[l, r]`) to the plain array, and each query
sums the range directly. -/
def refRun (f : Nat → Int) : List LazyOp → List Int
  | [] => []
  | .upd l r delta :: ops =>
    refRun (fun j => if l ≤ j ∧ j ≤ r then f j + delta else f j) ops
  | .qry l r :: ops => rangeSum f l (r + 1) :: refRun f ops

theorem lazyRun_spec :
    ∀ (ops : List LazyOp) (st : LazyST) (f : Nat → Int), 0 < st.n →
      (∀ op ∈ ops, LazyOp.lo op ≤ LazyOp.hi op ∧ LazyOp.hi op < st.n) →
      LInv st.tree st.lazy f 1 0 (st.n - 1) →
      (lazyRun st ops).2 = refRun f ops := by
  intro ops
  induction ops with
  | nil => intro st f hn hvalid hinv; rfl
  | cons op ops ih =>
    intro st f hn hvalid hinv
    have hop := hvalid op (List.mem_cons_self op ops)
    have hrest := fun v hv => hvalid v (List.mem_cons_of_mem op hv)
    cases op with
    | upd l r delta =>
      obtain ⟨hI, hN, _⟩ := rangeUpdateHelper_spec l r delta f (st.n - 1) 1 0 (st.n - 1)
        st (le_refl _) (by omega) (by omega) hinv
      show (lazyRun (st.rangeUpdate l r delta) ops).2 = _
      refine ih (st.rangeUpdate l r delta) (fun j => if l ≤ j ∧ j ≤ r then f j + delta else f j)
        ?_ ?_ ?_
      · show 0 < (rangeUpdateHelper 1 0 (st.n - 1) l r delta st).n
        rw [hN]
        exact hn
      · intro v hv
        show LazyOp.lo v ≤ LazyOp.hi v ∧ LazyOp.hi v < (rangeUpdateHelper 1 0 (st.n - 1) l r delta st).n
        rw [hN]
        exact hrest v hv
      · show LInv (rangeUpdateHelper 1 0 (st.n - 1) l r delta st).tree
          (rangeUpdateHelper 1 0 (st.n - 1) l r delta st).lazy _ 1 0
          ((rangeUpdateHelper 1 0 (st.n - 1) l r delta st).n - 1)
        rw [hN]
        exact hI
    | qry l r =>
      have hop' : l ≤ r ∧ r < st.n := hop
      obtain ⟨hV, hI, hN, _⟩ := lazyQueryHelper_spec l r f (st.n - 1) 1 0 (st.n - 1)
        st (le_refl _) (by omega) (by omega) hinv
      have hval : (st.query l r).1 = rangeSum f l (r + 1) := by
        show (lazyQueryHelper 1 0 (st.n - 1) l r st).1 = _
        rw [hV, if_pos (show max l 0 ≤ min r (st.n - 1) by omega),
          show max l 0 = l by omega, show min r (st.n - 1) = r by omega]
      show (st.query l r).1 :: (lazyRun (st.query l r).2 ops).2 =
        rangeSum f l (r + 1) :: refRun f ops
      rw [hval]
      refine congrArg _ (ih (st.query l r).2 f ?_ ?_ ?_)
      · show 0 < (lazyQueryHelper 1 0 (st.n - 1) l r st).2.n
        rw [hN]
        exact hn
      · intro v hv
        show LazyOp.lo v ≤ LazyOp.hi v ∧
          LazyOp.hi v < (lazyQueryHelper 1 0 (st.n - 1) l r st).2.n
        rw [hN]
        exact hrest v hv
      · show LInv (lazyQueryHelper 1 0 (st.n - 1) l r st).2.tree
          (lazyQueryHelper 1 0 (st.n - 1) l r st).2.lazy f 1 0
          ((lazyQueryHelper 1 0 (st.n - 1) l r st).2.n - 1)
        rw [hN]
        exact hI

/-- **C1** For every initial integer array and every interleaving of
`rangeUpdate(l, r, delta)` and `query(l, r)` calls on `LazySegmentTree`
(with valid `0 ≤ l ≤ r < n`), every query result is identical to the result
obtained by instead applying each range update as individual point updates
to a plain array and summing the queried range directly. -/
theorem C1_lazy_propagation_equivalence (arr : List Int) (ops : List LazyOp)
    (hvalid : ∀ op ∈ ops, LazyOp.lo op ≤ LazyOp.hi op ∧ LazyOp.hi op < arr.length) :
    (lazyRun (LazyST.make arr) ops).2 = refRun (fun j => arr.getD j 0) ops := by
  cases ops with
  | nil => rfl
  | cons op ops =>
    have harr : 0 < arr.length := by
      have := hvalid op (List.mem_cons_self op ops)
      omega
    exact lazyRun_spec (op :: ops) (LazyST.make arr) (fun j => arr.getD j 0) harr hvalid
      (lazy_make_inv arr harr)

/-- Witness for C1: array `[1, 2, 3, 4]` with the interleaving
`rangeUpdate(0, 2, 5); query(1, 3); rangeUpdate(1, 1, -2); query(0, 1)`. -/
theorem C1_lazy_propagation_equivalence_witness :
    (lazyRun (LazyST.make [(1 : Int), 2, 3, 4])
        [LazyOp.upd 0 2 5, LazyOp.qry 1 3, LazyOp.upd 1 1 (-2), LazyOp.qry 0 1]).2 =
      refRun (fun j => [(1 : Int), 2, 3, 4].getD j 0)
        [LazyOp.upd 0 2 5, LazyOp.qry 1 3, LazyOp.upd 1 1 (-2), LazyOp.qry 0 1] :=
  C1_lazy_propagation_equivalence [(1 : Int), 2, 3, 4]
    [LazyOp.upd 0 2 5, LazyOp.qry 1 3, LazyOp.upd 1 1 (-2), LazyOp.qry 0 1]
    (by
      intro op hop
      fin_cases hop <;> exact ⟨by decide, by decide⟩)

/-! ## Dijkstra vs Bellman-Ford agreement (claim C2)

Both algorithms are proved against the same specification: the optimal
walk cost in the graph.  Well-formedness (the spec's dense `[0, V)`
vertex identifiers) is taken as: the adjacency map has no duplicate keys,
every neighbour is a key, and the source is a key; the claim adds
non-negative weights. -/

/-- `u` has an edge to `v` of weight `w`. -/
def edgeP (graph : WeightedGraph) (u v : Nat) (w : Int) : Prop :=
  ∃ ns, mget graph u = some ns ∧ (v, w) ∈ ns

/-- `stepsOk graph u steps v`: `steps` is a walk from `u` to `v`, each entry
one edge (target, weight). -/
def stepsOk (graph : WeightedGraph) : Nat → List (Nat × Int) → Nat → Prop
  | u, [], v => u = v
  | u, (x, w) :: rest, v => edgeP graph u x w ∧ stepsOk graph x rest v

/-- Total weight of a walk. -/
def stepsCost (steps : List (Nat × Int)) : Int := (steps.map Prod.snd).sum

/-- `c` is the cost of some walk from `start` to `v`. -/
def ReachC (graph : WeightedGraph) (start v : Nat) (c : Int) : Prop :=
  ∃ steps, stepsOk graph start steps v ∧ stepsCost steps = c

/-- `d` is the optimal distance from `start` to `v` (with `none` = `Infinity`
meaning unreachable). -/
def OptDist (graph : WeightedGraph) (start v : Nat) : Option Int → Prop
  | none => ∀ c, ¬ ReachC graph start v c
  | some c => ReachC graph start v c ∧ ∀ c', ReachC graph start v c' → c ≤ c'

theorem OptDist_unique (graph : WeightedGraph) (start v : Nat) (d₁ d₂ : Option Int)
    (h₁ : OptDist graph start v d₁) (h₂ : OptDist graph start v d₂) : d₁ = d₂ := by
  cases d₁ with
  | none =>
    cases d₂ with
    | none => rfl
    | some c₂ => exact absurd h₂.1 (h₁ c₂)
  | some c₁ =>
    cases d₂ with
    | none => exact absurd h₁.1 (h₂ c₁)
    | some c₂ => exact congrArg some (le_antisymm (h₁.2 c₂ h₂.1) (h₂.2 c₁ h₁.1))

theorem stepsOk_nil (graph : WeightedGraph) (u : Nat) : stepsOk graph u [] u := rfl

theorem stepsOk_append (graph : WeightedGraph) :
    ∀ (a : List (Nat × Int)) (u x : Nat) (b : List (Nat × Int)) (v : Nat),
      stepsOk graph u a x → stepsOk graph x b v → stepsOk graph u (a ++ b) v := by
  intro a
  induction a with
  | nil =>
    intro u x b v ha hb
    have : u = x := ha
    rw [List.nil_append, this]
    exact hb
  | cons s rest ih =>
    intro u x b v ha hb
    obtain ⟨he, hrest⟩ := ha
    exact ⟨he, ih s.1 x b v hrest hb⟩

theorem stepsOk_snoc (graph : WeightedGraph) (a : List (Nat × Int)) (u x v : Nat) (w : Int)
    (ha : stepsOk graph u a x) (he : edgeP graph x v w) :
    stepsOk graph u (a ++ [(v, w)]) v :=
  stepsOk_append graph a u x [(v, w)] v ha ⟨he, rfl⟩

theorem stepsCost_append (a b : List (Nat × Int)) :
    stepsCost (a ++ b) = stepsCost a + stepsCost b := by
  simp [stepsCost]

theorem stepsCost_nil : stepsCost [] = 0 := rfl

theorem stepsCost_cons (s : Nat × Int) (rest : List (Nat × Int)) :
    stepsCost (s :: rest) = s.2 + stepsCost rest := by
  simp [stepsCost]

theorem mget_mem {α : Type} (m : List (Nat × α)) (k : Nat) (v : α)
    (h : mget m k = some v) : (k, v) ∈ m := by
  induction m with
  | nil => simp [mget] at h
  | cons hd tl ih =>
    obtain ⟨k₁, v₁⟩ := hd
    rw [mget_cons] at h
    by_cases hk : k₁ = k
    · rw [if_pos hk] at h
      subst hk
      obtain rfl : v₁ = v := Option.some.inj h
      exact List.mem_cons_self _ _
    · rw [if_neg hk] at h
      exact List.mem_cons_of_mem _ (ih h)

/-- Well-formedness used throughout: every neighbour entry reachable through
`get` has a target that is a key and a non-negative weight. -/
def GraphWF (graph : WeightedGraph) : Prop :=
  ∀ u ns, mget graph u = some ns → ∀ v w, (v, w) ∈ ns → v ∈ mkeys graph ∧ 0 ≤ w

theorem edgeP_weight_nonneg (graph : WeightedGraph) (hwf : GraphWF graph)
    (u v : Nat) (w : Int) (he : edgeP graph u v w) : 0 ≤ w := by
  obtain ⟨ns, hns, hmem⟩ := he
  exact (hwf u ns hns v w hmem).2

theorem edgeP_target_mem (graph : WeightedGraph) (hwf : GraphWF graph)
    (u v : Nat) (w : Int) (he : edgeP graph u v w) : v ∈ mkeys graph := by
  obtain ⟨ns, hns, hmem⟩ := he
  exact (hwf u ns hns v w hmem).1

theorem stepsCost_nonneg (graph : WeightedGraph) (hwf : GraphWF graph) :
    ∀ (steps : List (Nat × Int)) (u v : Nat), stepsOk graph u steps v →
      0 ≤ stepsCost steps := by
  intro steps
  induction steps with
  | nil => intro u v _; simp [stepsCost]
  | cons s rest ih =>
    intro u v h
    obtain ⟨he, hrest⟩ := h
    have h1 := edgeP_weight_nonneg graph hwf u s.1 s.2 he
    have h2 := ih s.1 v hrest
    calc (0 : Int) ≤ s.2 + stepsCost rest := by omega
      _ = stepsCost (s :: rest) := (stepsCost_cons s rest).symm

theorem ReachC_nonneg (graph : WeightedGraph) (hwf : GraphWF graph)
    (start v : Nat) (c : Int) (h : ReachC graph start v c) : 0 ≤ c := by
  obtain ⟨steps, hok, hc⟩ := h
  rw [← hc]
  exact stepsCost_nonneg graph hwf steps start v hok

theorem stepsOk_mem_keys (graph : WeightedGraph) (hwf : GraphWF graph) :
    ∀ (steps : List (Nat × Int)) (u v : Nat), stepsOk graph u steps v → u ∈ mkeys graph →
      v ∈ mkeys graph ∧ ∀ z ∈ steps.map Prod.fst, z ∈ mkeys graph := by
  intro steps
  induction steps with
  | nil =>
    intro u v h hu
    have : u = v := h
    subst this
    exact ⟨hu, by simp⟩
  | cons s rest ih =>
    intro u v h hu
    obtain ⟨he, hrest⟩ := h
    have hs := edgeP_target_mem graph hwf u s.1 s.2 he
    obtain ⟨hv, hall⟩ := ih s.1 v hrest hs
    refine ⟨hv, ?_⟩
    intro z hz
    rw [List.map_cons, List.mem_cons] at hz
    cases hz with
    | inl hz => exact hz ▸ hs
    | inr hz => exact hall z hz

/-- `none`-is-infinity order on distances. -/
def leN : Option Int → Option Int → Prop
  | _, none => True
  | none, some _ => False
  | some x, some y => x ≤ y

theorem leN_none (a : Option Int) : leN a none := by
  cases a <;> trivial

theorem leN_refl (a : Option Int) : leN a a := by
  cases a with
  | none => trivial
  | some x => exact le_refl x

theorem leN_trans (a b c : Option Int) (h₁ : leN a b) (h₂ : leN b c) : leN a c := by
  cases c with
  | none => exact leN_none a
  | some z =>
    cases b with
    | none => exact absurd h₂ (by simp [leN])
    | some y =>
      cases a with
      | none => exact absurd h₁ (by simp [leN])
      | some x => exact le_trans (α := Int) h₁ h₂

theorem leN_some_of (x y : Int) (h : x ≤ y) : leN (some x) (some y) := h

theorem leN_some_dest (a : Option Int) (y : Int) (h : leN a (some y)) :
    ∃ x, a = some x ∧ x ≤ y := by
  cases a with
  | none => exact absurd h (by simp [leN])
  | some x => exact ⟨x, rfl, h⟩

theorem leN_addO (a b : Option Int) (w : Int) (h : leN a b) :
    leN (addO a (some w)) (addO b (some w)) := by
  cases b with
  | none => exact leN_none _
  | some y =>
    cases a with
    | none => exact absurd h (by simp [leN])
    | some x =>
      show x + w ≤ y + w
      have : x ≤ y := h
      omega

theorem exists_two_le_count_of_not_nodup {α : Type} [DecidableEq α] :
    ∀ (l : List α), ¬ l.Nodup → ∃ x, 2 ≤ l.count x := by
  intro l
  induction l with
  | nil => intro h; exact absurd List.nodup_nil h
  | cons a l ih =>
    intro h
    by_cases ha : a ∈ l
    · refine ⟨a, ?_⟩
      rw [List.count_cons_self]
      have := List.count_pos_iff_mem.mpr ha
      omega
    · have : ¬ l.Nodup := fun hn => h (List.nodup_cons.mpr ⟨ha, hn⟩)
      obtain ⟨x, hx⟩ := ih this
      refine ⟨x, le_trans hx ?_⟩
      rw [List.count_cons]
      split <;> omega

theorem splitMem (graph : WeightedGraph) :
    ∀ (steps : List (Nat × Int)) (u v x : Nat), stepsOk graph u steps v →
      x ∈ steps.map Prod.fst →
      ∃ s₁ s₂, steps = s₁ ++ s₂ ∧ s₁ ≠ [] ∧ stepsOk graph u s₁ x ∧ stepsOk graph x s₂ v := by
  intro steps
  induction steps with
  | nil => intro u v x _ hx; simp at hx
  | cons s rest ih =>
    intro u v x h hx
    obtain ⟨he, hrest⟩ := h
    rw [List.map_cons, List.mem_cons] at hx
    by_cases hxs : s.1 = x
    · exact ⟨[s], rest, rfl, by simp, ⟨hxs ▸ he, hxs⟩, hxs ▸ hrest⟩
    · have hx' : x ∈ rest.map Prod.fst := by
        cases hx with
        | inl hx => exact absurd hx.symm hxs
        | inr hx => exact hx
      obtain ⟨t₁, t₂, heq, hne, h₁, h₂⟩ := ih s.1 v x hrest hx'
      exact ⟨s :: t₁, t₂, by rw [heq]; rfl, by simp, ⟨he, h₁⟩, h₂⟩

theorem splitFirst (graph : WeightedGraph) :
    ∀ (steps : List (Nat × Int)) (u v x : Nat), stepsOk graph u steps v →
      x ∈ u :: steps.map Prod.fst →
      ∃ s₁ s₂, steps = s₁ ++ s₂ ∧ stepsOk graph u s₁ x ∧ stepsOk graph x s₂ v ∧
        (u :: s₁.map Prod.fst).count x = 1 := by
  intro steps
  induction steps with
  | nil =>
    intro u v x h hx
    have huv : u = v := h
    have hxu : x = u := by simpa using hx
    exact ⟨[], [], rfl, hxu.symm, hxu ▸ huv ▸ (stepsOk_nil graph v), by simp [hxu]⟩
  | cons s rest ih =>
    intro u v x h hx
    obtain ⟨he, hrest⟩ := h
    by_cases hxu : x = u
    · exact ⟨[], s :: rest, rfl, hxu.symm, hxu ▸ ⟨he, hrest⟩, by simp [hxu]⟩
    · have hx' : x ∈ s.1 :: rest.map Prod.fst := by
        cases (List.mem_cons.mp hx) with
        | inl hc => exact absurd hc hxu
        | inr hc => exact hc
      obtain ⟨t₁, t₂, heq, h₁, h₂, hcnt⟩ := ih s.1 v x hrest hx'
      refine ⟨s :: t₁, t₂, by rw [heq]; rfl, ⟨he, h₁⟩, h₂, ?_⟩
      rw [List.map_cons, List.count_cons, hcnt]
      simp [show u ≠ x from fun hc => hxu hc.symm]

theorem walk_shorten (graph : WeightedGraph) (hwf : GraphWF graph) :
    ∀ (B : Nat) (steps : List (Nat × Int)) (u v : Nat), steps.length ≤ B →
      stepsOk graph u steps v →
      ∃ steps', stepsOk graph u steps' v ∧ stepsCost steps' ≤ stepsCost steps ∧
        (u :: steps'.map Prod.fst).Nodup := by
  intro B
  induction B with
  | zero =>
    intro steps u v hlen h
    have : steps = [] := List.length_eq_zero.mp (by omega)
    subst this
    exact ⟨[], h, le_refl _, by simp⟩
  | succ B ih =>
    intro steps u v hlen h
    by_cases hnd : (u :: steps.map Prod.fst).Nodup
    · exact ⟨steps, h, le_refl _, hnd⟩
    · obtain ⟨x, hx2⟩ := exists_two_le_count_of_not_nodup _ hnd
      have hxmem : x ∈ u :: steps.map Prod.fst := by
        have := List.count_pos_iff_mem.mp (show 0 < (u :: steps.map Prod.fst).count x by omega)
        exact this
      obtain ⟨s₁, s₂, heq, h₁, h₂, hcnt⟩ := splitFirst graph steps u v x h hxmem
      have hxs₂ : x ∈ s₂.map Prod.fst := by
        have hsplit : (u :: steps.map Prod.fst).count x =
            (u :: s₁.map Prod.fst).count x + (s₂.map Prod.fst).count x := by
          rw [heq]
          simp [List.count_cons]
          omega
        rw [hcnt] at hsplit
        have : 1 ≤ (s₂.map Prod.fst).count x := by omega
        exact List.count_pos_iff_mem.mp (by omega)
      obtain ⟨t₁, t₂, heq₂, hne, hcyc, h₂'⟩ := splitMem graph s₂ x v x h₂ hxs₂
      have hok' : stepsOk graph u (s₁ ++ t₂) v := stepsOk_append graph s₁ u x t₂ v h₁ h₂'
      have hlen' : (s₁ ++ t₂).length ≤ B := by
        have e1 : steps.length = s₁.length + t₁.length + t₂.length := by
          rw [heq, heq₂]
          simp
          omega
        have e2 : 1 ≤ t₁.length := by
          cases t₁ with
          | nil => exact absurd rfl hne
          | cons a b => simp
        rw [List.length_append]
        omega
      have hcost' : stepsCost (s₁ ++ t₂) ≤ stepsCost steps := by
        have hc0 : 0 ≤ stepsCost t₁ := stepsCost_nonneg graph hwf t₁ x x hcyc
        rw [heq, heq₂, stepsCost_append, stepsCost_append, stepsCost_append]
        omega
      obtain ⟨steps', ha, hb, hc⟩ := ih (s₁ ++ t₂) u v hlen' hok'
      exact ⟨steps', ha, le_trans hb hcost', hc⟩

theorem reach_short (graph : WeightedGraph) (hwf : GraphWF graph)
    (start v : Nat) (c : Int) (hstart : start ∈ mkeys graph)
    (h : ReachC graph start v c) :
    ∃ steps, stepsOk graph start steps v ∧ stepsCost steps ≤ c ∧
      steps.length + 1 ≤ (mkeys graph).length := by
  obtain ⟨steps, hok, hc⟩ := h
  obtain ⟨steps', hok', hcost', hnd'⟩ :=
    walk_shorten graph hwf steps.length steps start v (le_refl _) hok
  refine ⟨steps', hok', by omega, ?_⟩
  have hsub : ∀ z ∈ start :: steps'.map Prod.fst, z ∈ mkeys graph := by
    intro z hz
    cases List.mem_cons.mp hz with
    | inl hz => exact hz ▸ hstart
    | inr hz => exact (stepsOk_mem_keys graph hwf steps' start v hok' hstart).2 z hz
  have hperm : (start :: steps'.map Prod.fst).Subperm (mkeys graph) :=
    List.Nodup.subperm hnd' hsub
  have := hperm.length_le
  simp at this
  omega

theorem mext {α : Type} :
    ∀ (m₁ m₂ : List (Nat × α)), mkeys m₁ = mkeys m₂ → (mkeys m₁).Nodup →
      (∀ k, mget m₁ k = mget m₂ k) → m₁ = m₂ := by
  intro m₁
  induction m₁ with
  | nil =>
    intro m₂ hk _ _
    cases m₂ with
    | nil => rfl
    | cons p t => exact absurd hk (by simp [mkeys])
  | cons p t₁ ih =>
    intro m₂ hk hnd hget
    obtain ⟨k, v⟩ := p
    cases m₂ with
    | nil => exact absurd hk (by simp [mkeys])
    | cons q t₂ =>
      obtain ⟨k₂, v₂⟩ := q
      have hk' : k = k₂ ∧ mkeys t₁ = mkeys t₂ := by
        constructor
        · have := congrArg (fun l => l.headI) hk
          simpa [mkeys] using this
        · have := congrArg List.tail hk
          simpa [mkeys] using this
      obtain ⟨hkk, htk⟩ := hk'
      subst hkk
      have hv : v = v₂ := by
        have := hget k
        simp [mget] at this
        exact this
      subst hv
      have hknot : k ∉ mkeys t₁ := not_mem_mkeys_tail k v t₁ hnd
      refine congrArg _ (ih t₂ htk (nodup_mkeys_tail k v t₁ hnd) ?_)
      intro k'
      by_cases hkk' : k' = k
      · subst hkk'
        rw [(mget_eq_none_iff t₁ k').mpr hknot,
          (mget_eq_none_iff t₂ k').mpr (htk ▸ hknot)]
      · have h1 := hget k'
        rw [mget_cons, mget_cons, if_neg (fun hc => hkk' hc.symm),
          if_neg (fun hc => hkk' hc.symm)] at h1
        exact h1

theorem mem_mget {α : Type} :
    ∀ (m : List (Nat × α)) (k : Nat) (v : α), (mkeys m).Nodup → (k, v) ∈ m →
      mget m k = some v := by
  intro m
  induction m with
  | nil => intro k v _ h; simp at h
  | cons p t ih =>
    intro k v hnd h
    obtain ⟨k₁, v₁⟩ := p
    rw [List.mem_cons] at h
    cases h with
    | inl h =>
      obtain ⟨h1, h2⟩ := Prod.mk.injEq .. ▸ h
      rw [mget_cons, if_pos (by rw [h1])]
      rw [h2]
    | inr h =>
      have hk : k₁ ≠ k := by
        intro hc
        subst hc
        exact (not_mem_mkeys_tail k₁ v₁ t hnd)
          (by simp [mkeys]; exact ⟨v, h⟩)
      rw [mget_cons, if_neg hk]
      exact ih k v (nodup_mkeys_tail k₁ v₁ t hnd) h

theorem graphToEdges_mem_aux :
    ∀ (g : List (Nat × List (Nat × Int))) (acc : List BFEdge) (e : BFEdge),
      e ∈ g.foldl (fun acc p => acc ++ (p.2.map (fun q => (p.1, q.1, q.2)) : List BFEdge)) acc ↔
        e ∈ acc ∨ ∃ p ∈ g, ∃ q ∈ p.2, e = ((p.1, q.1, q.2) : BFEdge) := by
  intro g
  induction g with
  | nil => intro acc e; simp
  | cons p t ih =>
    intro acc e
    rw [List.foldl_cons, ih]
    constructor
    · rintro (h | h)
      · rw [List.mem_append] at h
        cases h with
        | inl h => exact Or.inl h
        | inr h =>
          rw [List.mem_map] at h
          obtain ⟨q, hq, rfl⟩ := h
          exact Or.inr ⟨p, List.mem_cons_self _ _, q, hq, rfl⟩
      · obtain ⟨p', hp', q, hq, rfl⟩ := h
        exact Or.inr ⟨p', List.mem_cons_of_mem _ hp', q, hq, rfl⟩
    · rintro (h | h)
      · exact Or.inl (List.mem_append.mpr (Or.inl h))
      · obtain ⟨p', hp', q, hq, rfl⟩ := h
        rw [List.mem_cons] at hp'
        cases hp' with
        | inl hp' =>
          subst hp'
          exact Or.inl (List.mem_append.mpr (Or.inr (List.mem_map.mpr ⟨q, hq, rfl⟩)))
        | inr hp' => exact Or.inr ⟨p', hp', q, hq, rfl⟩

theorem graphToEdges_edgeP (graph : WeightedGraph) (hnd : (mkeys graph).Nodup)
    (e : BFEdge) (h : e ∈ graphToEdges graph) : edgeP graph e.1 e.2.1 e.2.2 := by
  rw [graphToEdges, graphToEdges_mem_aux] at h
  cases h with
  | inl h => simp at h
  | inr h =>
    obtain ⟨p, hp, q, hq, rfl⟩ := h
    exact ⟨p.2, mem_mget graph p.1 p.2 hnd hp, by
      show (q.1, q.2) ∈ p.2
      simpa using hq⟩

theorem edgeP_graphToEdges (graph : WeightedGraph) (u v : Nat) (w : Int)
    (h : edgeP graph u v w) : (u, v, w) ∈ graphToEdges graph := by
  obtain ⟨ns, hns, hmem⟩ := h
  rw [graphToEdges, graphToEdges_mem_aux]
  exact Or.inr ⟨(u, ns), mget_mem graph u ns hns, (v, w), hmem, rfl⟩

/-- Pointwise distance-map order (`none` = `Infinity`). -/
def dLe (d₁ d₂ : List (Nat × Option Int)) : Prop :=
  ∀ v, leN ((mget d₁ v).getD none) ((mget d₂ v).getD none)

theorem dLe_refl (d : List (Nat × Option Int)) : dLe d d := fun v => leN_refl _

theorem dLe_trans (d₁ d₂ d₃ : List (Nat × Option Int)) (h₁ : dLe d₁ d₂) (h₂ : dLe d₂ d₃) :
    dLe d₁ d₃ := fun v => leN_trans _ _ _ (h₁ v) (h₂ v)

theorem relaxEdge_skip (st : List (Nat × Option Int) × List (Nat × Nat)) (e : BFEdge)
    (h : (mget st.1 e.1).getD none = none) : relaxEdge st e = st := by
  rw [relaxEdge, h]

theorem relaxEdge_fresh (st : List (Nat × Option Int) × List (Nat × Nat)) (e : BFEdge)
    (du : Int) (h : (mget st.1 e.1).getD none = some du)
    (h₂ : (mget st.1 e.2.1).getD none = none) :
    relaxEdge st e = (mset st.1 e.2.1 (some (du + e.2.2)), mset st.2 e.2.1 e.1) := by
  rw [relaxEdge, h, h₂]

theorem relaxEdge_improve (st : List (Nat × Option Int) × List (Nat × Nat)) (e : BFEdge)
    (du dv : Int) (h : (mget st.1 e.1).getD none = some du)
    (h₂ : (mget st.1 e.2.1).getD none = some dv) (himp : du + e.2.2 < dv) :
    relaxEdge st e = (mset st.1 e.2.1 (some (du + e.2.2)), mset st.2 e.2.1 e.1) := by
  rw [relaxEdge, h, h₂]
  show (if du + e.2.2 < dv then (mset st.1 e.2.1 (some (du + e.2.2)), mset st.2 e.2.1 e.1)
    else st) = _
  rw [if_pos himp]

theorem relaxEdge_keep (st : List (Nat × Option Int) × List (Nat × Nat)) (e : BFEdge)
    (du dv : Int) (h : (mget st.1 e.1).getD none = some du)
    (h₂ : (mget st.1 e.2.1).getD none = some dv) (himp : ¬ du + e.2.2 < dv) :
    relaxEdge st e = st := by
  rw [relaxEdge, h, h₂]
  show (if du + e.2.2 < dv then (mset st.1 e.2.1 (some (du + e.2.2)), mset st.2 e.2.1 e.1)
    else st) = _
  rw [if_neg himp]

theorem relaxEdge_mono (st : List (Nat × Option Int) × List (Nat × Nat)) (e : BFEdge) :
    dLe (relaxEdge st e).1 st.1 := by
  intro v
  cases hdu : (mget st.1 e.1).getD none with
  | none =>
    rw [relaxEdge_skip st e hdu]
    exact leN_refl _
  | some du =>
    cases hdv : (mget st.1 e.2.1).getD none with
    | none =>
      rw [relaxEdge_fresh st e du hdu hdv]
      show leN ((mget (mset st.1 e.2.1 (some (du + e.2.2))) v).getD none) _
      by_cases hv : v = e.2.1
      · subst hv
        rw [mget_mset_self, hdv]
        trivial
      · rw [mget_mset_ne st.1 e.2.1 v _ (fun hc => hv hc.symm)]
        exact leN_refl _
    | some dv =>
      by_cases himp : du + e.2.2 < dv
      · rw [relaxEdge_improve st e du dv hdu hdv himp]
        show leN ((mget (mset st.1 e.2.1 (some (du + e.2.2))) v).getD none) _
        by_cases hv : v = e.2.1
        · subst hv
          rw [mget_mset_self, hdv]
          show du + e.2.2 ≤ dv
          omega
        · rw [mget_mset_ne st.1 e.2.1 v _ (fun hc => hv hc.symm)]
          exact leN_refl _
      · rw [relaxEdge_keep st e du dv hdu hdv himp]
        exact leN_refl _

theorem relaxEdge_bound (st : List (Nat × Option Int) × List (Nat × Nat)) (e : BFEdge) :
    leN ((mget (relaxEdge st e).1 e.2.1).getD none)
      (addO ((mget st.1 e.1).getD none) (some e.2.2)) := by
  cases hdu : (mget st.1 e.1).getD none with
  | none => exact leN_none _
  | some du =>
    cases hdv : (mget st.1 e.2.1).getD none with
    | none =>
      rw [relaxEdge_fresh st e du hdu hdv]
      show leN ((mget (mset st.1 e.2.1 (some (du + e.2.2))) e.2.1).getD none) _
      rw [mget_mset_self]
      exact leN_refl _
    | some dv =>
      by_cases himp : du + e.2.2 < dv
      · rw [relaxEdge_improve st e du dv hdu hdv himp]
        show leN ((mget (mset st.1 e.2.1 (some (du + e.2.2))) e.2.1).getD none) _
        rw [mget_mset_self]
        exact leN_refl _
      · rw [relaxEdge_keep st e du dv hdu hdv himp, hdv]
        show dv ≤ du + e.2.2
        omega

theorem bfFoldl_mono (es : List BFEdge) :
    ∀ st : List (Nat × Option Int) × List (Nat × Nat), dLe (es.foldl relaxEdge st).1 st.1 := by
  induction es with
  | nil => intro st; exact dLe_refl _
  | cons e es ih =>
    intro st
    exact dLe_trans _ _ _ (ih (relaxEdge st e)) (relaxEdge_mono st e)

theorem bfPass_upper (edges : List BFEdge) (e : BFEdge) (he : e ∈ edges)
    (st : List (Nat × Option Int) × List (Nat × Nat)) :
    leN ((mget (bfPass edges st).1 e.2.1).getD none)
      (addO ((mget st.1 e.1).getD none) (some e.2.2)) := by
  obtain ⟨l₁, l₂, rfl⟩ := List.append_of_mem he
  rw [bfPass, List.foldl_append, List.foldl_cons]
  refine leN_trans _ _ _ (bfFoldl_mono l₂ (relaxEdge (l₁.foldl relaxEdge st) e) e.2.1) ?_
  refine leN_trans _ _ _ (relaxEdge_bound (l₁.foldl relaxEdge st) e) ?_
  exact leN_addO _ _ _ (bfFoldl_mono l₁ st e.1)

theorem mkeys_foldl_fresh :
    ∀ (vs : List Nat) (m : List (Nat × Option Int)), vs.Nodup →
      (∀ v ∈ vs, v ∉ mkeys m) →
      mkeys (vs.foldl (fun m v => mset m v none) m) = mkeys m ++ vs := by
  intro vs
  induction vs with
  | nil => intro m _ _; simp
  | cons v vs ih =>
    intro m hnd hfresh
    rw [List.foldl_cons, ih (mset m v none) (List.nodup_cons.mp hnd).2 ?_]
    · rw [mkeys_mset_of_fresh m v none
        ((mget_eq_none_iff m v).mpr (hfresh v (List.mem_cons_self v vs)))]
      simp
    · intro z hz
      rw [mkeys_mset_of_fresh m v none
        ((mget_eq_none_iff m v).mpr (hfresh v (List.mem_cons_self v vs)))]
      rw [List.mem_append]
      rintro (hc | hc)
      · exact hfresh z (List.mem_cons_of_mem v hz) hc
      · rw [List.mem_singleton] at hc
        exact (List.nodup_cons.mp hnd).1 (hc ▸ hz)

theorem foldl_init_value :
    ∀ (vs : List Nat) (m : List (Nat × Option Int)) (v : Nat),
      (∀ k, (mget m k).getD none = none) →
      (mget (vs.foldl (fun m v => mset m v none) m) v).getD none = none := by
  intro vs
  induction vs with
  | nil => intro m v h; exact h v
  | cons x vs ih =>
    intro m v h
    rw [List.foldl_cons]
    refine ih (mset m x none) v ?_
    intro k
    by_cases hk : k = x
    · subst hk
      rw [mget_mset_self]
      rfl
    · rw [mget_mset_ne m x k none (fun hc => hk hc.symm)]
      exact h k

theorem bfInit_keys (vertices : List Nat) (start : Nat) (hnd : vertices.Nodup)
    (hstart : start ∈ vertices) : mkeys (bfInit vertices start) = vertices := by
  rw [bfInit]
  have hkeys : mkeys (vertices.foldl (fun m v => mset m v none)
      ([] : List (Nat × Option Int))) = vertices := by
    have := mkeys_foldl_fresh vertices [] hnd (by intro v _; simp [mkeys])
    simpa using this
  rw [mkeys_mset_of_mem _ start (some 0) ?_, hkeys]
  rw [Ne, mget_eq_none_iff, hkeys]
  exact fun hc => hc hstart

theorem bfInit_get_start (vertices : List Nat) (start : Nat) :
    (mget (bfInit vertices start) start).getD none = some 0 := by
  rw [bfInit, mget_mset_self]
  rfl

theorem bfInit_get_ne (vertices : List Nat) (start v : Nat) (hv : v ≠ start) :
    (mget (bfInit vertices start) v).getD none = none := by
  rw [bfInit, mget_mset_ne _ start v _ (fun hc => hv hc.symm)]
  exact foldl_init_value vertices [] v (fun k => rfl)

/-- Soundness of a distance map: every finite entry is a real walk cost. -/
def BFSound (graph : WeightedGraph) (start : Nat) (dist : List (Nat × Option Int)) : Prop :=
  ∀ v c, (mget dist v).getD none = some c → ReachC graph start v c

theorem bfInit_sound (graph : WeightedGraph) (vertices : List Nat) (start : Nat) :
    BFSound graph start (bfInit vertices start) := by
  intro v c h
  by_cases hv : v = start
  · subst hv
    rw [bfInit_get_start] at h
    obtain rfl : (0 : Int) = c := Option.some.inj h
    exact ⟨[], stepsOk_nil graph v, rfl⟩
  · rw [bfInit_get_ne vertices start v hv] at h
    exact absurd h (by simp)

theorem relaxEdge_sound (graph : WeightedGraph) (start : Nat)
    (st : List (Nat × Option Int) × List (Nat × Nat)) (e : BFEdge)
    (he : edgeP graph e.1 e.2.1 e.2.2) (hs : BFSound graph start st.1) :
    BFSound graph start (relaxEdge st e).1 := by
  have hnew : ∀ du, (mget st.1 e.1).getD none = some du →
      ReachC graph start e.2.1 (du + e.2.2) := by
    intro du hdu
    obtain ⟨steps, hok, hc⟩ := hs e.1 du hdu
    exact ⟨steps ++ [(e.2.1, e.2.2)], stepsOk_snoc graph steps start e.1 e.2.1 e.2.2 hok he,
      by rw [stepsCost_append, hc, stepsCost_cons, stepsCost_nil]; ring⟩
  intro v c h
  cases hdu : (mget st.1 e.1).getD none with
  | none =>
    rw [relaxEdge_skip st e hdu] at h
    exact hs v c h
  | some du =>
    cases hdv : (mget st.1 e.2.1).getD none with
    | none =>
      rw [relaxEdge_fresh st e du hdu hdv] at h
      by_cases hv : v = e.2.1
      · subst hv
        rw [show (mset st.1 e.2.1 (some (du + e.2.2)), mset st.2 e.2.1 e.1).1 =
            mset st.1 e.2.1 (some (du + e.2.2)) from rfl, mget_mset_self] at h
        obtain rfl : du + e.2.2 = c := Option.some.inj h
        exact hnew du hdu
      · rw [show (mset st.1 e.2.1 (some (du + e.2.2)), mset st.2 e.2.1 e.1).1 =
            mset st.1 e.2.1 (some (du + e.2.2)) from rfl,
          mget_mset_ne st.1 e.2.1 v _ (fun hc => hv hc.symm)] at h
        exact hs v c h
    | some dv =>
      by_cases himp : du + e.2.2 < dv
      · rw [relaxEdge_improve st e du dv hdu hdv himp] at h
        by_cases hv : v = e.2.1
        · subst hv
          rw [show (mset st.1 e.2.1 (some (du + e.2.2)), mset st.2 e.2.1 e.1).1 =
              mset st.1 e.2.1 (some (du + e.2.2)) from rfl, mget_mset_self] at h
          obtain rfl : du + e.2.2 = c := Option.some.inj h
          exact hnew du hdu
        · rw [show (mset st.1 e.2.1 (some (du + e.2.2)), mset st.2 e.2.1 e.1).1 =
              mset st.1 e.2.1 (some (du + e.2.2)) from rfl,
            mget_mset_ne st.1 e.2.1 v _ (fun hc => hv hc.symm)] at h
          exact hs v c h
      · rw [relaxEdge_keep st e du dv hdu hdv himp] at h
        exact hs v c h

theorem bfFoldl_sound (graph : WeightedGraph) (start : Nat) (hnd : (mkeys graph).Nodup) :
    ∀ (es : List BFEdge) (st : List (Nat × Option Int) × List (Nat × Nat)),
      (∀ e ∈ es, e ∈ graphToEdges graph) → BFSound graph start st.1 →
      BFSound graph start (es.foldl relaxEdge st).1 := by
  intro es
  induction es with
  | nil => intro st _ hs; exact hs
  | cons e es ih =>
    intro st hes hs
    rw [List.foldl_cons]
    refine ih (relaxEdge st e) (fun e' he' => hes e' (List.mem_cons_of_mem e he')) ?_
    exact relaxEdge_sound graph start st e
      (graphToEdges_edgeP graph hnd e (hes e (List.mem_cons_self e es))) hs

theorem stepsOk_append_inv (graph : WeightedGraph) :
    ∀ (a b : List (Nat × Int)) (u v : Nat), stepsOk graph u (a ++ b) v →
      ∃ x, stepsOk graph u a x ∧ stepsOk graph x b v := by
  intro a
  induction a with
  | nil => intro b u v h; exact ⟨u, rfl, h⟩
  | cons s rest ih =>
    intro b u v h
    obtain ⟨he, hrest⟩ := h
    obtain ⟨x, h₁, h₂⟩ := ih b s.1 v hrest
    exact ⟨x, ⟨he, h₁⟩, h₂⟩

theorem bf_start_le_zero (graph : WeightedGraph) (vertices : List Nat) (start : Nat) :
    ∀ k, leN ((mget ((fun st => bfPass (graphToEdges graph) st)^[k]
      (bfInit vertices start, [])).1 start).getD none) (some 0) := by
  intro k
  induction k with
  | zero =>
    rw [Function.iterate_zero_apply, bfInit_get_start]
    exact le_refl (0 : Int)
  | succ k ih =>
    rw [Function.iterate_succ_apply']
    exact leN_trans _ _ _ (bfFoldl_mono (graphToEdges graph) _ start) ih

theorem bf_upper_walk (graph : WeightedGraph) (vertices : List Nat) (start : Nat) :
    ∀ (k : Nat) (steps : List (Nat × Int)) (v : Nat), steps.length ≤ k →
      stepsOk graph start steps v →
      leN ((mget ((fun st => bfPass (graphToEdges graph) st)^[k]
        (bfInit vertices start, [])).1 v).getD none) (some (stepsCost steps)) := by
  intro k
  induction k with
  | zero =>
    intro steps v hlen hok
    have : steps = [] := List.length_eq_zero.mp (by omega)
    subst this
    have : start = v := hok
    subst this
    rw [Function.iterate_zero_apply, bfInit_get_start]
    exact le_refl _
  | succ k ih =>
    intro steps v hlen hok
    cases List.eq_nil_or_concat steps with
    | inl hnil =>
      subst hnil
      have : start = v := hok
      subst this
      exact bf_start_le_zero graph vertices start (k + 1)
    | inr hcons =>
      obtain ⟨s', last, hceq⟩ := hcons
      rw [List.concat_eq_append] at hceq
      subst hceq
      obtain ⟨u', h₁, h₂⟩ := stepsOk_append_inv graph s' [last] start v hok
      obtain ⟨he, hlast⟩ := h₂
      have hveq : last.1 = v := hlast
      have hlen' : s'.length ≤ k := by
        rw [List.length_append] at hlen
        simp at hlen
        omega
      have hih := ih s' u' hlen' h₁
      rw [Function.iterate_succ_apply']
      have hmem : ((u', last.1, last.2) : BFEdge) ∈ graphToEdges graph :=
        edgeP_graphToEdges graph u' last.1 last.2 he
      have hup := bfPass_upper (graphToEdges graph) (u', last.1, last.2) hmem
        ((fun st => bfPass (graphToEdges graph) st)^[k] (bfInit vertices start, []))
      rw [hveq] at hup
      refine leN_trans _ _ _ hup ?_
      refine leN_trans _ _ _ (leN_addO _ _ last.2 hih) ?_
      rw [stepsCost_append, stepsCost_cons, stepsCost_nil]
      show stepsCost s' + last.2 ≤ stepsCost s' + (last.2 + 0)
      omega

theorem relaxEdge_keys (st : List (Nat × Option Int) × List (Nat × Nat)) (e : BFEdge)
    (hmem : e.2.1 ∈ mkeys st.1) : mkeys (relaxEdge st e).1 = mkeys st.1 := by
  have hset : mkeys (mset st.1 e.2.1 (some (e.2.2 + e.2.2))) = mkeys st.1 := by
    exact mkeys_mset_of_mem st.1 e.2.1 _ (fun hc => (mget_eq_none_iff st.1 e.2.1).mp hc hmem)
  cases hdu : (mget st.1 e.1).getD none with
  | none => rw [relaxEdge_skip st e hdu]
  | some du =>
    cases hdv : (mget st.1 e.2.1).getD none with
    | none =>
      rw [relaxEdge_fresh st e du hdu hdv]
      exact mkeys_mset_of_mem st.1 e.2.1 _
        (fun hc => (mget_eq_none_iff st.1 e.2.1).mp hc hmem)
    | some dv =>
      by_cases himp : du + e.2.2 < dv
      · rw [relaxEdge_improve st e du dv hdu hdv himp]
        exact mkeys_mset_of_mem st.1 e.2.1 _
          (fun hc => (mget_eq_none_iff st.1 e.2.1).mp hc hmem)
      · rw [relaxEdge_keep st e du dv hdu hdv himp]

theorem bfFoldl_keys (graph : WeightedGraph) (hnd : (mkeys graph).Nodup)
    (hwf : GraphWF graph) :
    ∀ (es : List BFEdge) (st : List (Nat × Option Int) × List (Nat × Nat)),
      (∀ e ∈ es, e ∈ graphToEdges graph) → mkeys st.1 = mkeys graph →
      mkeys (es.foldl relaxEdge st).1 = mkeys graph := by
  intro es
  induction es with
  | nil => intro st _ h; exact h
  | cons e es ih =>
    intro st hes hkeys
    rw [List.foldl_cons]
    refine ih (relaxEdge st e) (fun e' he' => hes e' (List.mem_cons_of_mem e he')) ?_
    rw [relaxEdge_keys st e ?_, hkeys]
    rw [hkeys]
    exact edgeP_target_mem graph hwf e.1 e.2.1 e.2.2
      (graphToEdges_edgeP graph hnd e (hes e (List.mem_cons_self e es)))

theorem bf_iterate_keys (graph : WeightedGraph) (hnd : (mkeys graph).Nodup)
    (hwf : GraphWF graph) (start : Nat) (hstart : start ∈ mkeys graph) :
    ∀ k, mkeys ((fun st => bfPass (graphToEdges graph) st)^[k]
      (bfInit (mkeys graph) start, [])).1 = mkeys graph := by
  intro k
  induction k with
  | zero =>
    rw [Function.iterate_zero_apply]
    exact bfInit_keys (mkeys graph) start hnd hstart
  | succ k ih =>
    rw [Function.iterate_succ_apply']
    exact bfFoldl_keys graph hnd hwf (graphToEdges graph) _ (fun e he => he) ih

theorem bf_iterate_sound (graph : WeightedGraph) (hnd : (mkeys graph).Nodup) (start : Nat) :
    ∀ k, BFSound graph start ((fun st => bfPass (graphToEdges graph) st)^[k]
      (bfInit (mkeys graph) start, [])).1 := by
  intro k
  induction k with
  | zero =>
    rw [Function.iterate_zero_apply]
    exact bfInit_sound graph (mkeys graph) start
  | succ k ih =>
    rw [Function.iterate_succ_apply']
    exact bfFoldl_sound graph start hnd (graphToEdges graph) _ (fun e he => he) ih

theorem bf_optimal (graph : WeightedGraph) (hnd : (mkeys graph).Nodup)
    (hwf : GraphWF graph) (start : Nat) (hstart : start ∈ mkeys graph) :
    ∀ v, OptDist graph start v
      ((mget (bfRelaxed (mkeys graph) (graphToEdges graph) start).1 v).getD none) := by
  intro v
  have hn1 : 1 ≤ (mkeys graph).length := by
    cases hk : mkeys graph with
    | nil => rw [hk] at hstart; simp at hstart
    | cons a l => simp
  have hupper : ∀ c', ReachC graph start v c' →
      leN ((mget (bfRelaxed (mkeys graph) (graphToEdges graph) start).1 v).getD none)
        (some c') := by
    intro c' hreach
    obtain ⟨steps, hok, hcost, hshort⟩ := reach_short graph hwf start v c' hstart hreach
    have := bf_upper_walk graph (mkeys graph) start ((mkeys graph).length - 1) steps v
      (by omega) hok
    rw [bfRelaxed]
    refine leN_trans _ _ _ this ?_
    exact hcost
  cases hd : (mget (bfRelaxed (mkeys graph) (graphToEdges graph) start).1 v).getD none with
  | none =>
    intro c' hreach
    have := hupper c' hreach
    rw [hd] at this
    exact absurd this (by simp [leN])
  | some c =>
    constructor
    · exact bf_iterate_sound graph hnd start ((mkeys graph).length - 1) v c hd
    · intro c' hreach
      have := hupper c' hreach
      rw [hd] at this
      exact this

theorem pqInsert_perm (x : Int × Nat) :
    ∀ l : List (Int × Nat), (pqInsert x l).Perm (x :: l) := by
  intro l
  induction l with
  | nil => exact List.Perm.refl _
  | cons y ys ih =>
    rw [pqInsert]
    by_cases h : x.1 ≤ y.1
    · rw [if_pos h]
    · rw [if_neg h]
      exact (List.Perm.cons y ih).trans (List.Perm.swap x y ys)

theorem pqSort_perm : ∀ l : List (Int × Nat), (pqSort l).Perm l := by
  intro l
  induction l with
  | nil => exact List.Perm.refl _
  | cons x xs ih =>
    rw [pqSort, List.foldr_cons]
    exact (pqInsert_perm x (pqSort xs)).trans (List.Perm.cons x ih)

theorem pqInsert_sorted (x : Int × Nat) :
    ∀ l : List (Int × Nat), l.Pairwise (fun a b => a.1 ≤ b.1) →
      (pqInsert x l).Pairwise (fun a b => a.1 ≤ b.1) := by
  intro l
  induction l with
  | nil => intro _; exact List.pairwise_singleton _ _
  | cons y ys ih =>
    intro h
    obtain ⟨hy, hys⟩ := List.pairwise_cons.mp h
    rw [pqInsert]
    by_cases hle : x.1 ≤ y.1
    · rw [if_pos hle]
      refine List.pairwise_cons.mpr ⟨?_, h⟩
      intro z hz
      cases List.mem_cons.mp hz with
      | inl hz => rw [hz]; exact hle
      | inr hz => exact le_trans hle (hy z hz)
    · rw [if_neg hle]
      refine List.pairwise_cons.mpr ⟨?_, ih hys⟩
      intro z hz
      have hz' : z ∈ x :: ys := (pqInsert_perm x ys).mem_iff.mp hz
      cases List.mem_cons.mp hz' with
      | inl hz' => rw [hz']; omega
      | inr hz' => exact hy z hz'

theorem pqSort_sorted : ∀ l : List (Int × Nat),
    (pqSort l).Pairwise (fun a b => a.1 ≤ b.1) := by
  intro l
  induction l with
  | nil => exact List.Pairwise.nil
  | cons x xs ih =>
    rw [pqSort, List.foldr_cons]
    exact pqInsert_sorted x (pqSort xs) ih

theorem pqSort_head_min (l : List (Int × Nat)) (p : Int × Nat) (rest : List (Int × Nat))
    (h : pqSort l = p :: rest) : ∀ q ∈ l, p.1 ≤ q.1 := by
  intro q hq
  have hq' : q ∈ p :: rest := by
    rw [← h]
    exact ((pqSort_perm l).symm.mem_iff).mp hq
  cases List.mem_cons.mp hq' with
  | inl hq' => rw [hq']
  | inr hq' =>
    have hs := pqSort_sorted l
    rw [h] at hs
    exact (List.pairwise_cons.mp hs).1 q hq'

theorem pqSort_mem (l : List (Int × Nat)) (p : Int × Nat) (rest : List (Int × Nat))
    (h : pqSort l = p :: rest) : p ∈ l ∧ ∀ q ∈ rest, q ∈ l := by
  have hp := pqSort_perm l
  rw [h] at hp
  constructor
  · exact hp.mem_iff.mp (List.mem_cons_self p rest)
  · intro q hq
    exact hp.mem_iff.mp (List.mem_cons_of_mem p hq)

theorem pqSort_nil (l : List (Int × Nat)) (h : pqSort l = []) : l = [] := by
  have hp := pqSort_perm l
  rw [h] at hp
  exact (List.Perm.nil_eq hp).symm

theorem cross_boundary (graph : WeightedGraph) (vis : List Nat) :
    ∀ (steps : List (Nat × Int)) (u v : Nat), stepsOk graph u steps v → v ∉ vis →
      u ∉ vis ∨ ∃ s₁ y w s₂ u', steps = s₁ ++ (y, w) :: s₂ ∧ stepsOk graph u s₁ u' ∧
        u' ∈ vis ∧ edgeP graph u' y w ∧ y ∉ vis ∧ stepsOk graph y s₂ v := by
  intro steps
  induction steps with
  | nil =>
    intro u v h hv
    have : u = v := h
    exact Or.inl (this ▸ hv)
  | cons s rest ih =>
    intro u v h hv
    obtain ⟨he, hrest⟩ := h
    by_cases hu : u ∈ vis
    · by_cases hx : s.1 ∈ vis
      · cases ih s.1 v hrest hv with
        | inl hc => exact absurd hx hc
        | inr hc =>
          obtain ⟨s₁, y, w, s₂, u', heq, h₁, h₂, h₃, h₄, h₅⟩ := hc
          exact Or.inr ⟨s :: s₁, y, w, s₂, u', by rw [heq]; rfl, ⟨he, h₁⟩, h₂, h₃, h₄, h₅⟩
      · exact Or.inr ⟨[], s.1, s.2, rest, u, rfl, rfl, hu, he, hx, hrest⟩
    · exact Or.inl hu

/-- Loop invariant for `dijkstra`. -/
structure DInvP (graph : WeightedGraph) (start : Nat) (st : DState) : Prop where
  keys : mkeys st.dist = mkeys graph
  visSub : ∀ x ∈ st.visited, x ∈ mkeys graph
  visNodup : st.visited.Nodup
  pqKeys : ∀ q ∈ st.pq, q.2 ∈ mkeys graph
  pqReach : ∀ q ∈ st.pq, ReachC graph start q.2 q.1
  pqDist : ∀ q ∈ st.pq, leN ((mget st.dist q.2).getD none) (some q.1)
  sound : ∀ v c, (mget st.dist v).getD none = some c → ReachC graph start v c
  entry : ∀ x, x ∉ st.visited → ∀ c, (mget st.dist x).getD none = some c → (c, x) ∈ st.pq
  relaxed : ∀ u ∈ st.visited, ∀ v w, edgeP graph u v w →
      leN ((mget st.dist v).getD none) (addO ((mget st.dist u).getD none) (some w))
  visOpt : ∀ u ∈ st.visited, ∀ c', ReachC graph start u c' →
      leN ((mget st.dist u).getD none) (some c')
  visFin : ∀ u ∈ st.visited, ∃ c, (mget st.dist u).getD none = some c
  startOk : start ∈ st.visited ∨ (mget st.dist start).getD none = some 0

theorem dpop_opt (graph : WeightedGraph) (start : Nat) (hwf : GraphWF graph)
    (st : DState) (hinv : DInvP graph start st) (d : Int) (node : Nat)
    (rest : List (Int × Nat)) (hsort : pqSort st.pq = (d, node) :: rest)
    (hnv : node ∉ st.visited) :
    (mget st.dist node).getD none = some d ∧
      (∀ c', ReachC graph start node c' → d ≤ c') := by
  have hmem : (d, node) ∈ st.pq := (pqSort_mem st.pq (d, node) rest hsort).1
  obtain ⟨c, hdc, hcd⟩ := leN_some_dest _ d (hinv.pqDist (d, node) hmem)
  have hentry : (c, node) ∈ st.pq := hinv.entry node hnv c hdc
  have hmin : d ≤ c := pqSort_head_min st.pq (d, node) rest hsort (c, node) hentry
  have hdceq : c = d := by omega
  refine ⟨by rw [hdc, hdceq], ?_⟩
  intro c' hreach
  obtain ⟨steps, hok, hcost⟩ := hreach
  cases cross_boundary graph st.visited steps start node hok hnv with
  | inl hs =>
    have hd0 : (mget st.dist start).getD none = some 0 := by
      cases hinv.startOk with
      | inl hc => exact absurd hc hs
      | inr hc => exact hc
    have hpq0 : ((0 : Int), start) ∈ st.pq := hinv.entry start hs 0 hd0
    have hd0' : d ≤ 0 := pqSort_head_min st.pq (d, node) rest hsort (0, start) hpq0
    have hc0 : 0 ≤ c' := by
      rw [← hcost]
      exact stepsCost_nonneg graph hwf steps start node hok
    omega
  | inr hs =>
    obtain ⟨s₁, y, w, s₂, u', heq, h₁, h₂, h₃, h₄, h₅⟩ := hs
    have hru : ReachC graph start u' (stepsCost s₁) := ⟨s₁, h₁, rfl⟩
    obtain ⟨cu, hcu⟩ := hinv.visFin u' h₂
    have hcu1 : cu ≤ stepsCost s₁ := by
      have := hinv.visOpt u' h₂ (stepsCost s₁) hru
      rw [hcu] at this
      exact this
    have hrel := hinv.relaxed u' h₂ y w h₃
    rw [hcu] at hrel
    obtain ⟨cy, hcy, hcyle⟩ := leN_some_dest _ (cu + w) hrel
    have hpqy : (cy, y) ∈ st.pq := hinv.entry y h₄ cy hcy
    have hdcy : d ≤ cy := pqSort_head_min st.pq (d, node) rest hsort (cy, y) hpqy
    have hs₂ : 0 ≤ stepsCost s₂ := stepsCost_nonneg graph hwf s₂ y node h₅
    have hcost' : c' = stepsCost s₁ + w + stepsCost s₂ := by
      rw [← hcost, heq, stepsCost_append, stepsCost_cons]
      ring
    omega

/-- One neighbour-relaxation step of `dRelax` (the body of the inner loop). -/
def dStep (node : Nat) (d : Int) (s : DState) (nw : Nat × Int) : DState :=
  if nw.1 ∈ s.visited then s
  else
    let newDist := d + nw.2
    match (mget s.dist nw.1).getD none with
    | none =>
      { s with dist := mset s.dist nw.1 (some newDist),
               prev := mset s.prev nw.1 node, pq := s.pq ++ [(newDist, nw.1)] }
    | some cur =>
      if newDist < cur then
        { s with dist := mset s.dist nw.1 (some newDist),
                 prev := mset s.prev nw.1 node, pq := s.pq ++ [(newDist, nw.1)] }
      else s

theorem dRelax_eq_foldl (node : Nat) (d : Int) (st : DState) (ns : List (Nat × Int)) :
    dRelax node d st ns = ns.foldl (dStep node d) st := rfl

theorem dStep_visited (node : Nat) (d : Int) (s : DState) (nw : Nat × Int)
    (h : nw.1 ∈ s.visited) : dStep node d s nw = s := by
  rw [dStep, if_pos h]

theorem dStep_fresh (node : Nat) (d : Int) (s : DState) (nw : Nat × Int)
    (hnv : nw.1 ∉ s.visited) (h : (mget s.dist nw.1).getD none = none) :
    dStep node d s nw = { s with
      dist := mset s.dist nw.1 (some (d + nw.2)),
      prev := mset s.prev nw.1 node, pq := s.pq ++ [(d + nw.2, nw.1)] } := by
  rw [dStep, if_neg hnv, h]

theorem dStep_improve (node : Nat) (d : Int) (s : DState) (nw : Nat × Int)
    (hnv : nw.1 ∉ s.visited) (cur : Int) (h : (mget s.dist nw.1).getD none = some cur)
    (himp : d + nw.2 < cur) :
    dStep node d s nw = { s with
      dist := mset s.dist nw.1 (some (d + nw.2)),
      prev := mset s.prev nw.1 node, pq := s.pq ++ [(d + nw.2, nw.1)] } := by
  rw [dStep, if_neg hnv, h]
  show (if d + nw.2 < cur then _ else s) = _
  rw [if_pos himp]

theorem dStep_keep (node : Nat) (d : Int) (s : DState) (nw : Nat × Int)
    (hnv : nw.1 ∉ s.visited) (cur : Int) (h : (mget s.dist nw.1).getD none = some cur)
    (himp : ¬ d + nw.2 < cur) : dStep node d s nw = s := by
  rw [dStep, if_neg hnv, h]
  show (if d + nw.2 < cur then _ else s) = s
  rw [if_neg himp]

/-- Invariant during `dRelax`: all of `DInvP` except that the edges of the
freshly visited `node` still in `pending` may be unrelaxed. -/
structure DRelaxMid (graph : WeightedGraph) (start node : Nat) (d : Int)
    (pending : List (Nat × Int)) (s : DState) : Prop where
  keys : mkeys s.dist = mkeys graph
  visSub : ∀ x ∈ s.visited, x ∈ mkeys graph
  visNodup : s.visited.Nodup
  pqKeys : ∀ q ∈ s.pq, q.2 ∈ mkeys graph
  pqReach : ∀ q ∈ s.pq, ReachC graph start q.2 q.1
  pqDist : ∀ q ∈ s.pq, leN ((mget s.dist q.2).getD none) (some q.1)
  sound : ∀ v c, (mget s.dist v).getD none = some c → ReachC graph start v c
  entry : ∀ x, x ∉ s.visited → ∀ c, (mget s.dist x).getD none = some c → (c, x) ∈ s.pq
  relaxedOld : ∀ u ∈ s.visited, u ≠ node → ∀ v w, edgeP graph u v w →
      leN ((mget s.dist v).getD none) (addO ((mget s.dist u).getD none) (some w))
  relaxedNode : ∀ v w, edgeP graph node v w → ((v, w) ∈ pending ∨
      leN ((mget s.dist v).getD none) (addO ((mget s.dist node).getD none) (some w)))
  visOpt : ∀ u ∈ s.visited, ∀ c', ReachC graph start u c' →
      leN ((mget s.dist u).getD none) (some c')
  visFin : ∀ u ∈ s.visited, ∃ c, (mget s.dist u).getD none = some c
  startOk : start ∈ s.visited ∨ (mget s.dist start).getD none = some 0
  nodeVis : node ∈ s.visited
  nodeD : (mget s.dist node).getD none = some d

theorem dStep_update_mid (graph : WeightedGraph) (start node : Nat) (d : Int)
    (hwf : GraphWF graph) (nw : Nat × Int) (pending' : List (Nat × Int)) (s : DState)
    (hedge : edgeP graph node nw.1 nw.2) (hnv : nw.1 ∉ s.visited)
    (hmid : DRelaxMid graph start node d (nw :: pending') s)
    (hold : leN (some (d + nw.2)) ((mget s.dist nw.1).getD none)) :
    DRelaxMid graph start node d pending' { s with
      dist := mset s.dist nw.1 (some (d + nw.2)),
      prev := mset s.prev nw.1 node, pq := s.pq ++ [(d + nw.2, nw.1)] } := by
  have hx : nw.1 ∈ mkeys graph := edgeP_target_mem graph hwf node nw.1 nw.2 hedge
  have hxd : nw.1 ∈ mkeys s.dist := by rw [hmid.keys]; exact hx
  have hne : node ≠ nw.1 := fun hc => hnv (hc ▸ hmid.nodeVis)
  have hreachd : ReachC graph start node d := hmid.sound node d hmid.nodeD
  have hd0 : 0 ≤ d := ReachC_nonneg graph hwf start node d hreachd
  have hw0 : 0 ≤ nw.2 := edgeP_weight_nonneg graph hwf node nw.1 nw.2 hedge
  have hreachx : ReachC graph start nw.1 (d + nw.2) := by
    obtain ⟨steps, hok, hc⟩ := hreachd
    exact ⟨steps ++ [(nw.1, nw.2)],
      stepsOk_snoc graph steps start node nw.1 nw.2 hok hedge,
      by rw [stepsCost_append, hc, stepsCost_cons, stepsCost_nil]; ring⟩
  have dvalx : (mget (mset s.dist nw.1 (some (d + nw.2))) nw.1).getD none =
      some (d + nw.2) := by rw [mget_mset_self]; rfl
  have dval' : ∀ y, y ≠ nw.1 →
      (mget (mset s.dist nw.1 (some (d + nw.2))) y).getD none =
        (mget s.dist y).getD none := by
    intro y hy
    rw [mget_mset_ne s.dist nw.1 y _ (fun hc => hy hc.symm)]
  have hmono : ∀ y, leN ((mget (mset s.dist nw.1 (some (d + nw.2))) y).getD none)
      ((mget s.dist y).getD none) := by
    intro y
    by_cases hy : y = nw.1
    · subst hy
      rw [dvalx]
      exact hold
    · rw [dval' y hy]
      exact leN_refl _
  refine ⟨?_, hmid.visSub, hmid.visNodup, ?_, ?_, ?_, ?_, ?_, ?_, ?_, ?_, ?_, ?_,
    hmid.nodeVis, ?_⟩
  · show mkeys (mset s.dist nw.1 (some (d + nw.2))) = mkeys graph
    rw [mkeys_mset_of_mem s.dist nw.1 _
      (fun hc => (mget_eq_none_iff s.dist nw.1).mp hc hxd), hmid.keys]
  · intro q hq
    cases List.mem_append.mp hq with
    | inl hq => exact hmid.pqKeys q hq
    | inr hq =>
      rw [List.mem_singleton] at hq
      rw [hq]
      exact hx
  · intro q hq
    cases List.mem_append.mp hq with
    | inl hq => exact hmid.pqReach q hq
    | inr hq =>
      rw [List.mem_singleton] at hq
      rw [hq]
      exact hreachx
  · intro q hq
    cases List.mem_append.mp hq with
    | inl hq => exact leN_trans _ _ _ (hmono q.2) (hmid.pqDist q hq)
    | inr hq =>
      rw [List.mem_singleton] at hq
      rw [hq]
      show leN ((mget (mset s.dist nw.1 (some (d + nw.2))) nw.1).getD none) _
      rw [dvalx]
      exact leN_refl _
  · intro v c h
    by_cases hv : v = nw.1
    · subst hv
      rw [dvalx] at h
      obtain rfl : d + nw.2 = c := Option.some.inj h
      exact hreachx
    · rw [dval' v hv] at h
      exact hmid.sound v c h
  · intro y hy c h
    by_cases hyx : y = nw.1
    · subst hyx
      rw [dvalx] at h
      obtain rfl : d + nw.2 = c := Option.some.inj h
      exact List.mem_append.mpr (Or.inr (List.mem_singleton.mpr rfl))
    · rw [dval' y hyx] at h
      exact List.mem_append.mpr (Or.inl (hmid.entry y hy c h))
  · intro u hu hun v w he
    have hux : u ≠ nw.1 := fun hc => hnv (hc ▸ hu)
    rw [dval' u hux]
    exact leN_trans _ _ _ (hmono v) (hmid.relaxedOld u hu hun v w he)
  · intro v w he
    rw [dval' node hne]
    cases hmid.relaxedNode v w he with
    | inl hp =>
      cases List.mem_cons.mp hp with
      | inl hp =>
        obtain ⟨h1, h2⟩ := Prod.mk.injEq .. ▸ hp
        right
        subst h1
        subst h2
        rw [dvalx, hmid.nodeD]
        exact leN_refl _
      | inr hp => exact Or.inl hp
    | inr hrel => exact Or.inr (leN_trans _ _ _ (hmono v) hrel)
  · intro u hu c' hr
    have hux : u ≠ nw.1 := fun hc => hnv (hc ▸ hu)
    rw [dval' u hux]
    exact hmid.visOpt u hu c' hr
  · intro u hu
    have hux : u ≠ nw.1 := fun hc => hnv (hc ▸ hu)
    rw [dval' u hux]
    exact hmid.visFin u hu
  · cases hmid.startOk with
    | inl hs => exact Or.inl hs
    | inr hs =>
      right
      by_cases hsx : start = nw.1
      · have h0 : d + nw.2 ≤ 0 := by
          rw [← hsx, hs] at hold
          exact hold
        show (mget (mset s.dist nw.1 (some (d + nw.2))) start).getD none = some 0
        rw [hsx, dvalx, show d + nw.2 = 0 by omega]
      · rw [dval' start hsx]
        exact hs
  · rw [dval' node hne]
    exact hmid.nodeD

theorem dStep_mid (graph : WeightedGraph) (start node : Nat) (d : Int)
    (hwf : GraphWF graph) (nw : Nat × Int) (pending' : List (Nat × Int)) (s : DState)
    (hedge : edgeP graph node nw.1 nw.2)
    (hmid : DRelaxMid graph start node d (nw :: pending') s) :
    DRelaxMid graph start node d pending' (dStep node d s nw) := by
  by_cases hnv : nw.1 ∈ s.visited
  · rw [dStep_visited node d s nw hnv]
    have hrel : leN ((mget s.dist nw.1).getD none)
        (addO ((mget s.dist node).getD none) (some nw.2)) := by
      rw [hmid.nodeD]
      refine hmid.visOpt nw.1 hnv (d + nw.2) ?_
      obtain ⟨steps, hok, hc⟩ := hmid.sound node d hmid.nodeD
      exact ⟨steps ++ [(nw.1, nw.2)],
        stepsOk_snoc graph steps start node nw.1 nw.2 hok hedge,
        by rw [stepsCost_append, hc, stepsCost_cons, stepsCost_nil]; ring⟩
    refine ⟨hmid.keys, hmid.visSub, hmid.visNodup, hmid.pqKeys, hmid.pqReach,
      hmid.pqDist, hmid.sound, hmid.entry, hmid.relaxedOld, ?_, hmid.visOpt,
      hmid.visFin, hmid.startOk, hmid.nodeVis, hmid.nodeD⟩
    intro v w he
    cases hmid.relaxedNode v w he with
    | inl hp =>
      cases List.mem_cons.mp hp with
      | inl hp =>
        obtain ⟨h1, h2⟩ := Prod.mk.injEq .. ▸ hp
        subst h1
        subst h2
        exact Or.inr hrel
      | inr hp => exact Or.inl hp
    | inr hrel' => exact Or.inr hrel'
  · cases hdx : (mget s.dist nw.1).getD none with
    | none =>
      rw [dStep_fresh node d s nw hnv hdx]
      exact dStep_update_mid graph start node d hwf nw pending' s hedge hnv hmid
        (by rw [hdx]; trivial)
    | some cur =>
      by_cases himp : d + nw.2 < cur
      · rw [dStep_improve node d s nw hnv cur hdx himp]
        exact dStep_update_mid graph start node d hwf nw pending' s hedge hnv hmid
          (by rw [hdx]; show d + nw.2 ≤ cur; omega)
      · rw [dStep_keep node d s nw hnv cur hdx himp]
        refine ⟨hmid.keys, hmid.visSub, hmid.visNodup, hmid.pqKeys, hmid.pqReach,
          hmid.pqDist, hmid.sound, hmid.entry, hmid.relaxedOld, ?_, hmid.visOpt,
          hmid.visFin, hmid.startOk, hmid.nodeVis, hmid.nodeD⟩
        intro v w he
        cases hmid.relaxedNode v w he with
        | inl hp =>
          cases List.mem_cons.mp hp with
          | inl hp =>
            obtain ⟨h1, h2⟩ := Prod.mk.injEq .. ▸ hp
            subst h1
            subst h2
            right
            rw [hdx, hmid.nodeD]
            show cur ≤ d + nw.2
            omega
          | inr hp => exact Or.inl hp
        | inr hrel' => exact Or.inr hrel'

theorem dStep_fold (graph : WeightedGraph) (start node : Nat) (d : Int)
    (hwf : GraphWF graph) :
    ∀ (pending : List (Nat × Int)) (s : DState),
      (∀ q ∈ pending, edgeP graph node q.1 q.2) →
      DRelaxMid graph start node d pending s →
      DRelaxMid graph start node d [] (pending.foldl (dStep node d) s) := by
  intro pending
  induction pending with
  | nil => intro s _ h; exact h
  | cons nw pending' ih =>
    intro s hpend hmid
    rw [List.foldl_cons]
    exact ih (dStep node d s nw) (fun q hq => hpend q (List.mem_cons_of_mem nw hq))
      (dStep_mid graph start node d hwf nw pending' s
        (hpend nw (List.mem_cons_self nw pending')) hmid)

theorem dmid_to_inv (graph : WeightedGraph) (start node : Nat) (d : Int) (s : DState)
    (hmid : DRelaxMid graph start node d [] s) : DInvP graph start s := by
  refine ⟨hmid.keys, hmid.visSub, hmid.visNodup, hmid.pqKeys, hmid.pqReach,
    hmid.pqDist, hmid.sound, hmid.entry, ?_, hmid.visOpt, hmid.visFin, hmid.startOk⟩
  intro u hu v w he
  by_cases hun : u = node
  · subst hun
    cases hmid.relaxedNode v w he with
    | inl hp => simp at hp
    | inr hrel => exact hrel
  · exact hmid.relaxedOld u hu hun v w he

theorem dvisit_inv (graph : WeightedGraph) (start : Nat) (hwf : GraphWF graph)
    (st : DState) (hinv : DInvP graph start st) (d : Int) (node : Nat)
    (rest : List (Int × Nat)) (hsort : pqSort st.pq = (d, node) :: rest)
    (hnv : node ∉ st.visited) :
    DInvP graph start
      (dRelax node d { st with visited := node :: st.visited, pq := rest }
        ((mget graph node).getD [])) := by
  obtain ⟨hdnode, hdmin⟩ := dpop_opt graph start hwf st hinv d node rest hsort hnv
  have hrestmem : ∀ q ∈ rest, q ∈ st.pq := (pqSort_mem st.pq (d, node) rest hsort).2
  have hnodekey : node ∈ mkeys graph :=
    hinv.pqKeys (d, node) (pqSort_mem st.pq (d, node) rest hsort).1
  have hpend : ∀ q ∈ (mget graph node).getD [], edgeP graph node q.1 q.2 := by
    intro q hq
    cases hg : mget graph node with
    | none => rw [hg] at hq; simp at hq
    | some ns =>
      rw [hg] at hq
      exact ⟨ns, hg, by
        show (q.1, q.2) ∈ ns
        simpa using hq⟩
  have hbase : DRelaxMid graph start node d ((mget graph node).getD [])
      { st with visited := node :: st.visited, pq := rest } := by
    refine ⟨hinv.keys, ?_, ?_, ?_, ?_, ?_, hinv.sound, ?_, ?_, ?_, ?_, ?_, ?_, ?_, ?_⟩
    · intro x hx
      cases List.mem_cons.mp hx with
      | inl hx => exact hx ▸ hnodekey
      | inr hx => exact hinv.visSub x hx
    · exact List.nodup_cons.mpr ⟨hnv, hinv.visNodup⟩
    · intro q hq
      exact hinv.pqKeys q (hrestmem q hq)
    · intro q hq
      exact hinv.pqReach q (hrestmem q hq)
    · intro q hq
      exact hinv.pqDist q (hrestmem q hq)
    · intro x hx c h
      have hxn : x ≠ node := fun hc => hx (hc ▸ List.mem_cons_self node st.visited)
      have hxv : x ∉ st.visited := fun hc => hx (List.mem_cons_of_mem node hc)
      have := hinv.entry x hxv c h
      have hmem : (c, x) ∈ (d, node) :: rest := by
        rw [← hsort]
        exact ((pqSort_perm st.pq).symm.mem_iff).mp this
      cases List.mem_cons.mp hmem with
      | inl hc =>
        obtain ⟨h1, h2⟩ := Prod.mk.injEq .. ▸ hc
        exact absurd h2 hxn
      | inr hc => exact hc
    · intro u hu hun v w he
      have hu' : u ∈ st.visited := by
        cases List.mem_cons.mp hu with
        | inl hc => exact absurd hc hun
        | inr hc => exact hc
      exact hinv.relaxed u hu' v w he
    · intro v w he
      exact Or.inl (by
        cases hg : mget graph node with
        | none => exact absurd hg (by
            obtain ⟨ns, hns, _⟩ := he
            rw [hns]
            simp)
        | some ns =>
          obtain ⟨ns', hns', hm⟩ := he
          rw [hg] at hns'
          obtain rfl : ns = ns' := Option.some.inj hns'
          show (v, w) ∈ ns
          exact hm)
    · intro u hu c' hr
      cases List.mem_cons.mp hu with
      | inl hc =>
        subst hc
        rw [hdnode]
        exact hdmin c' hr
      | inr hc => exact hinv.visOpt u hc c' hr
    · intro u hu
      cases List.mem_cons.mp hu with
      | inl hc => exact ⟨d, hc ▸ hdnode⟩
      | inr hc => exact hinv.visFin u hc
    · by_cases hsn : start = node
      · exact Or.inl (hsn ▸ List.mem_cons_self node st.visited)
      · cases hinv.startOk with
        | inl hc => exact Or.inl (List.mem_cons_of_mem node hc)
        | inr hc => exact Or.inr hc
    · exact List.mem_cons_self node st.visited
    · exact hdnode
  rw [dRelax_eq_foldl]
  exact dmid_to_inv graph start node d _
    (dStep_fold graph start node d hwf ((mget graph node).getD [])
      { st with visited := node :: st.visited, pq := rest } hpend hbase)

/-- Adjacency-list length of a vertex. -/
def dDeg (graph : WeightedGraph) (x : Nat) : Nat := ((mget graph x).getD []).length

/-- Total degree of the not-yet-visited vertices. -/
def dUnvisSum (graph : WeightedGraph) (vis : List Nat) : Nat :=
  (((mkeys graph).filter (fun x => decide (x ∉ vis))).map (dDeg graph)).sum

/-- Loop measure: queue length plus pending degrees; strictly decreasing. -/
def dMeasure (graph : WeightedGraph) (st : DState) : Nat :=
  st.pq.length + dUnvisSum graph st.visited

theorem dStep_visited_eq (node : Nat) (d : Int) (s : DState) (nw : Nat × Int) :
    (dStep node d s nw).visited = s.visited := by
  by_cases hnv : nw.1 ∈ s.visited
  · rw [dStep_visited node d s nw hnv]
  · cases hdx : (mget s.dist nw.1).getD none with
    | none => rw [dStep_fresh node d s nw hnv hdx]
    | some cur =>
      by_cases himp : d + nw.2 < cur
      · rw [dStep_improve node d s nw hnv cur hdx himp]
      · rw [dStep_keep node d s nw hnv cur hdx himp]

theorem dStep_pq_len (node : Nat) (d : Int) (s : DState) (nw : Nat × Int) :
    (dStep node d s nw).pq.length ≤ s.pq.length + 1 := by
  by_cases hnv : nw.1 ∈ s.visited
  · rw [dStep_visited node d s nw hnv]
    omega
  · cases hdx : (mget s.dist nw.1).getD none with
    | none =>
      rw [dStep_fresh node d s nw hnv hdx]
      show (s.pq ++ [(d + nw.2, nw.1)]).length ≤ s.pq.length + 1
      rw [List.length_append]
      simp
    | some cur =>
      by_cases himp : d + nw.2 < cur
      · rw [dStep_improve node d s nw hnv cur hdx himp]
        show (s.pq ++ [(d + nw.2, nw.1)]).length ≤ s.pq.length + 1
        rw [List.length_append]
        simp
      · rw [dStep_keep node d s nw hnv cur hdx himp]
        omega

theorem dRelax_visited_pq (node : Nat) (d : Int) :
    ∀ (ns : List (Nat × Int)) (s : DState),
      (ns.foldl (dStep node d) s).visited = s.visited ∧
      (ns.foldl (dStep node d) s).pq.length ≤ s.pq.length + ns.length := by
  intro ns
  induction ns with
  | nil => intro s; exact ⟨rfl, by simp⟩
  | cons nw ns ih =>
    intro s
    rw [List.foldl_cons]
    obtain ⟨h1, h2⟩ := ih (dStep node d s nw)
    refine ⟨by rw [h1, dStep_visited_eq], ?_⟩
    have := dStep_pq_len node d s nw
    rw [List.length_cons]
    omega

theorem filter_sum_remove (deg : Nat → Nat) (node : Nat) (vis : List Nat)
    (hnvis : node ∉ vis) :
    ∀ l : List Nat, l.Nodup → node ∈ l →
      ((l.filter (fun x => decide (x ∉ vis))).map deg).sum =
        ((l.filter (fun x => decide (x ∉ node :: vis))).map deg).sum + deg node := by
  intro l
  induction l with
  | nil => intro _ h; simp at h
  | cons a l ih =>
    intro hnd hmem
    obtain ⟨hal, hl⟩ := List.nodup_cons.mp hnd
    by_cases han : a = node
    · subst han
      have hcong : l.filter (fun x => decide (x ∉ vis)) =
          l.filter (fun x => decide (x ∉ a :: vis)) := by
        apply List.filter_congr
        intro x hx
        have hxa : x ≠ a := fun hc => hal (hc ▸ hx)
        simp [hxa]
      rw [List.filter_cons, List.filter_cons,
        show (decide (a ∉ vis)) = true from by simpa using hnvis,
        show (decide (a ∉ a :: vis)) = false from by simp,
        if_pos rfl, if_neg (show ¬ (false = true) from by simp),
        List.map_cons, List.sum_cons, hcong]
      omega
    · have hmem' : node ∈ l := by
        cases List.mem_cons.mp hmem with
        | inl hc => exact absurd hc.symm han
        | inr hc => exact hc
      by_cases hav : a ∉ vis
      · have h1 : decide (a ∉ vis) = true := by simpa using hav
        have h2 : decide (a ∉ node :: vis) = true := by
          simp [han, hav]
        rw [List.filter_cons, List.filter_cons, h1, h2, if_pos rfl, if_pos rfl,
          List.map_cons, List.sum_cons, List.map_cons, List.sum_cons, ih hl hmem']
        omega
      · have hav' : a ∈ vis := not_not.mp hav
        have h1 : decide (a ∉ vis) = false := by simpa using hav'
        have h2 : decide (a ∉ node :: vis) = false := by
          simp
          exact fun _ => hav'
        rw [List.filter_cons, List.filter_cons, h1, h2,
          if_neg (show ¬ (false = true) from by simp),
          if_neg (show ¬ (false = true) from by simp)]
        exact ih hl hmem'

theorem filter_sum_le (deg : Nat → Nat) (p : Nat → Bool) :
    ∀ l : List Nat, ((l.filter p).map deg).sum ≤ (l.map deg).sum := by
  intro l
  induction l with
  | nil => simp
  | cons a l ih =>
    by_cases hp : p a = true
    · rw [List.filter_cons, if_pos hp, List.map_cons, List.sum_cons,
        List.map_cons, List.sum_cons]
      omega
    · rw [List.filter_cons, if_neg hp, List.map_cons, List.sum_cons]
      omega

theorem deg_sum_aux :
    ∀ g : List (Nat × List (Nat × Int)), (g.map Prod.fst).Nodup →
      ((g.map Prod.fst).map (fun x => ((mget g x).getD []).length)).sum =
        (g.map (fun p => p.2.length)).sum := by
  intro g
  induction g with
  | nil => simp
  | cons p t ih =>
    intro hnd
    rw [List.map_cons] at hnd
    obtain ⟨hpt, ht⟩ := List.nodup_cons.mp hnd
    rw [List.map_cons, List.map_cons, List.sum_cons, List.map_cons, List.sum_cons]
    have h1 : (mget (p :: t) p.1).getD [] = p.2 := by
      rw [show mget (p :: t) p.1 = some p.2 from by
        rw [show (p :: t) = ((p.1, p.2) :: t) from by rw [Prod.mk.eta], mget_cons, if_pos rfl]]
      rfl
    have h2 : (t.map Prod.fst).map (fun x => ((mget (p :: t) x).getD []).length) =
        (t.map Prod.fst).map (fun x => ((mget t x).getD []).length) := by
      apply List.map_congr_left
      intro x hx
      have hxp : p.1 ≠ x := fun hc => hpt (hc ▸ hx)
      rw [show mget (p :: t) x = mget t x from by
        rw [show (p :: t) = ((p.1, p.2) :: t) from by rw [Prod.mk.eta], mget_cons,
          if_neg hxp]]
    rw [h1, h2, ih ht]

theorem dUnvisSum_le (graph : WeightedGraph) (hnd : (mkeys graph).Nodup) (vis : List Nat) :
    dUnvisSum graph vis ≤ totalEdges graph := by
  rw [dUnvisSum]
  refine le_trans (filter_sum_le (dDeg graph) _ (mkeys graph)) ?_
  rw [show ((mkeys graph).map (dDeg graph)).sum = (totalEdges graph) from
    deg_sum_aux graph hnd]

theorem dskip_inv (graph : WeightedGraph) (start : Nat) (st : DState)
    (hinv : DInvP graph start st) (d : Int) (node : Nat) (rest : List (Int × Nat))
    (hsort : pqSort st.pq = (d, node) :: rest) (hvis : node ∈ st.visited) :
    DInvP graph start { st with pq := rest } := by
  have hrestmem : ∀ q ∈ rest, q ∈ st.pq := (pqSort_mem st.pq (d, node) rest hsort).2
  refine ⟨hinv.keys, hinv.visSub, hinv.visNodup, ?_, ?_, ?_, hinv.sound, ?_,
    hinv.relaxed, hinv.visOpt, hinv.visFin, hinv.startOk⟩
  · intro q hq
    exact hinv.pqKeys q (hrestmem q hq)
  · intro q hq
    exact hinv.pqReach q (hrestmem q hq)
  · intro q hq
    exact hinv.pqDist q (hrestmem q hq)
  · intro x hx c h
    have hxn : x ≠ node := fun hc => hx (hc ▸ hvis)
    have hmem : (c, x) ∈ (d, node) :: rest := by
      rw [← hsort]
      exact ((pqSort_perm st.pq).symm.mem_iff).mp (hinv.entry x hx c h)
    cases List.mem_cons.mp hmem with
    | inl hc =>
      obtain ⟨h1, h2⟩ := Prod.mk.injEq .. ▸ hc
      exact absurd h2 hxn
    | inr hc => exact hc

theorem dloop_spec (graph : WeightedGraph) (start : Nat) (hwf : GraphWF graph)
    (hnd : (mkeys graph).Nodup) :
    ∀ (fuel : Nat) (st : DState), DInvP graph start st → dMeasure graph st ≤ fuel →
      DInvP graph start (dijkstraLoop graph fuel st) ∧
        (dijkstraLoop graph fuel st).pq = [] := by
  intro fuel
  induction fuel with
  | zero =>
    intro st hinv hm
    have hpq : st.pq = [] := by
      rw [dMeasure] at hm
      exact List.length_eq_zero.mp (by omega)
    exact ⟨hinv, hpq⟩
  | succ fuel ih =>
    intro st hinv hm
    cases hsort : pqSort st.pq with
    | nil =>
      have hpq : st.pq = [] := pqSort_nil st.pq hsort
      have heq : dijkstraLoop graph (fuel + 1) st = st := by
        rw [dijkstraLoop, hsort]
      rw [heq]
      exact ⟨hinv, hpq⟩
    | cons q rest =>
      obtain ⟨d, node⟩ := q
      have hlen : rest.length + 1 = st.pq.length := by
        have := (pqSort_perm st.pq).length_eq
        rw [hsort] at this
        simpa using this
      by_cases hvis : node ∈ st.visited
      · have heq : dijkstraLoop graph (fuel + 1) st =
            dijkstraLoop graph fuel { st with pq := rest } := by
          rw [dijkstraLoop, hsort]
          show (if node ∈ st.visited then dijkstraLoop graph fuel { st with pq := rest }
            else _) = _
          rw [if_pos hvis]
        rw [heq]
        refine ih { st with pq := rest }
          (dskip_inv graph start st hinv d node rest hsort hvis) ?_
        show rest.length + dUnvisSum graph st.visited ≤ fuel
        rw [dMeasure] at hm
        omega
      · have heq : dijkstraLoop graph (fuel + 1) st =
            dijkstraLoop graph fuel
              (dRelax node d { st with visited := node :: st.visited, pq := rest }
                ((mget graph node).getD [])) := by
          rw [dijkstraLoop, hsort]
          show (if node ∈ st.visited then _
            else dijkstraLoop graph fuel
              (dRelax node d { st with visited := node :: st.visited, pq := rest }
                ((mget graph node).getD []))) = _
          rw [if_neg hvis]
        rw [heq]
        have hinv₂ := dvisit_inv graph start hwf st hinv d node rest hsort hvis
        refine ih _ hinv₂ ?_
        have hnodekey : node ∈ mkeys graph :=
          hinv.pqKeys (d, node) (pqSort_mem st.pq (d, node) rest hsort).1
        obtain ⟨hv, hp⟩ := dRelax_visited_pq node d ((mget graph node).getD [])
          { st with visited := node :: st.visited, pq := rest }
        have hsum := filter_sum_remove (dDeg graph) node st.visited hvis (mkeys graph)
          hnd hnodekey
        rw [dMeasure, dRelax_eq_foldl, hv]
        show _ + dUnvisSum graph (node :: st.visited) ≤ fuel
        rw [dMeasure] at hm
        have hdeg : ((mget graph node).getD []).length = dDeg graph node := rfl
        have hsum' : dUnvisSum graph st.visited =
            dUnvisSum graph (node :: st.visited) + dDeg graph node := hsum
        show (((mget graph node).getD []).foldl (dStep node d)
          { st with visited := node :: st.visited, pq := rest }).pq.length +
            dUnvisSum graph (node :: st.visited) ≤ fuel
        have hc : ({ st with visited := node :: st.visited, pq := rest } : DState).pq.length
            = rest.length := rfl
        have hfh : (List.map (dDeg graph)
            (List.filter (fun x => decide (x ∉ node :: st.visited)) (mkeys graph))).sum =
          dUnvisSum graph (node :: st.visited) := rfl
        omega

theorem dfinal_opt (graph : WeightedGraph) (start : Nat) (hwf : GraphWF graph)
    (st : DState) (hinv : DInvP graph start st) (hpq : st.pq = []) :
    ∀ v, OptDist graph start v ((mget st.dist v).getD none) := by
  intro v
  cases hd : (mget st.dist v).getD none with
  | some c =>
    have hvvis : v ∈ st.visited := by
      by_contra hvv
      have := hinv.entry v hvv c hd
      rw [hpq] at this
      simp at this
    refine ⟨hinv.sound v c hd, ?_⟩
    intro c' hr
    have := hinv.visOpt v hvvis c' hr
    rw [hd] at this
    exact this
  | none =>
    intro c' hr
    have hvv : v ∉ st.visited := by
      intro hc
      obtain ⟨c, hcc⟩ := hinv.visFin v hc
      rw [hd] at hcc
      exact absurd hcc (by simp)
    obtain ⟨steps, hok, hcost⟩ := hr
    cases cross_boundary graph st.visited steps start v hok hvv with
    | inl hs =>
      have hd0 : (mget st.dist start).getD none = some 0 := by
        cases hinv.startOk with
        | inl hc => exact absurd hc hs
        | inr hc => exact hc
      have := hinv.entry start hs 0 hd0
      rw [hpq] at this
      simp at this
    | inr hs =>
      obtain ⟨s₁, y, w, s₂, u', heq, h₁, h₂, h₃, h₄, h₅⟩ := hs
      obtain ⟨cu, hcu⟩ := hinv.visFin u' h₂
      have hrel := hinv.relaxed u' h₂ y w h₃
      rw [hcu] at hrel
      obtain ⟨cy, hcy, _⟩ := leN_some_dest _ (cu + w) hrel
      have := hinv.entry y h₄ cy hcy
      rw [hpq] at this
      simp at this

theorem bfInit_eq_dij (graph : WeightedGraph) (start : Nat) :
    bfInit (mkeys graph) start =
      mset (graph.foldl (fun m p => mset m p.1 none) []) start (some 0) := by
  rw [bfInit, mkeys, List.foldl_map]

theorem dinit_inv (graph : WeightedGraph) (start : Nat) (hnd : (mkeys graph).Nodup)
    (hstart : start ∈ mkeys graph) :
    DInvP graph start
      { dist := mset (graph.foldl (fun m p => mset m p.1 none) []) start (some 0),
        prev := [], visited := [], pq := [(0, start)] } := by
  rw [← bfInit_eq_dij]
  refine ⟨?_, by simp, List.nodup_nil, ?_, ?_, ?_, ?_, ?_, by simp, by simp, by simp, ?_⟩
  · exact bfInit_keys (mkeys graph) start hnd hstart
  · intro q hq
    rw [List.mem_singleton] at hq
    rw [hq]
    exact hstart
  · intro q hq
    rw [List.mem_singleton] at hq
    rw [hq]
    exact ⟨[], stepsOk_nil graph start, rfl⟩
  · intro q hq
    rw [List.mem_singleton] at hq
    rw [hq]
    show leN ((mget (bfInit (mkeys graph) start) start).getD none) (some 0)
    rw [bfInit_get_start]
    exact le_refl (0 : Int)
  · exact bfInit_sound graph (mkeys graph) start
  · intro x _ c h
    by_cases hx : x = start
    · subst hx
      rw [bfInit_get_start] at h
      obtain rfl : (0 : Int) = c := Option.some.inj h
      exact List.mem_singleton.mpr rfl
    · rw [bfInit_get_ne (mkeys graph) start x hx] at h
      exact absurd h (by simp)
  · exact Or.inr (bfInit_get_start (mkeys graph) start)

theorem dijkstra_optimal (graph : WeightedGraph) (start : Nat)
    (hnd : (mkeys graph).Nodup) (hwf : GraphWF graph) (hstart : start ∈ mkeys graph) :
    mkeys (dijkstra graph start).distances = mkeys graph ∧
      ∀ v, OptDist graph start v
        ((mget (dijkstra graph start).distances v).getD none) := by
  have hinit := dinit_inv graph start hnd hstart
  have hm : dMeasure graph
      { dist := mset (graph.foldl (fun m p => mset m p.1 none) []) start (some 0),
        prev := [], visited := [], pq := [(0, start)] } ≤ 1 + totalEdges graph := by
    rw [dMeasure]
    have := dUnvisSum_le graph hnd []
    show 1 + dUnvisSum graph [] ≤ 1 + totalEdges graph
    omega
  obtain ⟨hfin, hpq⟩ := dloop_spec graph start hwf hnd (1 + totalEdges graph)
    { dist := mset (graph.foldl (fun m p => mset m p.1 none) []) start (some 0),
      prev := [], visited := [], pq := [(0, start)] } hinit hm
  exact ⟨hfin.keys, dfinal_opt graph start hwf _ hfin hpq⟩

theorem graphWF_of_entries (g : List (Nat × List (Nat × Int)))
    (h : ∀ p ∈ g, ∀ e ∈ p.2, e.1 ∈ g.map Prod.fst ∧ 0 ≤ e.2) : GraphWF g := by
  intro u ns hget v w hm
  exact h (u, ns) (mget_mem g u ns hget) (v, w) hm

/-- **C2** For every finite graph whose edge weights are all non-negative and
every source vertex, `dijkstra` on the adjacency-map form and `bellmanFord`
on the equivalent edge-list form (via `graphToEdges`) produce identical
distance maps from that source.  Well-formedness per the spec's dense
`[0, V)` vertex identifiers: no duplicate keys, every neighbour a key, and
the source a key; `GraphWF` also carries the claim's non-negative weights. -/
theorem C2_dijkstra_bellman_ford_agreement (graph : WeightedGraph) (start : Nat)
    (hnd : (mkeys graph).Nodup) (hwf : GraphWF graph) (hstart : start ∈ mkeys graph) :
    (dijkstra graph start).distances =
      (bellmanFord (mkeys graph) (graphToEdges graph) start).distances := by
  have hD := dijkstra_optimal graph start hnd hwf hstart
  have hBopt := bf_optimal graph hnd hwf start hstart
  have hBkeys : mkeys (bellmanFord (mkeys graph) (graphToEdges graph) start).distances =
      mkeys graph := by
    show mkeys (bfRelaxed (mkeys graph) (graphToEdges graph) start).1 = mkeys graph
    exact bf_iterate_keys graph hnd hwf start hstart ((mkeys graph).length - 1)
  refine mext _ _ ?_ ?_ ?_
  · rw [hD.1, hBkeys]
  · rw [hD.1]
    exact hnd
  · intro k
    by_cases hk : k ∈ mkeys graph
    · have h1 : mget (dijkstra graph start).distances k ≠ none := by
        rw [Ne, mget_eq_none_iff, hD.1]
        exact fun hc => hc hk
      have h2 : mget (bellmanFord (mkeys graph) (graphToEdges graph) start).distances k
          ≠ none := by
        rw [Ne, mget_eq_none_iff, hBkeys]
        exact fun hc => hc hk
      obtain ⟨d₁, hd₁⟩ := Option.ne_none_iff_exists'.mp h1
      obtain ⟨d₂, hd₂⟩ := Option.ne_none_iff_exists'.mp h2
      rw [hd₁, hd₂]
      have o₁ := hD.2 k
      rw [hd₁] at o₁
      have o₂ := hBopt k
      have hd₂' : mget (bfRelaxed (mkeys graph) (graphToEdges graph) start).1 k =
          some d₂ := hd₂
      rw [hd₂'] at o₂
      exact congrArg some (OptDist_unique graph start k d₁ d₂ o₁ o₂)
    · rw [(mget_eq_none_iff _ k).mpr (by rw [hD.1]; exact hk),
        (mget_eq_none_iff _ k).mpr (by rw [hBkeys]; exact hk)]

/-- Witness for C2 on the demo graph (all weights non-negative), source 0. -/
theorem C2_dijkstra_bellman_ford_agreement_witness :
    (dijkstra dijkstraDemoGraph 0).distances =
      (bellmanFord (mkeys dijkstraDemoGraph) (graphToEdges dijkstraDemoGraph)
        0).distances :=
  C2_dijkstra_bellman_ford_agreement dijkstraDemoGraph 0 (by decide)
    (graphWF_of_entries dijkstraDemoGraph (by decide)) (by decide)
